import Mathlib

/-!
Verification development for the SCRAP-rate dashboard generator
(`src/scrap_rate_dashboard.py`). The data-extraction and aggregation
pipeline is embedded shallowly: Python strings become lists of Unicode
code points, Python numbers (the script only ever stores ints and floats
produced by exact cell values) become rationals, dictionaries become
insertion-ordered association lists, and every fallible operation returns
an `Option`. Machine-float rounding is immaterial to the properties
proved here, so numeric arithmetic is exact.
-/

namespace ScrapRate

/-- Python strings, modelled as lists of Unicode code points. -/
abbrev Str := List Nat

/-- Conversion from a Lean string literal to the code-point model. -/
def codes (s : String) : Str := s.data.map Char.toNat

/-- Whitespace recognised by `str.strip()` (the ASCII cases, which are the
only ones spreadsheet cells produce). -/
def isWS (c : Nat) : Bool := c = 32 || c = 9 || c = 10 || c = 13 || c = 11 || c = 12

/-- Python `str.strip()`: drop whitespace from both ends. -/
def stripWS (s : Str) : Str := ((s.dropWhile isWS).reverse.dropWhile isWS).reverse

/-- Python string `<` (lexicographic on code points). -/
def lexLt : Str → Str → Bool
  | _, [] => false
  | [], _ :: _ => true
  | a :: as, b :: bs => if a < b then true else if b < a then false else lexLt as bs

/-- ASCII digit test. -/
def isDig (c : Nat) : Bool := 48 ≤ c && c ≤ 57

/-- ASCII uppercase-letter test. -/
def isUpper (c : Nat) : Bool := 65 ≤ c && c ≤ 90

/-- Numeric value of a digit string (most significant first). -/
def digitsVal (s : Str) : Nat := s.foldl (fun a c => a * 10 + (c - 48)) 0

/-- Two-digit zero-padded decimal rendering (`%m`, `%d`, strftime). -/
def pad2 (n : Nat) : Str := [48 + n / 10 % 10, 48 + n % 10]

/-- Four-digit zero-padded decimal rendering (`%Y`, strftime). -/
def pad4 (n : Nat) : Str :=
  [48 + n / 1000 % 10, 48 + n / 100 % 10, 48 + n / 10 % 10, 48 + n % 10]

/-- Decimal digits of a natural number (Python `str(n)` for an int). -/
def natDigits (n : Nat) : Str := (Nat.toDigits 10 n).map Char.toNat

/-- Whether `p` begins the string `s`. -/
def isPrefOf : Str → Str → Bool
  | [], _ => true
  | _ :: _, [] => false
  | p :: ps, s :: ss => p = s && isPrefOf ps ss

/-- Python `needle in hay` on strings (substring test). -/
def containsSub (needle : Str) : Str → Bool
  | [] => isPrefOf needle []
  | s :: rest => isPrefOf needle (s :: rest) || containsSub needle rest

/-- Raw cell values as the script sees them: `None`, a number (int/float),
a string, a `datetime` (date part only; `openpyxl` date cells), or a list
of strings (only ever the derived `_part_numbers` field). -/
inductive PyVal where
  | vnone
  | num (q : ℚ)
  | pstr (s : Str)
  | pdate (y m d : Nat)
  | plist (l : List Str)
deriving DecidableEq

/-- Rendering of an integer (Python `str` of an int). -/
def intRender (i : Int) : Str :=
  if i < 0 then 45 :: natDigits i.natAbs else natDigits i.natAbs

/-- Rendering of a rational. Integers render exactly as Python ints do; a
non-integer rational is rendered `num/den` (Python would print a float's
decimal expansion — no proved property depends on this rendering). -/
def qRender (q : ℚ) : Str :=
  if q.den = 1 then intRender q.num else intRender q.num ++ [47] ++ natDigits q.den

/-- Python `str(value)` for the values the pipeline encounters. -/
def pyStr : PyVal → Str
  | .vnone => codes "None"
  | .num q => qRender q
  | .pstr s => s
  | .pdate y m d => pad4 y ++ [45] ++ pad2 m ++ [45] ++ pad2 d ++ codes " 00:00:00"
  | .plist _ => codes "[...]"

/-- Python truthiness of a value. -/
def pyTruthy : PyVal → Bool
  | .vnone => false
  | .num q => if q = 0 then false else true
  | .pstr s => if s = [] then false else true
  | .pdate _ _ _ => true
  | .plist l => if l = [] then false else true

/-- The per-cell keep test of the row loop:
`cell_value is not None and str(cell_value).strip()`. A number or date
always renders to a non-blank string, so only `None` and blank strings
fail. -/
def hasContent (v : PyVal) : Bool :=
  match v with
  | .vnone => false
  | .pstr s => if stripWS s = [] then false else true
  | _ => true

/-- Row records: Python dicts as insertion-ordered association lists. -/
abbrev Rec := List (Str × PyVal)

/-- Dictionary lookup (`row_data[k]` / `k in row_data`). -/
def assocFind : Rec → Str → Option PyVal
  | [], _ => none
  | (k', v) :: rest, k => if k' = k then some v else assocFind rest k

/-- Dictionary store `m[k] = v`: replaces in place, else appends
(Python dicts keep first-insertion order on overwrite). -/
def dictInsert : Rec → Str → PyVal → Rec
  | [], k, v => [(k, v)]
  | (k', v') :: rest, k, v =>
    if k' = k then (k', v) :: rest else (k', v') :: dictInsert rest k v

/-- Grouping indexes: `defaultdict(list)` as ordered association lists. -/
abbrev Buckets := List (Str × List Rec)

/-- Append a record at `data[index][key]` (`defaultdict(list)` append). -/
def appendAt : Buckets → Str → Rec → Buckets
  | [], k, r => [(k, [r])]
  | (k', l) :: rest, k, r =>
    if k' = k then (k', l ++ [r]) :: rest else (k', l) :: appendAt rest k r

/-- Lookup of one bucket's record list (empty when absent). -/
def bucketOf : Buckets → Str → List Rec
  | [], _ => []
  | (k', l) :: rest, k => if k' = k then l else bucketOf rest k

/-- Source lines 221–226, `extract_field`: return the first candidate
column present with a non-`None` value, else `None`. -/
def extract_field (row : Rec) : List Str → PyVal
  | [] => .vnone
  | n :: rest =>
    match assocFind row n with
    | some v => if v = .vnone then extract_field row rest else v
    | none => extract_field row rest

/-- The maximal token of shape `digits [. digits]` starting at the head of
`s` (the regex `[\d,]+\.?\d*` after all commas are removed: a digit run,
an optional dot, a further digit run). -/
def takeNum (s : Str) : Str :=
  let ds := s.takeWhile isDig
  match s.dropWhile isDig with
  | 46 :: r2 => ds ++ 46 :: r2.takeWhile isDig
  | _ => ds

/-- First match of the numeric pattern in `s`: `re.search` scans left to
right; the pattern must begin with a digit. -/
def reSearchNum : Str → Option Str
  | [] => none
  | c :: rest => if isDig c then some (takeNum (c :: rest)) else reSearchNum rest

/-- Python `float()` applied to a matched token `digits [. digits]`. -/
def parseNumTok (t : Str) : Option ℚ :=
  let ip := t.takeWhile isDig
  match t.dropWhile isDig with
  | [] => if ip = [] then none else some (digitsVal ip)
  | 46 :: frac =>
    if ip ≠ [] && frac.all isDig then
      some ((digitsVal ip : ℚ) + (digitsVal frac : ℚ) / (10 : ℚ) ^ frac.length)
    else none
  | _ => none

/-- Source lines 228–242, `extract_number`: numbers pass through as
floats, strings are searched (commas removed) for the first numeric
token, everything else gives `None`. -/
def extract_number : PyVal → Option ℚ
  | .vnone => none
  | .num q => some q
  | .pstr s =>
    match reSearchNum (s.filter (fun c => !(c = 44 : Bool))) with
    | some t => parseNumTok t
    | none => none
  | .pdate _ _ _ => none
  | .plist _ => none

/-- Gregorian leap-year test (`datetime`). -/
def isLeap (y : Nat) : Bool := (y % 4 = 0 && !(y % 100 = 0)) || y % 400 = 0

/-- Length of a month (`datetime`). -/
def daysInMonth (y m : Nat) : Nat :=
  if m = 2 then (if isLeap y then 29 else 28)
  else if m = 4 || m = 6 || m = 9 || m = 11 then 30
  else 31

/-- Validity of a calendar date as `datetime(y, m, d)` accepts it, with
the four-digit year range `strptime`'s `%Y` can produce. -/
def validDate (y m d : Nat) : Bool :=
  1 ≤ y && y ≤ 9999 && 1 ≤ m && m ≤ 12 && 1 ≤ d && d ≤ daysInMonth y m

/-- One `%d`/`%m` component: `strptime` accepts one or two digits whose
value lies in the field's range (days 1–31, months 1–12). -/
def parseMD (lo hi : Nat) (s : Str) : Option Nat :=
  if s.all isDig && (s.length = 1 || s.length = 2)
      && lo ≤ digitsVal s && digitsVal s ≤ hi
  then some (digitsVal s) else none

/-- One `%Y` component: exactly four digits; year `0000` is rejected by
the `datetime` constructor. -/
def parseY4 (s : Str) : Option Nat :=
  if s.all isDig && s.length = 4 && 1 ≤ digitsVal s then some (digitsVal s) else none

/-- Splitting a string at every occurrence of one character. -/
def splitOnAux (sep : Nat) : Str → Str → List Str
  | [], acc => [acc.reverse]
  | c :: rest, acc =>
    if c = sep then acc.reverse :: splitOnAux sep rest []
    else splitOnAux sep rest (c :: acc)

/-- All separator-delimited components of `s`. -/
def splitOnChar (sep : Nat) (s : Str) : List Str := splitOnAux sep s []

/-- Field orders of the six date formats. -/
inductive FOrder where
  | ymd
  | dmy
  | mdy
deriving DecidableEq

/-- One `datetime.strptime(s, fmt)` call for a three-field date format
with a single separator character: the three components must be exactly
the field patterns, and the resulting date must be constructible. -/
def tryFormat (o : FOrder) (sep : Nat) (s : Str) : Option (Nat × Nat × Nat) :=
  match splitOnChar sep s with
  | [a, b, c] =>
    match o with
    | .ymd =>
      match parseY4 a, parseMD 1 12 b, parseMD 1 31 c with
      | some y, some m, some d => if validDate y m d then some (y, m, d) else none
      | _, _, _ => none
    | .dmy =>
      match parseMD 1 31 a, parseMD 1 12 b, parseY4 c with
      | some d, some m, some y => if validDate y m d then some (y, m, d) else none
      | _, _, _ => none
    | .mdy =>
      match parseMD 1 12 a, parseMD 1 31 b, parseY4 c with
      | some m, some d, some y => if validDate y m d then some (y, m, d) else none
      | _, _, _ => none
  | _ => none

/-- The `strftime('%Y-%m-%d')` rendering of a date (zero-padded). -/
def pyFmtYMD (y m d : Nat) : Str := pad4 y ++ 45 :: pad2 m ++ 45 :: pad2 d

/-- The fixed format list of `parse_date`, in source order:
`%Y-%m-%d`, `%d.%m.%Y`, `%d/%m/%Y`, `%m/%d/%Y`, `%Y/%m/%d`, `%d-%m-%Y`
(separator code points: `-` 45, `.` 46, `/` 47). -/
def dateFormats : List (FOrder × Nat) :=
  [(.ymd, 45), (.dmy, 46), (.dmy, 47), (.mdy, 47), (.ymd, 47), (.dmy, 45)]

/-- First format that parses, in order. -/
def tryFormats (s : Str) : List (FOrder × Nat) → Option (Nat × Nat × Nat)
  | [] => none
  | (o, sep) :: rest =>
    match tryFormat o sep s with
    | some t => some t
    | none => tryFormats s rest

/-- Source lines 244–264, `parse_date`: a `datetime` value is formatted
directly; a string is stripped and the six formats are tried in order,
the first success being reformatted as `YYYY-MM-DD`; anything else (or no
parse) gives `None`. -/
def parse_date : PyVal → Option Str
  | .vnone => none
  | .pdate y m d => some (pyFmtYMD y m d)
  | .pstr s =>
    (tryFormats (stripWS s) dateFormats).map (fun t => pyFmtYMD t.1 t.2.1 t.2.2)
  | .num _ => none
  | .plist _ => none

/-- Exactly `n` characters satisfying `p` (a fixed-count regex atom such
as `\d{9}`; no backtracking is possible for fixed counts). -/
def takeExact (p : Nat → Bool) : Nat → Str → Option (Str × Str)
  | 0, s => some ([], s)
  | _ + 1, [] => none
  | n + 1, c :: rest =>
    if p c then (takeExact p n rest).map (fun pr => (c :: pr.1, pr.2)) else none

/-- Greedily up to `n` characters satisfying `p` (the atom `\d{0,2}` at
the end of an alternative). -/
def takeUpTo (p : Nat → Bool) : Nat → Str → Str × Str
  | 0, s => ([], s)
  | _ + 1, [] => ([], [])
  | n + 1, c :: rest =>
    if p c then
      let pr := takeUpTo p n rest
      (c :: pr.1, pr.2)
    else ([], c :: rest)

/-- One literal character of the pattern. -/
def expectChar (c : Nat) : Str → Option Str
  | [] => none
  | x :: rest => if x = c then some rest else none

/-- First regex alternative `[A-Z]\d{9}` at the head of `s`. -/
def matchAlt1 : Str → Option (Str × Str)
  | [] => none
  | c :: rest =>
    if isUpper c then (takeExact isDig 9 rest).map (fun pr => (c :: pr.1, pr.2))
    else none

/-- Second alternative
`[A-Z]-\d{6}\.\d{2}-\d{4}\.[A-Z]{2}\.[A-Z]{2}\d{0,2}` at the head of `s`. -/
def matchAlt2 : Str → Option (Str × Str)
  | [] => none
  | c :: rest =>
    if isUpper c then do
      let r1 ← expectChar 45 rest
      let (d6, r2) ← takeExact isDig 6 r1
      let r3 ← expectChar 46 r2
      let (d2, r4) ← takeExact isDig 2 r3
      let r5 ← expectChar 45 r4
      let (d4, r6) ← takeExact isDig 4 r5
      let r7 ← expectChar 46 r6
      let (u2a, r8) ← takeExact isUpper 2 r7
      let r9 ← expectChar 46 r8
      let (u2b, r10) ← takeExact isUpper 2 r9
      let (d02, r11) := takeUpTo isDig 2 r10
      some (c :: 45 :: d6 ++ 46 :: d2 ++ 45 :: d4 ++ 46 :: u2a ++ 46 :: u2b ++ d02, r11)
    else none

/-- Third alternative `\d{4}-\d{4}-\d{2}` at the head of `s`. -/
def matchAlt3 (s : Str) : Option (Str × Str) := do
  let (a4, r1) ← takeExact isDig 4 s
  let r2 ← expectChar 45 r1
  let (b4, r3) ← takeExact isDig 4 r2
  let r4 ← expectChar 45 r3
  let (c2, r5) ← takeExact isDig 2 r4
  some (a4 ++ 45 :: b4 ++ 45 :: c2, r5)

/-- The alternation tried at one scan position, left alternative first. -/
def matchPartAt (s : Str) : Option (Str × Str) :=
  match matchAlt1 s with
  | some r => some r
  | none =>
    match matchAlt2 s with
    | some r => some r
    | none => matchAlt3 s

/-- The scan loop of `findall`: at each position try the pattern; on a
match record it and resume after it, otherwise advance one character.
Every match consumes at least one character, so the input length bounds
the iteration count. -/
def findAllAux : Nat → Str → List Str
  | 0, _ => []
  | _ + 1, [] => []
  | fuel + 1, c :: rest =>
    match matchPartAt (c :: rest) with
    | some (m, after) => m :: findAllAux fuel after
    | none => findAllAux fuel rest

/-- Python `part_pattern.findall(value)`. -/
def findAllParts (s : Str) : List Str := findAllAux s.length s

/-- Deduplication keeping first occurrences. Python's `list(set(...))`
has an unspecified order; no proved property depends on the order of the
deduplicated list, only on its membership. -/
def dedupAux (seen : List Str) : List Str → List Str
  | [] => []
  | x :: xs => if x ∈ seen then dedupAux seen xs else x :: dedupAux (x :: seen) xs

/-- Deduplicated part-number list. -/
def dedupKeepFirst (l : List Str) : List Str := dedupAux [] l

/-- The per-item step of the `row_data.items()` scan: a truthy string
value contributes its pattern matches, everything else contributes
nothing. -/
def partScan (acc : List Str) (pr : Str × PyVal) : List Str :=
  match pr.2 with
  | .pstr s => if s = [] then acc else acc ++ findAllParts s
  | _ => acc

/-- Source lines 266–276, `extract_part_numbers_from_row`: every truthy
string value of the row dict (in insertion order) is scanned with the
three-alternative pattern; all matches are collected and deduplicated. -/
def extract_part_numbers_from_row (row : Rec) : List Str :=
  dedupKeepFirst (row.foldl partScan [])

/-- One worksheet: its name, `openpyxl`'s reported dimensions, and the
cell grid (1-indexed row and column; absent cells are `None`). -/
structure Sheet where
  name : Str
  nCols : Nat
  nRows : Nat
  cell : Nat → Nat → PyVal

/-- One workbook: the ordered worksheet list. -/
structure Workbook where
  sheets : List Sheet

/-- The extraction result dict of lines 94–101. -/
structure ScrapData where
  all_records : List Rec
  by_date : Buckets
  by_machine : Buckets
  by_controlor : Buckets
  by_part_number : Buckets
  sheet_names : List Str
deriving DecidableEq

/-- Sheets whose name contains `"Rebuturi"` keep headers on row 2
(lines 112–116). -/
def headerRowOf (name : Str) : Nat :=
  if containsSub (codes "Rebuturi") name then 2 else 1

/-- Placeholder label for a blank header cell (line 124). -/
def colLabel (c : Nat) : Str := codes "Column_" ++ natDigits c

/-- Header labels, left to right (lines 118–124): a truthy header cell is
stringified and stripped, a falsy one gets the positional placeholder. -/
def headersOf (sh : Sheet) : List Str :=
  (List.range sh.nCols).map (fun i =>
    let v := sh.cell (headerRowOf sh.name) (i + 1)
    if pyTruthy v then stripWS (pyStr v) else colLabel (i + 1))

/-- Column-name alias lists of lines 145–155. -/
def dateAliases : List Str := [codes "Data", codes "Date", codes "Data/Date"]

/-- Machine-column aliases. -/
def machineAliases : List Str := [codes "Machine", codes "Masina"]

/-- Inspector-column aliases. -/
def controlorAliases : List Str := [codes "Controlor", codes "Inspector"]

/-- Total-parts column aliases. -/
def tpAliases : List Str :=
  [codes "Total piese\nTotal parts", codes "Total piese", codes "Total parts"]

/-- Total-OK column aliases. -/
def okAliases : List Str :=
  [codes "Total piese OK\nTotal parts OK", codes "Total piese OK", codes "Total parts OK"]

/-- Explicit-NOK column aliases. -/
def nokAliases : List Str :=
  [codes "Piese NOK\n(Scrap/rework)", codes "Piese NOK"]

/-- Scrap/rebut column aliases. -/
def scrapRebutAliases : List Str :=
  [codes "SCRAP\nREBUT", codes "REBUT\nSCRAP", codes "SCRAP", codes "REBUT",
   codes "Total piese rebut trimise\nTotal scrap parts sent"]

/-- Quarantine column aliases. -/
def quarantineAliases : List Str :=
  [codes "QUARANTINE\nCARANTINA\nSUSPECTE", codes "CARANTINA\nQUARANTINE\nSUSPECTE",
   codes "QUARANTINE", codes "SUSPECTE", codes "Quarantine"]

/-- Derogation column aliases. -/
def derogationAliases : List Str :=
  [codes "DEROGATION\nDEROGARE", codes "DEROGARE\nDEROGATION", codes "DEROGATION"]

/-- Derived-field keys. -/
def sheetKey : Str := codes "_sheet"

/-- Key of the parsed-date field. -/
def parsedDateKey : Str := codes "_parsed_date"

/-- Key of the coerced total-parts field. -/
def tpKey : Str := codes "_total_parts"

/-- Key of the coerced total-OK field. -/
def okKey : Str := codes "_total_ok"

/-- Key of the coerced explicit-NOK field. -/
def pieseNokKey : Str := codes "_piese_nok"

/-- Key of the coerced scrap/rebut field. -/
def scrapRebutKey : Str := codes "_scrap_rebut"

/-- Key of the coerced quarantine field. -/
def quarantineKey : Str := codes "_quarantine"

/-- Key of the coerced derogation field. -/
def derogationKey : Str := codes "_derogation"

/-- Key of the derived NOK count. -/
def totalNokKey : Str := codes "_total_nok"

/-- Key of the derived per-row scrap rate. -/
def scrapRateKey : Str := codes "_scrap_rate"

/-- Key of the extracted part-number list. -/
def partNumsKey : Str := codes "_part_numbers"

/-- Storing an optional number back into the dict (`None` or a float). -/
def optNumVal : Option ℚ → PyVal
  | none => .vnone
  | some q => .num q

/-- Storing an optional string back into the dict. -/
def optStrVal : Option Str → PyVal
  | none => .vnone
  | some s => .pstr s

/-- Python truthiness of an optional float. -/
def optTruthy : Option ℚ → Bool
  | none => false
  | some q => if q = 0 then false else true

/-- Source lines 169–177: the derived NOK count. The explicit NOK field
wins when present; otherwise `total_parts - total_ok` is used only when
both are *truthy* (`elif total_parts and total_ok:`), else 0. -/
def totalNokOf (pn tp ok : Option ℚ) : ℚ :=
  match pn with
  | some v => v
  | none =>
    match tp, ok with
    | some t, some o => if t ≠ 0 ∧ o ≠ 0 then t - o else 0
    | _, _ => 0

/-- Python `round(x, 2)` (exact-rational model of the rounding to two
decimal places; the tie-breaking mode is immaterial to every property
proved here, since rounding is only ever applied after a zero test). -/
def round2 (q : ℚ) : ℚ := (round (q * 100) : ℤ) / 100

/-- Lines 131–147: the row dict as built from the headers and the raw
cell values, with the source-sheet name then stored under `'_sheet'`
(`row_data` as it stands when `extract_field` is first called). -/
def rowBase (sheetName : Str) (headers : List Str) (vals : List PyVal) : Rec :=
  dictInsert ((headers.zip vals).foldl (fun m p => dictInsert m p.1 p.2) []) sheetKey
    (.pstr sheetName)

/-- Lines 149–184: the row dict after all coerced and derived fields
have been stored, in source order (`row_data` as it stands when
`extract_part_numbers_from_row` is called at line 187). -/
def rowDerived (sheetName : Str) (headers : List Str) (vals : List PyVal) : Rec :=
  let row1 := rowBase sheetName headers vals
  let total_parts := extract_number (extract_field row1 tpAliases)
  let total_ok := extract_number (extract_field row1 okAliases)
  let piese_nok := extract_number (extract_field row1 nokAliases)
  let scrap_rebut := extract_number (extract_field row1 scrapRebutAliases)
  let quarantine := extract_number (extract_field row1 quarantineAliases)
  let derogation := extract_number (extract_field row1 derogationAliases)
  let parsed_date := parse_date (extract_field row1 dateAliases)
  let row2 := dictInsert row1 parsedDateKey (optStrVal parsed_date)
  let row3 := dictInsert row2 tpKey (optNumVal total_parts)
  let row4 := dictInsert row3 okKey (optNumVal total_ok)
  let row5 := dictInsert row4 pieseNokKey (optNumVal piese_nok)
  let row6 := dictInsert row5 scrapRebutKey (optNumVal scrap_rebut)
  let row7 := dictInsert row6 quarantineKey (optNumVal quarantine)
  let row8 := dictInsert row7 derogationKey (optNumVal derogation)
  let total_nok := totalNokOf piese_nok total_parts total_ok
  let row9 := dictInsert row8 totalNokKey (.num total_nok)
  dictInsert row9 scrapRateKey
    (match total_parts with
     | some t => if t ≠ 0 ∧ 0 < t then .num (round2 (total_nok / t * 100)) else .vnone
     | none => .vnone)

/-- Lines 187–188: the finished record, with the extracted part-number
list stored under `'_part_numbers'`. -/
def buildRecord (sheetName : Str) (headers : List Str) (vals : List PyVal) : Rec :=
  dictInsert (rowDerived sheetName headers vals) partNumsKey
    (.plist (extract_part_numbers_from_row (rowDerived sheetName headers vals)))

/-- Lines 205–207: the per-part-number bucket insertions. -/
def bpFold (rowR : Rec) (parts : List Str) (b : Buckets) : Buckets :=
  parts.foldl (fun acc p => appendAt acc p rowR) b

/-- Lines 190–207: insertion of a finished record into the flat list and
into each grouping index whose key resolved to a truthy value. -/
def insertRecord (d : ScrapData) (rowR : Rec) (parsed_date : Option Str)
    (machine_val controlor_val : PyVal) (parts : List Str) : ScrapData :=
  let d1 : ScrapData := { d with all_records := d.all_records ++ [rowR] }
  let d2 :=
    match parsed_date with
    | some ds => if ds = [] then d1 else { d1 with by_date := appendAt d1.by_date ds rowR }
    | none => d1
  let d3 :=
    if pyTruthy machine_val then
      { d2 with by_machine := appendAt d2.by_machine (pyStr machine_val) rowR }
    else d2
  let d4 :=
    if pyTruthy controlor_val then
      { d3 with by_controlor := appendAt d3.by_controlor (pyStr controlor_val) rowR }
    else d3
  { d4 with by_part_number := bpFold rowR parts d4.by_part_number }

/-- Source lines 130–207, the per-row body of the sheet loop: build the
row dict, drop blank rows, resolve and coerce the key fields, store the
derived fields, extract part numbers, and insert the record into the
flat list and each resolvable grouping index. -/
def processRow (sheetName : Str) (headers : List Str) (vals : List PyVal)
    (d : ScrapData) : ScrapData :=
  if !(vals.any hasContent) then d else
  let row1 := rowBase sheetName headers vals
  insertRecord d (buildRecord sheetName headers vals)
    (parse_date (extract_field row1 dateAliases))
    (extract_field row1 machineAliases)
    (extract_field row1 controlorAliases)
    (extract_part_numbers_from_row (rowDerived sheetName headers vals))

/-- Data-row indices of a sheet: `header_row + 1` through `max_row`. -/
def rowIndices (sh : Sheet) : List Nat :=
  List.range' (headerRowOf sh.name + 1) (sh.nRows - headerRowOf sh.name)

/-- The raw cell values of one row, left to right. -/
def rowVals (sh : Sheet) (r : Nat) : List PyVal :=
  (List.range sh.nCols).map (fun i => sh.cell r (i + 1))

/-- One sheet's contribution (lines 104–209): the reference sheet
`"Drop Down List"` is skipped; all data rows are processed in order. -/
def processSheet (d : ScrapData) (sh : Sheet) : ScrapData :=
  if sh.name = codes "Drop Down List" then d else
  (rowIndices sh).foldl (fun acc r => processRow sh.name (headersOf sh) (rowVals sh r) acc) d

/-- Source lines 81–219, `extract_scrap_data_from_excel` (with the
workbook already loaded; the import-failure branch returns `None` before
any extraction and is modelled at the `main` guard). -/
def extract_scrap_data_from_excel (wb : Workbook) : ScrapData :=
  wb.sheets.foldl processSheet
    { all_records := [], by_date := [], by_machine := [], by_controlor := [],
      by_part_number := [], sheet_names := wb.sheets.map Sheet.name }

/-- Python truthiness of the extraction result dict at line 42
(`if not scrap_data:`): the dict literal of lines 94–101 always carries
six keys, so it is non-empty and truthy no matter how many records were
extracted. -/
def scrapDataTruthy (_ : ScrapData) : Bool := true

/-- Whether `main` reaches dashboard generation and the file write
(lines 42–61): it does whenever the extraction dict is truthy. -/
def rendersDashboard (d : ScrapData) : Bool := scrapDataTruthy d

/-- Length of a year. -/
def daysInYear (y : Nat) : Nat := if isLeap y then 366 else 365

/-- Days in the calendar before month `m` of year `y` (the cumulative
month table of `datetime`, with the leap-day adjustment past February). -/
def daysBeforeMonth (y m : Nat) : Nat :=
  (match m with
   | 1 => 0 | 2 => 31 | 3 => 59 | 4 => 90 | 5 => 120 | 6 => 151 | 7 => 181
   | 8 => 212 | 9 => 243 | 10 => 273 | 11 => 304 | 12 => 334 | _ => 365)
  + (if 2 < m ∧ isLeap y then 1 else 0)

/-- Days in all years before year `y`. -/
def daysBeforeYear (y : Nat) : Nat :=
  ((List.range (y - 1)).map (fun i => daysInYear (i + 1))).sum

/-- Proleptic-Gregorian ordinal of a date, as `datetime.toordinal`
(`ordOf 1 1 1 = 1`); `datetime` comparison and `timedelta` arithmetic
reduce to this ordinal since all times of day are zero. -/
def ordOf (y m d : Nat) : Nat := daysBeforeYear y + daysBeforeMonth y m + d

/-- Weekday with Sunday = 0 (strftime `%w` numbering): day 1 was a
Monday. -/
def wdayOf (y m d : Nat) : Nat := ordOf y m d % 7

/-- strftime `%U`: week of the year, Sunday as first day, days before the
first Sunday in week 0 (`(tm_yday + 7 - tm_wday) / 7` with a 0-based
`tm_yday`). -/
def weekU (y m d : Nat) : Nat :=
  ((ordOf y m d - ordOf y 1 1) + 7 - wdayOf y m d) / 7

/-- The `'%Y-W%U'` bucket key of the weekly rollup (`W` is code 87). -/
def yearWeekKey (y m d : Nat) : Str := pad4 y ++ [45, 87] ++ pad2 (weekU y m d)

/-- strftime `%b` month abbreviations. -/
def monAbbr : Nat → Str
  | 1 => codes "Jan" | 2 => codes "Feb" | 3 => codes "Mar" | 4 => codes "Apr"
  | 5 => codes "May" | 6 => codes "Jun" | 7 => codes "Jul" | 8 => codes "Aug"
  | 9 => codes "Sep" | 10 => codes "Oct" | 11 => codes "Nov" | 12 => codes "Dec"
  | _ => codes "???"

/-- strftime `%B` full month names. -/
def monFull : Nat → Str
  | 1 => codes "January" | 2 => codes "February" | 3 => codes "March"
  | 4 => codes "April" | 5 => codes "May" | 6 => codes "June"
  | 7 => codes "July" | 8 => codes "August" | 9 => codes "September"
  | 10 => codes "October" | 11 => codes "November" | 12 => codes "December"
  | _ => codes "???"

/-- Contribution of one stored field value to an aggregate sum: the
aggregators guard each addition with Python truthiness
(`if parts: total += parts`, or equivalently `+= value or 0`), so `None`
and `0` both contribute zero. -/
def qContrib : PyVal → ℚ
  | .num q => q
  | _ => 0

/-- Aggregate value of `record.get('_total_parts', 0)` under the
truthiness guard. -/
def recTP (r : Rec) : ℚ := qContrib ((assocFind r tpKey).getD (.num 0))

/-- Aggregate value of `record.get('_total_ok', 0)`. -/
def recOK (r : Rec) : ℚ := qContrib ((assocFind r okKey).getD (.num 0))

/-- Aggregate value of `record.get('_total_nok', 0)`. -/
def recNOK (r : Rec) : ℚ := qContrib ((assocFind r totalNokKey).getD (.num 0))

/-- Summed total-parts of a record list. -/
def sumTP (recs : List Rec) : ℚ := (recs.map recTP).sum

/-- Summed total-OK of a record list. -/
def sumOK (recs : List Rec) : ℚ := (recs.map recOK).sum

/-- Summed total-NOK of a record list. -/
def sumNOK (recs : List Rec) : ℚ := (recs.map recNOK).sum

/-- Per-key statistics dict of the machine/inspector/part aggregators. -/
structure KeyStats where
  total_checked : ℚ
  total_suspecte : ℚ
  scrap_rate : ℚ
  record_count : Nat
deriving DecidableEq

/-- The per-key loop body shared verbatim by `calculate_machine_stats`
(lines 1554–1584), `calculate_controlor_stats` (1586–1616) and
`calculate_part_stats` (1618–1648): sum the guarded fields, divide only
when the total is positive. -/
def statsOf (recs : List Rec) : KeyStats :=
  let tp := sumTP recs
  let nok := sumNOK recs
  { total_checked := tp
    total_suspecte := nok
    scrap_rate := if 0 < tp then round2 (nok / tp * 100) else 0
    record_count := recs.length }

/-- Source lines 1554–1584, `calculate_machine_stats`. -/
def calculate_machine_stats (d : ScrapData) : List (Str × KeyStats) :=
  d.by_machine.map (fun p => (p.1, statsOf p.2))

/-- Source lines 1586–1616, `calculate_controlor_stats`. -/
def calculate_controlor_stats (d : ScrapData) : List (Str × KeyStats) :=
  d.by_controlor.map (fun p => (p.1, statsOf p.2))

/-- Source lines 1618–1648, `calculate_part_stats`. -/
def calculate_part_stats (d : ScrapData) : List (Str × KeyStats) :=
  d.by_part_number.map (fun p => (p.1, statsOf p.2))

/-- Overall summed total-parts of lines 285–300. -/
def overallTotalParts (d : ScrapData) : ℚ := sumTP d.all_records

/-- Overall summed total-OK. -/
def overallTotalOk (d : ScrapData) : ℚ := sumOK d.all_records

/-- Overall summed total-NOK. -/
def overallTotalNok (d : ScrapData) : ℚ := sumNOK d.all_records

/-- Source line 306: the overall scrap rate. -/
def overall_scrap_rate (d : ScrapData) : ℚ :=
  if 0 < overallTotalParts d then overallTotalNok d / overallTotalParts d * 100 else 0

/-- Source line 309: the overall quality rate. -/
def overall_quality_rate (d : ScrapData) : ℚ :=
  if 0 < overallTotalParts d then overallTotalOk d / overallTotalParts d * 100 else 0

/-- Accumulator of one weekly bucket (lines 1404–1423): running totals
plus the first and last calendar date observed in the bucket. -/
structure WkAcc where
  total_parts : ℚ
  total_ok : ℚ
  total_nok : ℚ
  sy : Nat
  sm : Nat
  sd : Nat
  ey : Nat
  em : Nat
  ed : Nat
deriving DecidableEq

/-- Update of one weekly bucket for one date's record list. -/
def wkUpdate (acc : WkAcc) (y m d : Nat) (recs : List Rec) : WkAcc :=
  let acc1 :=
    if ordOf y m d < ordOf acc.sy acc.sm acc.sd then { acc with sy := y, sm := m, sd := d }
    else acc
  let acc2 :=
    if ordOf acc1.ey acc1.em acc1.ed < ordOf y m d then { acc1 with ey := y, em := m, ed := d }
    else acc1
  { acc2 with
    total_parts := acc2.total_parts + sumTP recs
    total_ok := acc2.total_ok + sumOK recs
    total_nok := acc2.total_nok + sumNOK recs }

/-- Table update: create the bucket on first sight, then aggregate. -/
def wkInsert (key : Str) (y m d : Nat) (recs : List Rec) :
    List (Str × WkAcc) → List (Str × WkAcc)
  | [] => [(key, wkUpdate ⟨0, 0, 0, y, m, d, y, m, d⟩ y m d recs)]
  | (k, a) :: rest =>
    if k = key then (k, wkUpdate a y m d recs) :: rest
    else (k, a) :: wkInsert key y m d recs rest

/-- One emitted weekly summary dict. -/
structure WkEntry where
  week : Str
  week_label : Str
  total_parts : ℚ
  total_ok : ℚ
  total_nok : ℚ
  scrap_rate : ℚ
  quality_rate : ℚ
deriving DecidableEq

/-- Formatting of one weekly summary (lines 1428–1441). The label takes
the week number as the text after `-W` in the key (the key always has
the shape `YYYY-W##`, so this is the text from position 6 on). -/
def mkWkEntry (k : Str) (a : WkAcc) : WkEntry :=
  { week := k
    week_label := codes "Week " ++ k.drop 6 ++ codes " (" ++ monAbbr a.sm ++ [32]
      ++ pad2 a.sd ++ codes " - " ++ monAbbr a.em ++ [32] ++ pad2 a.ed ++ [41]
    total_parts := a.total_parts
    total_ok := a.total_ok
    total_nok := a.total_nok
    scrap_rate := if 0 < a.total_parts then round2 (a.total_nok / a.total_parts * 100) else 0
    quality_rate := if 0 < a.total_parts then round2 (a.total_ok / a.total_parts * 100) else 0 }

/-- Python `sorted(items, reverse=True)` over key-value pairs with
distinct string keys: descending lexicographic key order. -/
def sortPairsDesc {α : Type} (l : List (Str × α)) : List (Str × α) :=
  List.insertionSort (fun a b => lexLt a.1 b.1 = false) l

/-- Source lines 1392–1443, `calculate_weekly_stats`: bucket the date
index by `%Y-W%U`, skipping unparseable keys, then emit summaries in
descending key order. -/
def calculate_weekly_stats (data : ScrapData) : List WkEntry :=
  let tbl := data.by_date.foldl (fun t p =>
    match tryFormat .ymd 45 p.1 with
    | none => t
    | some (y, m, d) => wkInsert (yearWeekKey y m d) y m d p.2 t) []
  (sortPairsDesc tbl).map (fun p => mkWkEntry p.1 p.2)

/-- Accumulator of one monthly bucket. -/
structure MoAcc where
  total_parts : ℚ
  total_ok : ℚ
  total_nok : ℚ
deriving DecidableEq

/-- Table update for the monthly rollup. -/
def moInsert (key : Str) (recs : List Rec) :
    List (Str × MoAcc) → List (Str × MoAcc)
  | [] => [(key, ⟨sumTP recs, sumOK recs, sumNOK recs⟩)]
  | (k, a) :: rest =>
    if k = key then
      (k, ⟨a.total_parts + sumTP recs, a.total_ok + sumOK recs, a.total_nok + sumNOK recs⟩) :: rest
    else (k, a) :: moInsert key recs rest

/-- One emitted monthly summary dict. -/
structure MoEntry where
  month : Str
  month_label : Str
  total_parts : ℚ
  total_ok : ℚ
  total_nok : ℚ
  scrap_rate : ℚ
  quality_rate : ℚ
deriving DecidableEq

/-- `strptime(month, '%Y-%m')` for the label (lines 1479–1483): four
digits, a hyphen, a one-or-two-digit month. -/
def tryFormatYM (s : Str) : Option (Nat × Nat) :=
  match splitOnChar 45 s with
  | [a, b] =>
    match parseY4 a, parseMD 1 12 b with
    | some y, some m => some (y, m)
    | _, _ => none
  | _ => none

/-- Formatting of one monthly summary (lines 1474–1493). -/
def mkMoEntry (k : Str) (a : MoAcc) : MoEntry :=
  { month := k
    month_label :=
      match tryFormatYM k with
      | some (y, m) => monFull m ++ [32] ++ pad4 y
      | none => k
    total_parts := a.total_parts
    total_ok := a.total_ok
    total_nok := a.total_nok
    scrap_rate := if 0 < a.total_parts then round2 (a.total_nok / a.total_parts * 100) else 0
    quality_rate := if 0 < a.total_parts then round2 (a.total_ok / a.total_parts * 100) else 0 }

/-- Source lines 1445–1495, `calculate_monthly_stats`. -/
def calculate_monthly_stats (data : ScrapData) : List MoEntry :=
  let tbl := data.by_date.foldl (fun t p =>
    match tryFormat .ymd 45 p.1 with
    | none => t
    | some (y, m, _) => moInsert (pad4 y ++ 45 :: pad2 m) p.2 t) []
  (sortPairsDesc tbl).map (fun p => mkMoEntry p.1 p.2)

/-- One emitted daily summary dict. -/
structure DayEntry where
  date : Str
  date_label : Str
  total_parts : ℚ
  total_ok : ℚ
  total_nok : ℚ
  scrap_rate : ℚ
  quality_rate : ℚ
deriving DecidableEq

/-- Python `sorted(keys, reverse=True)` on strings. -/
def sortStrsDesc (l : List Str) : List Str :=
  List.insertionSort (fun a b => lexLt a b = false) l

/-- The loop body of `calculate_daily_stats` for one candidate date
string (lines 1520–1548): parse it (a failure is swallowed by the
`except`), skip it when it falls before the cutoff or its summed
total-parts is not positive, otherwise emit the day's summary dict. -/
def dayEntryOf (data : ScrapData) (cutoff : ℤ) (ds : Str) : Option DayEntry :=
  match tryFormat .ymd 45 ds with
  | none => none
  | some (y, m, d) =>
    if (ordOf y m d : ℤ) < cutoff then none
    else
      let recs := bucketOf data.by_date ds
      let tp := sumTP recs
      if 0 < tp then
        some { date := ds
               date_label := monAbbr m ++ [32] ++ pad2 d
               total_parts := tp
               total_ok := sumOK recs
               total_nok := sumNOK recs
               scrap_rate := round2 (sumNOK recs / tp * 100)
               quality_rate := round2 (sumOK recs / tp * 100) }
      else none

/-- Source lines 1497–1552, `calculate_daily_stats`: the most recent
`days` distinct dates are examined; a day enters the summary when it is
on or after `latest - (days-1)` and its summed total-parts is positive;
the collected list is then reversed to run oldest-first. -/
def calculate_daily_stats (data : ScrapData) (days : Nat) : List DayEntry :=
  let sorted_dates := sortStrsDesc (data.by_date.map Prod.fst)
  match sorted_dates with
  | [] => []
  | d0 :: _ =>
    match tryFormat .ymd 45 d0 with
    | none => []
    | some (ly, lm, ld) =>
      ((sorted_dates.take days).filterMap
        (dayEntryOf data ((ordOf ly lm ld : ℤ) - ((days : ℤ) - 1)))).reverse

/-- Chronological ordinal of a `YYYY-MM-DD` key string (0 when the key
does not parse), used to state date-window facts about the rollups. -/
def ordKey (k : Str) : Nat :=
  match tryFormat .ymd 45 k with
  | some (y, m, d) => ordOf y m d
  | none => 0

/-- The digits of a rollup bucket key read as one number: `YYYY-W##` and
`YYYY-MM` keys both map to year*100 + (week or month), so descending
`numKey` order is newest-first order. -/
def numKey (k : Str) : Nat := digitsVal (k.filter isDig)

/-- Dict update `sheet_stats[sheet] += nok` with create-on-first-sight
(lines 1700–1703). -/
def catAdd (key : Str) (v : ℚ) : List (Str × ℚ) → List (Str × ℚ)
  | [] => [(key, v)]
  | (k, x) :: rest => if k = key then (k, x + v) :: rest else (k, x) :: catAdd key v rest

/-- The sheet-name the record reports (`record.get('_sheet', 'Unknown')`;
the stored value is always a string). -/
def recSheet (r : Rec) : Str :=
  match assocFind r sheetKey with
  | some (.pstr s) => s
  | some v => pyStr v
  | none => codes "Unknown"

/-- The raw NOK value a record reports (`record.get('_total_nok', 0)`). -/
def recNokVal (r : Rec) : PyVal := (assocFind r totalNokKey).getD (.num 0)

/-- One record's contribution to the per-sheet table (lines 1696–1703):
only a truthy NOK value is added. -/
def catStep (t : List (Str × ℚ)) (r : Rec) : List (Str × ℚ) :=
  if pyTruthy (recNokVal r) then catAdd (recSheet r) (qContrib (recNokVal r)) t else t

/-- Source lines 1694–1703: per-sheet NOK sums over all records; a
record contributes only when its NOK value is truthy, so a sheet whose
records all have zero NOK never receives a key. -/
def sheetStatsOf (records : List Rec) : List (Str × ℚ) :=
  records.foldl catStep []

/-- Summed NOK contribution of one sheet across a whole record list
(zero-NOK and `None` records contribute zero either way). -/
def sheetNokSum (records : List Rec) (s : Str) : ℚ :=
  ((records.filter (fun r => decide (recSheet r = s))).map
    (fun r => qContrib (recNokVal r))).sum

/-- Index of the first record of sheet `s` carrying a truthy NOK value
(the record that creates the sheet's table key); the list length when
there is none. -/
def firstHitIdx (s : Str) : List Rec → Nat
  | [] => 0
  | r :: rest =>
    if recSheet r = s ∧ pyTruthy (recNokVal r) = true then 0 else firstHitIdx s rest + 1

/-- Whether some record of sheet `s` carries a truthy NOK value. -/
def hitIn (records : List Rec) (s : Str) : Prop :=
  firstHitIdx s records < records.length

/-- Python `sorted(pairs, key=value, reverse=True)`: one stable
insertion; a later pair moves past every earlier pair with a value at
least its own, so equal values keep their original relative order. -/
def catInsert (x : Str × ℚ) : List (Str × ℚ) → List (Str × ℚ)
  | [] => [x]
  | y :: ys => if x.2 ≤ y.2 then y :: catInsert x ys else x :: y :: ys

/-- Stable descending-by-value sort, processing pairs in input order. -/
def pySortByValDesc (l : List (Str × ℚ)) : List (Str × ℚ) :=
  l.foldl (fun acc x => catInsert x acc) []

/-- The parallel label/value output dict of the category breakdown. -/
structure CatBreakdown where
  labels : List Str
  values : List ℚ
deriving DecidableEq

/-- Source lines 1687–1712, `calculate_category_breakdown`. -/
def calculate_category_breakdown (d : ScrapData) : CatBreakdown :=
  let sorted := pySortByValDesc (sheetStatsOf d.all_records)
  { labels := sorted.map Prod.fst, values := sorted.map Prod.snd }

/-- Membership of a record in one bucket of a grouping index. -/
def memBucket (b : Buckets) (k : Str) (r : Rec) : Prop := ∃ l, (k, l) ∈ b ∧ r ∈ l

/-- Total number of record slots across all buckets of an index. -/
def bucketsLen (b : Buckets) : Nat := (b.map (fun p => p.2.length)).sum

/-- The stored part-number list of a finished record. -/
def partsOf (r : Rec) : List Str :=
  match assocFind r partNumsKey with
  | some (.plist l) => l
  | _ => []

/-- The structural invariants the extraction loop maintains on its
result dict: every grouped record is in the flat list; machine and
inspector buckets hold exactly the records whose resolved id is truthy
and stringifies to the bucket key; date buckets hold records whose
resolved date parses to the bucket key; bucket sizes add up to the
number of truthy-id records; every stored part number of a record has a
bucket holding the record; and every record links its source sheet name
whose pattern matches are among its stored part numbers. -/
structure ExtractionInv (d : ScrapData) : Prop where
  date_flat : ∀ k r, memBucket d.by_date k r → r ∈ d.all_records
  machine_flat : ∀ k r, memBucket d.by_machine k r → r ∈ d.all_records
  controlor_flat : ∀ k r, memBucket d.by_controlor k r → r ∈ d.all_records
  part_flat : ∀ k r, memBucket d.by_part_number k r → r ∈ d.all_records
  machine_sound : ∀ k r, memBucket d.by_machine k r →
    pyTruthy (extract_field r machineAliases) = true ∧
    pyStr (extract_field r machineAliases) = k
  controlor_sound : ∀ k r, memBucket d.by_controlor k r →
    pyTruthy (extract_field r controlorAliases) = true ∧
    pyStr (extract_field r controlorAliases) = k
  date_sound : ∀ k r, memBucket d.by_date k r →
    parse_date (extract_field r dateAliases) = some k
  machine_complete : ∀ r, r ∈ d.all_records →
    pyTruthy (extract_field r machineAliases) = true →
    memBucket d.by_machine (pyStr (extract_field r machineAliases)) r
  machine_count : bucketsLen d.by_machine =
    List.countP (fun r => pyTruthy (extract_field r machineAliases)) d.all_records
  parts_complete : ∀ r, r ∈ d.all_records → ∀ p, p ∈ partsOf r →
    memBucket d.by_part_number p r
  sheet_parts : ∀ r, r ∈ d.all_records →
    ∃ nm, assocFind r sheetKey = some (.pstr nm) ∧
      ∀ p, p ∈ findAllParts nm → p ∈ partsOf r

/-- Modelled from the spec's words, for comparison with `totalNokOf`:
"NOK = explicit NOK if present; else total − OK if both present; else
0" — presence alone, with no truthiness requirement. -/
def nokClaimDerived (pn tp ok : Option ℚ) : ℚ :=
  match pn with
  | some v => v
  | none =>
    match tp, ok with
    | some t, some o => t - o
    | _, _ => 0

/-- A fixed dataset exercising the zero-total branches: one record with
no stored quantities, indexed under one machine and one date. -/
def c2data : ScrapData :=
  { all_records := [[]]
    by_date := [(codes "2024-01-01", [[]])]
    by_machine := [(codes "M1", [[]])]
    by_controlor := [(codes "Ana", [[]])]
    by_part_number := [(codes "R900305231", [[]])]
    sheet_names := [codes "Sheet1"] }

/-- A worksheet that parses but yields zero usable records: a header row
followed by rows whose cells are all `None` or blank. -/
def shC3 : Sheet :=
  { name := codes "Sheet1"
    nCols := 2
    nRows := 3
    cell := fun r c =>
      if r = 1 then
        (if c = 1 then .pstr (codes "Date") else .pstr (codes "Machine"))
      else
        (if c = 1 then .vnone else .pstr (codes "   ")) }

/-- The workbook holding only `shC3`. -/
def wbC3 : Workbook := { sheets := [shC3] }

/-- A worksheet whose name contains a part-number pattern match
(`R900305231`), with a machine column holding an empty string in the
first data row (shadowing the `Masina` column) and a real machine id in
the second. -/
def shW : Sheet :=
  { name := codes "R900305231 Control"
    nCols := 3
    nRows := 3
    cell := fun r c =>
      if r = 1 then
        (if c = 1 then .pstr (codes "Date")
         else if c = 2 then .pstr (codes "Machine")
         else .pstr (codes "Masina"))
      else if r = 2 then
        (if c = 1 then .pstr (codes "2024-01-05")
         else if c = 2 then .pstr (codes "")
         else .pstr (codes "M7"))
      else
        (if c = 1 then .pstr (codes "2024-01-06")
         else if c = 2 then .pstr (codes "M2")
         else .vnone) }

/-- The workbook holding only `shW`. -/
def wbW : Workbook := { sheets := [shW] }

/-- The first extracted record of `wbW` (empty-string machine cell). -/
def recW1 : Rec := ((extract_scrap_data_from_excel wbW).all_records).headD []

/-- The second extracted record of `wbW` (machine id `M2`). -/
def recW2 : Rec := (((extract_scrap_data_from_excel wbW).all_records).drop 1).headD []

/-- The part number occurring in `shW`'s worksheet name. -/
def pW : Str := codes "R900305231"

/-- A record of sheet `A` with NOK 0. -/
def recA0 : Rec := [(sheetKey, .pstr (codes "A")), (totalNokKey, .num 0)]

/-- A record of sheet `B` with NOK 3. -/
def recB3 : Rec := [(sheetKey, .pstr (codes "B")), (totalNokKey, .num 3)]

/-- A dataset in which sheet `A` appears among the records but all its
NOK counts are zero. -/
def c8data : ScrapData :=
  { all_records := [recA0, recB3]
    by_date := []
    by_machine := []
    by_controlor := []
    by_part_number := []
    sheet_names := [codes "A", codes "B"] }

/-- Per-sheet table content as a function of the processed records: the
keys are exactly the sheets with a truthy-NOK record so far, each mapped
to its summed NOK, with no duplicate keys. -/
def CatContent (t : List (Str × ℚ)) (pre : List Rec) : Prop :=
  (t.map Prod.fst).Nodup ∧
  ∀ s v, (s, v) ∈ t ↔ (hitIn pre s ∧ v = sheetNokSum pre s)

/-- Per-sheet table key order: keys appear in the order of each sheet's
first truthy-NOK record. -/
def CatOrder (t : List (Str × ℚ)) (pre : List Rec) : Prop :=
  ∀ s1 s2, [s1, s2].Sublist (t.map Prod.fst) →
    firstHitIdx s1 pre < firstHitIdx s2 pre

/-- The `DD.MM.YYYY` rendering of a date (zero-padded, dot 46). -/
def fmtDotsDMY (y m d : Nat) : Str := pad2 d ++ 46 :: pad2 m ++ 46 :: pad4 y

/-- The `DD/MM/YYYY` rendering of a date (slash 47). -/
def fmtSlashDMY (y m d : Nat) : Str := pad2 d ++ 47 :: pad2 m ++ 47 :: pad4 y

/-- The `MM/DD/YYYY` rendering of a date. -/
def fmtSlashMDY (y m d : Nat) : Str := pad2 m ++ 47 :: pad2 d ++ 47 :: pad4 y

/-- The `YYYY/MM/DD` rendering of a date. -/
def fmtSlashYMD (y m d : Nat) : Str := pad4 y ++ 47 :: pad2 m ++ 47 :: pad2 d

/-- The `DD-MM-YYYY` rendering of a date (hyphen 45). -/
def fmtDashDMY (y m d : Nat) : Str := pad2 d ++ 45 :: pad2 m ++ 45 :: pad4 y

/-- Concrete extraction result exercising the daily rollup: two distinct
canonical date keys. -/
def c6data : ScrapData :=
  { all_records := []
    by_date := [(codes "2024-01-05", [[(sheetKey, .pstr (codes "S"))]]),
                (codes "2024-01-04", [[(sheetKey, .pstr (codes "S"))]])]
    by_machine := []
    by_controlor := []
    by_part_number := []
    sheet_names := [codes "S"] }

/-- C1 counterexample: with the explicit NOK field absent, total-parts
100 and total-OK present but equal to 0, the code derives NOK = 0 (the
truthiness test `total_parts and total_ok` fails on 0.0), while the
claimed rule derives 100. -/
theorem c1_claim_counterexample :
    totalNokOf none (some 100) (some 0) = 0 ∧
    nokClaimDerived none (some 100) (some 0) = 100 := by
  constructor
  · simp [totalNokOf]
  · norm_num [nokClaimDerived]

/-- C1 (amended): the derived NOK count equals the explicit NOK field
when present; otherwise it equals total − OK when both fields are
present *and nonzero*; otherwise (either field absent or equal to zero)
it is 0. -/
theorem c1_total_nok_branches (pn tp ok : Option ℚ) :
    (∀ v, pn = some v → totalNokOf pn tp ok = v) ∧
    (∀ t o, pn = none → tp = some t → ok = some o → t ≠ 0 → o ≠ 0 →
      totalNokOf pn tp ok = t - o) ∧
    (pn = none → optTruthy tp = false ∨ optTruthy ok = false →
      totalNokOf pn tp ok = 0) := by
  refine ⟨?_, ?_, ?_⟩
  · intro v h
    subst h
    rfl
  · intro t o h ht ho hnt hno
    subst h; subst ht; subst ho
    simp [totalNokOf, hnt, hno]
  · intro h htf
    subst h
    match tp, ok with
    | none, _ => rfl
    | some t, none => rfl
    | some t, some o =>
      rcases htf with htf | htf
      · simp only [optTruthy] at htf
        split at htf
        · simp_all [totalNokOf]
        · exact absurd htf (by simp)
      · simp only [optTruthy] at htf
        split at htf
        · simp_all [totalNokOf]
        · exact absurd htf (by simp)

/-- C1 witness: all three amended branches at concrete inputs. -/
theorem c1_total_nok_branches_witness :
    totalNokOf (some 7) (some 100) (some 0) = 7 ∧
    totalNokOf none (some 100) (some 90) = 100 - 90 ∧
    totalNokOf none (some 100) (some 0) = 0 :=
  ⟨(c1_total_nok_branches (some 7) (some 100) (some 0)).1 7 rfl,
   (c1_total_nok_branches none (some 100) (some 90)).2.1 100 90 rfl rfl rfl
     (by norm_num) (by norm_num),
   (c1_total_nok_branches none (some 100) (some 0)).2.2 rfl
     (Or.inr (by norm_num [optTruthy]))⟩

/-- C4: `extract_number` is total — every value of every shape (null,
number, string, date, list) yields either a rational or no value; the
only fallible sub-step, the float parse of the matched token, is itself
modelled as an `Option` and is handled. The null and numeric branches
are pinned down exactly. -/
theorem c4_extract_number_total (v : PyVal) :
    (extract_number v = none ∨ ∃ q : ℚ, extract_number v = some q) ∧
    extract_number PyVal.vnone = none ∧
    (∀ q : ℚ, extract_number (.num q) = some q) := by
  refine ⟨?_, rfl, fun q => rfl⟩
  cases h : extract_number v
  · exact Or.inl rfl
  · exact Or.inr ⟨_, rfl⟩

/-- C2: wherever an aggregate total-parts is zero — overall, for a
machine/inspector/part key, or for a weekly or monthly bucket — the
reported scrap rate and quality rate are exactly 0 (each aggregator
divides only under a `total > 0` test and otherwise emits 0). -/
theorem c2_zero_total_zero_rates (d : ScrapData) :
    (overallTotalParts d = 0 →
      overall_scrap_rate d = 0 ∧ overall_quality_rate d = 0) ∧
    (∀ k s, (k, s) ∈ calculate_machine_stats d → s.total_checked = 0 →
      s.scrap_rate = 0) ∧
    (∀ k s, (k, s) ∈ calculate_controlor_stats d → s.total_checked = 0 →
      s.scrap_rate = 0) ∧
    (∀ k s, (k, s) ∈ calculate_part_stats d → s.total_checked = 0 →
      s.scrap_rate = 0) ∧
    (∀ e ∈ calculate_weekly_stats d, e.total_parts = 0 →
      e.scrap_rate = 0 ∧ e.quality_rate = 0) ∧
    (∀ e ∈ calculate_monthly_stats d, e.total_parts = 0 →
      e.scrap_rate = 0 ∧ e.quality_rate = 0) := by
  refine ⟨?_, ?_, ?_, ?_, ?_, ?_⟩
  · intro h
    constructor <;> simp [overall_scrap_rate, overall_quality_rate, h]
  · intro k s hmem h
    simp only [calculate_machine_stats, List.mem_map] at hmem
    obtain ⟨p, _, hp⟩ := hmem
    cases hp
    simp only [statsOf] at h ⊢
    simp [h]
  · intro k s hmem h
    simp only [calculate_controlor_stats, List.mem_map] at hmem
    obtain ⟨p, _, hp⟩ := hmem
    cases hp
    simp only [statsOf] at h ⊢
    simp [h]
  · intro k s hmem h
    simp only [calculate_part_stats, List.mem_map] at hmem
    obtain ⟨p, _, hp⟩ := hmem
    cases hp
    simp only [statsOf] at h ⊢
    simp [h]
  · intro e hmem h
    simp only [calculate_weekly_stats, List.mem_map] at hmem
    obtain ⟨p, _, hp⟩ := hmem
    subst hp
    simp only [mkWkEntry] at h ⊢
    constructor <;> simp [h]
  · intro e hmem h
    simp only [calculate_monthly_stats, List.mem_map] at hmem
    obtain ⟨p, _, hp⟩ := hmem
    subst hp
    simp only [mkMoEntry] at h ⊢
    constructor <;> simp [h]

/-- C2 witness: the zero-total dataset `c2data` reports rate 0 overall
and for its machine key. -/
theorem c2_zero_total_zero_rates_witness :
    (statsOf [[]]).scrap_rate = 0 ∧ overall_scrap_rate c2data = 0 :=
  ⟨(c2_zero_total_zero_rates c2data).2.1 (codes "M1") (statsOf [[]])
     (by simp [calculate_machine_stats, c2data])
     (by norm_num [statsOf, sumTP, recTP, qContrib, assocFind]),
   ((c2_zero_total_zero_rates c2data).1
     (by norm_num [overallTotalParts, c2data, sumTP, recTP, qContrib, assocFind])).1⟩

/-- C3 (code bug): a workbook that parses but yields zero usable records
leaves the flat record list empty, yet `main`'s guard `if not scrap_data:`
tests the truthiness of the six-key result dict — which is always truthy
— so the run proceeds to render and save a dashboard instead of aborting
with the "No Data Found" message. -/
theorem c3_empty_extraction_still_renders :
    (extract_scrap_data_from_excel wbC3).all_records = [] ∧
    rendersDashboard (extract_scrap_data_from_excel wbC3) = true :=
  ⟨by decide, rfl⟩

/-! Dictionary and extractor lemmas. -/

theorem assocFind_dictInsert_self (m : Rec) (k : Str) (v : PyVal) :
    assocFind (dictInsert m k v) k = some v := by
  induction m with
  | nil => simp [dictInsert, assocFind]
  | cons hd tl ih =>
    obtain ⟨k', v'⟩ := hd
    by_cases h : k' = k
    · simp [dictInsert, assocFind, h]
    · simp [dictInsert, assocFind, h, ih]

theorem assocFind_dictInsert_ne {m : Rec} {k v k'} (h : ¬ k' = k) :
    assocFind (dictInsert m k v) k' = assocFind m k' := by
  have h' : ¬ k = k' := fun hc => h hc.symm
  induction m with
  | nil => simp [dictInsert, assocFind, h']
  | cons hd tl ih =>
    obtain ⟨hk, hv⟩ := hd
    by_cases hh : hk = k
    · subst hh
      simp [dictInsert, assocFind, h']
    · by_cases hh2 : hk = k'
      · simp [dictInsert, assocFind, hh, hh2, h', h]
      · simp [dictInsert, assocFind, hh, hh2, ih]

theorem assocFind_mem {m : Rec} {k v} (h : assocFind m k = some v) : (k, v) ∈ m := by
  induction m with
  | nil => simp [assocFind] at h
  | cons hd tl ih =>
    obtain ⟨hk, hv⟩ := hd
    by_cases hh : hk = k
    · subst hh
      have hv2 : hv = v := by simpa [assocFind] using h
      subst hv2
      exact List.mem_cons_self _ _
    · simp only [assocFind, if_neg hh] at h
      exact List.mem_cons_of_mem _ (ih h)

theorem extract_field_congr (m m' : Rec) (names : List Str)
    (h : ∀ n ∈ names, assocFind m' n = assocFind m n) :
    extract_field m' names = extract_field m names := by
  induction names with
  | nil => rfl
  | cons n rest ih =>
    have hn := h n (List.mem_cons_self n rest)
    have hrest : ∀ x ∈ rest, assocFind m' x = assocFind m x :=
      fun x hx => h x (List.mem_cons_of_mem n hx)
    simp only [extract_field, hn]
    cases assocFind m n with
    | none => exact ih hrest
    | some v =>
      by_cases hv : v = .vnone
      · simp [hv, ih hrest]
      · simp [hv]

theorem mem_dedupAux {a : Str} (seen : List Str) {l : List Str} (h : a ∈ l) :
    a ∈ dedupAux seen l ∨ a ∈ seen := by
  induction l generalizing seen with
  | nil => cases h
  | cons x xs ih =>
    rcases List.mem_cons.mp h with rfl | hmem
    · by_cases hx : a ∈ seen
      · exact Or.inr hx
      · simp only [dedupAux, if_neg hx]
        exact Or.inl (List.mem_cons_self _ _)
    · by_cases hx : x ∈ seen
      · simpa only [dedupAux, if_pos hx] using ih seen hmem
      · simp only [dedupAux, if_neg hx]
        rcases ih (x :: seen) hmem with h1 | h1
        · exact Or.inl (List.mem_cons_of_mem _ h1)
        · rcases List.mem_cons.mp h1 with rfl | h2
          · exact Or.inl (List.mem_cons_self _ _)
          · exact Or.inr h2

theorem mem_dedupKeepFirst {a : Str} {l : List Str} (h : a ∈ l) :
    a ∈ dedupKeepFirst l :=
  (mem_dedupAux [] h).resolve_right (by simp)

theorem mem_partScan {a : Str} {acc : List Str} (pr : Str × PyVal) (h : a ∈ acc) :
    a ∈ partScan acc pr := by
  obtain ⟨k, v⟩ := pr
  cases v with
  | pstr s =>
    rw [show partScan acc (k, PyVal.pstr s) = if s = [] then acc else acc ++ findAllParts s from rfl]
    split
    · exact h
    · exact List.mem_append_left _ h
  | vnone => exact h
  | num q => exact h
  | pdate y m d => exact h
  | plist l => exact h

theorem mem_foldl_partScan_mono {a : Str} (row : Rec) (acc : List Str) (h : a ∈ acc) :
    a ∈ row.foldl partScan acc := by
  induction row generalizing acc with
  | nil => exact h
  | cons hd tl ih => exact ih _ (mem_partScan hd h)

theorem mem_foldl_partScan {p : Str} (row : Rec) (acc : List Str) {k s}
    (hmem : (k, PyVal.pstr s) ∈ row) (hp : p ∈ findAllParts s) :
    p ∈ row.foldl partScan acc := by
  induction row generalizing acc with
  | nil => cases hmem
  | cons hd tl ih =>
    rcases List.mem_cons.mp hmem with rfl | h2
    · rw [List.foldl_cons]
      apply mem_foldl_partScan_mono
      rw [show partScan acc (k, PyVal.pstr s)
            = if s = [] then acc else acc ++ findAllParts s from rfl]
      split
      · rename_i hs
        rw [hs] at hp
        cases hp
      · exact List.mem_append_right _ hp
    · exact ih _ h2

theorem findAll_sub_extract (row : Rec) {k s} (hmem : (k, PyVal.pstr s) ∈ row) :
    ∀ p ∈ findAllParts s, p ∈ extract_part_numbers_from_row row := by
  intro p hp
  exact mem_dedupKeepFirst (mem_foldl_partScan row [] hmem hp)

/-! Bucket lemmas. -/

theorem memBucket_appendAt_self (b : Buckets) (k : Str) (r : Rec) :
    memBucket (appendAt b k r) k r := by
  induction b with
  | nil => exact ⟨[r], by simp [appendAt], by simp⟩
  | cons hd tl ih =>
    obtain ⟨hk, hl⟩ := hd
    by_cases h : hk = k
    · subst h
      exact ⟨hl ++ [r], by simp [appendAt], by simp⟩
    · obtain ⟨l', hmem, hr⟩ := ih
      exact ⟨l', by simp [appendAt, h, hmem], hr⟩

theorem memBucket_appendAt_mono {b : Buckets} {k' r'} (k : Str) (r : Rec)
    (h : memBucket b k' r') : memBucket (appendAt b k r) k' r' := by
  induction b with
  | nil => obtain ⟨l, hmem, _⟩ := h; cases hmem
  | cons hd tl ih =>
    obtain ⟨hk, hl⟩ := hd
    obtain ⟨l, hmem, hr⟩ := h
    rcases List.mem_cons.mp hmem with heq | htl
    · have h1 : k' = hk := congrArg Prod.fst heq
      have h2 : l = hl := congrArg Prod.snd heq
      rw [h2] at hr
      by_cases h3 : hk = k
      · refine ⟨hl ++ [r], ?_, List.mem_append_left _ hr⟩
        rw [h1]
        simp only [appendAt, if_pos h3]
        exact List.mem_cons_self _ _
      · refine ⟨hl, ?_, hr⟩
        rw [h1]
        simp only [appendAt, if_neg h3]
        exact List.mem_cons_self _ _
    · by_cases h3 : hk = k
      · refine ⟨l, ?_, hr⟩
        simp only [appendAt, if_pos h3]
        exact List.mem_cons_of_mem _ htl
      · obtain ⟨l2, hmem2, hr2⟩ := ih ⟨l, htl, hr⟩
        refine ⟨l2, ?_, hr2⟩
        simp only [appendAt, if_neg h3]
        exact List.mem_cons_of_mem _ hmem2

theorem memBucket_appendAt_elim {b : Buckets} {k r k' r'}
    (h : memBucket (appendAt b k r) k' r') :
    (k' = k ∧ r' = r) ∨ memBucket b k' r' := by
  induction b with
  | nil =>
    obtain ⟨l, hmem, hr⟩ := h
    simp only [appendAt, List.mem_singleton] at hmem
    have h1 : k' = k := congrArg Prod.fst hmem
    have h2 : l = [r] := congrArg Prod.snd hmem
    rw [h2] at hr
    simp only [List.mem_singleton] at hr
    exact Or.inl ⟨h1, hr⟩
  | cons hd tl ih =>
    obtain ⟨hk, hl⟩ := hd
    obtain ⟨l, hmem, hr⟩ := h
    by_cases hcase : hk = k
    · rw [show appendAt ((hk, hl) :: tl) k r = (hk, hl ++ [r]) :: tl by
        simp only [appendAt, if_pos hcase]] at hmem
      rcases List.mem_cons.mp hmem with heq | htl
      · have h1 : k' = hk := congrArg Prod.fst heq
        have h2 : l = hl ++ [r] := congrArg Prod.snd heq
        rw [h2] at hr
        rcases List.mem_append.mp hr with hold | hnew
        · exact Or.inr ⟨hl, h1 ▸ List.mem_cons_self _ _, hold⟩
        · simp only [List.mem_singleton] at hnew
          exact Or.inl ⟨h1.trans hcase, hnew⟩
      · exact Or.inr ⟨l, List.mem_cons_of_mem _ htl, hr⟩
    · rw [show appendAt ((hk, hl) :: tl) k r = (hk, hl) :: appendAt tl k r by
        simp only [appendAt, if_neg hcase]] at hmem
      rcases List.mem_cons.mp hmem with heq | htl
      · exact Or.inr ⟨l, heq ▸ List.mem_cons_self _ _, hr⟩
      · rcases ih ⟨l, htl, hr⟩ with h1 | ⟨l2, hmem2, hr2⟩
        · exact Or.inl h1
        · exact Or.inr ⟨l2, List.mem_cons_of_mem _ hmem2, hr2⟩

theorem bucketsLen_appendAt (b : Buckets) (k : Str) (r : Rec) :
    bucketsLen (appendAt b k r) = bucketsLen b + 1 := by
  induction b with
  | nil => simp [appendAt, bucketsLen]
  | cons hd tl ih =>
    obtain ⟨hk, hl⟩ := hd
    by_cases h : hk = k
    · rw [show appendAt ((hk, hl) :: tl) k r = (hk, hl ++ [r]) :: tl by
        simp only [appendAt, if_pos h]]
      simp only [bucketsLen, List.map_cons, List.sum_cons, List.length_append,
        List.length_singleton]
      omega
    · rw [show appendAt ((hk, hl) :: tl) k r = (hk, hl) :: appendAt tl k r by
        simp only [appendAt, if_neg h]]
      simp only [bucketsLen, List.map_cons, List.sum_cons] at ih ⊢
      omega

theorem memBucket_bpFold_mono {b : Buckets} {k r} (rowR : Rec) (parts : List Str)
    (h : memBucket b k r) : memBucket (bpFold rowR parts b) k r := by
  induction parts generalizing b with
  | nil => exact h
  | cons p ps ih => exact ih (memBucket_appendAt_mono p rowR h)

theorem memBucket_bpFold_self {parts : List Str} {k} (rowR : Rec) (b : Buckets)
    (h : k ∈ parts) : memBucket (bpFold rowR parts b) k rowR := by
  induction parts generalizing b with
  | nil => cases h
  | cons p ps ih =>
    rcases List.mem_cons.mp h with rfl | h2
    · exact memBucket_bpFold_mono rowR ps (memBucket_appendAt_self b k rowR)
    · exact ih _ h2

theorem memBucket_bpFold_elim {b : Buckets} {rowR parts k r}
    (h : memBucket (bpFold rowR parts b) k r) :
    memBucket b k r ∨ (r = rowR ∧ k ∈ parts) := by
  induction parts generalizing b with
  | nil => exact Or.inl h
  | cons p ps ih =>
    rcases ih h with h1 | ⟨h1, h2⟩
    · rcases memBucket_appendAt_elim h1 with ⟨hk, hr⟩ | h2
      · exact Or.inr ⟨hr, hk ▸ List.mem_cons_self _ _⟩
      · exact Or.inl h2
    · exact Or.inr ⟨h1, List.mem_cons_of_mem _ h2⟩

/-! Characterisations of the fields of `insertRecord`. -/

theorem insertRecord_all_records (d : ScrapData) (rowR : Rec) (pd : Option Str)
    (mv cv : PyVal) (parts : List Str) :
    (insertRecord d rowR pd mv cv parts).all_records = d.all_records ++ [rowR] := by
  rcases pd with _ | ds <;> simp only [insertRecord] <;> split_ifs <;> rfl

theorem insertRecord_by_machine (d : ScrapData) (rowR : Rec) (pd : Option Str)
    (mv cv : PyVal) (parts : List Str) :
    (insertRecord d rowR pd mv cv parts).by_machine =
      if pyTruthy mv then appendAt d.by_machine (pyStr mv) rowR else d.by_machine := by
  rcases pd with _ | ds <;> simp only [insertRecord] <;> split_ifs <;> rfl

theorem insertRecord_by_controlor (d : ScrapData) (rowR : Rec) (pd : Option Str)
    (mv cv : PyVal) (parts : List Str) :
    (insertRecord d rowR pd mv cv parts).by_controlor =
      if pyTruthy cv then appendAt d.by_controlor (pyStr cv) rowR else d.by_controlor := by
  rcases pd with _ | ds <;> simp only [insertRecord] <;> split_ifs <;> rfl

theorem insertRecord_by_part (d : ScrapData) (rowR : Rec) (pd : Option Str)
    (mv cv : PyVal) (parts : List Str) :
    (insertRecord d rowR pd mv cv parts).by_part_number =
      bpFold rowR parts d.by_part_number := by
  rcases pd with _ | ds <;> simp only [insertRecord] <;> split_ifs <;> rfl

theorem insertRecord_by_date_eq (d : ScrapData) (rowR : Rec) (pd : Option Str)
    (mv cv : PyVal) (parts : List Str) :
    (insertRecord d rowR pd mv cv parts).by_date = d.by_date ∨
    (∃ ds, pd = some ds ∧ ¬ ds = [] ∧
      (insertRecord d rowR pd mv cv parts).by_date = appendAt d.by_date ds rowR) := by
  rcases pd with _ | ds
  · left
    simp only [insertRecord]
    split_ifs <;> rfl
  · by_cases hds : ds = []
    · left
      simp only [insertRecord, if_pos hds]
      split_ifs <;> rfl
    · right
      refine ⟨ds, rfl, hds, ?_⟩
      simp only [insertRecord, if_neg hds]
      split_ifs <;> rfl

/-! Lookups on the built record. -/

theorem assocFind_rowBase_sheet (nm : Str) (hs : List Str) (vals : List PyVal) :
    assocFind (rowBase nm hs vals) sheetKey = some (.pstr nm) := by
  simp only [rowBase]
  exact assocFind_dictInsert_self _ _ _

theorem assocFind_rowDerived_base (nm : Str) (hs : List Str) (vals : List PyVal) (n : Str)
    (h1 : ¬ n = parsedDateKey) (h2 : ¬ n = tpKey) (h3 : ¬ n = okKey)
    (h4 : ¬ n = pieseNokKey) (h5 : ¬ n = scrapRebutKey) (h6 : ¬ n = quarantineKey)
    (h7 : ¬ n = derogationKey) (h8 : ¬ n = totalNokKey) (h9 : ¬ n = scrapRateKey) :
    assocFind (rowDerived nm hs vals) n = assocFind (rowBase nm hs vals) n := by
  simp only [rowDerived]
  rw [assocFind_dictInsert_ne h9, assocFind_dictInsert_ne h8, assocFind_dictInsert_ne h7,
      assocFind_dictInsert_ne h6, assocFind_dictInsert_ne h5, assocFind_dictInsert_ne h4,
      assocFind_dictInsert_ne h3, assocFind_dictInsert_ne h2, assocFind_dictInsert_ne h1]

theorem assocFind_buildRecord_base (nm : Str) (hs : List Str) (vals : List PyVal) (n : Str)
    (h1 : ¬ n = parsedDateKey) (h2 : ¬ n = tpKey) (h3 : ¬ n = okKey)
    (h4 : ¬ n = pieseNokKey) (h5 : ¬ n = scrapRebutKey) (h6 : ¬ n = quarantineKey)
    (h7 : ¬ n = derogationKey) (h8 : ¬ n = totalNokKey) (h9 : ¬ n = scrapRateKey)
    (h10 : ¬ n = partNumsKey) :
    assocFind (buildRecord nm hs vals) n = assocFind (rowBase nm hs vals) n := by
  simp only [buildRecord]
  rw [assocFind_dictInsert_ne h10]
  exact assocFind_rowDerived_base nm hs vals n h1 h2 h3 h4 h5 h6 h7 h8 h9

theorem assocFind_rowDerived_sheet (nm : Str) (hs : List Str) (vals : List PyVal) :
    assocFind (rowDerived nm hs vals) sheetKey = some (.pstr nm) := by
  rw [assocFind_rowDerived_base nm hs vals sheetKey (by decide) (by decide) (by decide)
    (by decide) (by decide) (by decide) (by decide) (by decide) (by decide)]
  exact assocFind_rowBase_sheet nm hs vals

theorem assocFind_buildRecord_sheet (nm : Str) (hs : List Str) (vals : List PyVal) :
    assocFind (buildRecord nm hs vals) sheetKey = some (.pstr nm) := by
  rw [assocFind_buildRecord_base nm hs vals sheetKey (by decide) (by decide) (by decide)
    (by decide) (by decide) (by decide) (by decide) (by decide) (by decide) (by decide)]
  exact assocFind_rowBase_sheet nm hs vals

theorem partsOf_buildRecord (nm : Str) (hs : List Str) (vals : List PyVal) :
    partsOf (buildRecord nm hs vals) =
      extract_part_numbers_from_row (rowDerived nm hs vals) := by
  simp only [partsOf, buildRecord, assocFind_dictInsert_self]

theorem extract_field_buildRecord_machine (nm : Str) (hs : List Str) (vals : List PyVal) :
    extract_field (buildRecord nm hs vals) machineAliases
      = extract_field (rowBase nm hs vals) machineAliases := by
  apply extract_field_congr
  intro n hn
  simp only [machineAliases, List.mem_cons, List.mem_singleton, List.not_mem_nil,
    or_false] at hn
  rcases hn with rfl | rfl <;>
    exact assocFind_buildRecord_base _ _ _ _ (by decide) (by decide) (by decide) (by decide)
      (by decide) (by decide) (by decide) (by decide) (by decide) (by decide)

theorem extract_field_buildRecord_controlor (nm : Str) (hs : List Str) (vals : List PyVal) :
    extract_field (buildRecord nm hs vals) controlorAliases
      = extract_field (rowBase nm hs vals) controlorAliases := by
  apply extract_field_congr
  intro n hn
  simp only [controlorAliases, List.mem_cons, List.mem_singleton, List.not_mem_nil,
    or_false] at hn
  rcases hn with rfl | rfl <;>
    exact assocFind_buildRecord_base _ _ _ _ (by decide) (by decide) (by decide) (by decide)
      (by decide) (by decide) (by decide) (by decide) (by decide) (by decide)

theorem extract_field_buildRecord_date (nm : Str) (hs : List Str) (vals : List PyVal) :
    extract_field (buildRecord nm hs vals) dateAliases
      = extract_field (rowBase nm hs vals) dateAliases := by
  apply extract_field_congr
  intro n hn
  simp only [dateAliases, List.mem_cons, List.mem_singleton, List.not_mem_nil,
    or_false] at hn
  rcases hn with rfl | rfl | rfl <;>
    exact assocFind_buildRecord_base _ _ _ _ (by decide) (by decide) (by decide) (by decide)
      (by decide) (by decide) (by decide) (by decide) (by decide) (by decide)

/-! Preservation of the extraction invariant. -/

theorem inv_insertRecord {d : ScrapData} (rowR : Rec) (pd : Option Str) (mv cv : PyVal)
    (parts : List Str) (hInv : ExtractionInv d)
    (hmv : extract_field rowR machineAliases = mv)
    (hcv : extract_field rowR controlorAliases = cv)
    (hpd : parse_date (extract_field rowR dateAliases) = pd)
    (hparts : partsOf rowR = parts)
    (hsheet : ∃ nm, assocFind rowR sheetKey = some (.pstr nm) ∧
      ∀ p ∈ findAllParts nm, p ∈ parts) :
    ExtractionInv (insertRecord d rowR pd mv cv parts) := by
  constructor
  case date_flat =>
    intro k r h
    rw [insertRecord_all_records]
    rcases insertRecord_by_date_eq d rowR pd mv cv parts with heq | ⟨ds, _, _, heq⟩
    · rw [heq] at h
      exact List.mem_append_left _ (hInv.date_flat k r h)
    · rw [heq] at h
      rcases memBucket_appendAt_elim h with ⟨_, hr⟩ | hold
      · exact List.mem_append_right _ (hr ▸ List.mem_singleton_self _)
      · exact List.mem_append_left _ (hInv.date_flat k r hold)
  case machine_flat =>
    intro k r h
    rw [insertRecord_all_records]
    rw [insertRecord_by_machine] at h
    by_cases htr : pyTruthy mv = true
    · rw [if_pos htr] at h
      rcases memBucket_appendAt_elim h with ⟨_, hr⟩ | hold
      · exact List.mem_append_right _ (hr ▸ List.mem_singleton_self _)
      · exact List.mem_append_left _ (hInv.machine_flat k r hold)
    · rw [if_neg htr] at h
      exact List.mem_append_left _ (hInv.machine_flat k r h)
  case controlor_flat =>
    intro k r h
    rw [insertRecord_all_records]
    rw [insertRecord_by_controlor] at h
    by_cases htr : pyTruthy cv = true
    · rw [if_pos htr] at h
      rcases memBucket_appendAt_elim h with ⟨_, hr⟩ | hold
      · exact List.mem_append_right _ (hr ▸ List.mem_singleton_self _)
      · exact List.mem_append_left _ (hInv.controlor_flat k r hold)
    · rw [if_neg htr] at h
      exact List.mem_append_left _ (hInv.controlor_flat k r h)
  case part_flat =>
    intro k r h
    rw [insertRecord_all_records]
    rw [insertRecord_by_part] at h
    rcases memBucket_bpFold_elim h with hold | ⟨hr, _⟩
    · exact List.mem_append_left _ (hInv.part_flat k r hold)
    · exact List.mem_append_right _ (hr ▸ List.mem_singleton_self _)
  case machine_sound =>
    intro k r h
    rw [insertRecord_by_machine] at h
    by_cases htr : pyTruthy mv = true
    · rw [if_pos htr] at h
      rcases memBucket_appendAt_elim h with ⟨hk, hr⟩ | hold
      · subst hr
        rw [hmv]
        exact ⟨htr, hk.symm⟩
      · exact hInv.machine_sound k r hold
    · rw [if_neg htr] at h
      exact hInv.machine_sound k r h
  case controlor_sound =>
    intro k r h
    rw [insertRecord_by_controlor] at h
    by_cases htr : pyTruthy cv = true
    · rw [if_pos htr] at h
      rcases memBucket_appendAt_elim h with ⟨hk, hr⟩ | hold
      · subst hr
        rw [hcv]
        exact ⟨htr, hk.symm⟩
      · exact hInv.controlor_sound k r hold
    · rw [if_neg htr] at h
      exact hInv.controlor_sound k r h
  case date_sound =>
    intro k r h
    rcases insertRecord_by_date_eq d rowR pd mv cv parts with heq | ⟨ds, hpds, _, heq⟩
    · rw [heq] at h
      exact hInv.date_sound k r h
    · rw [heq] at h
      rcases memBucket_appendAt_elim h with ⟨hk, hr⟩ | hold
      · subst hr
        rw [hpd, hpds, hk]
      · exact hInv.date_sound k r hold
  case machine_complete =>
    intro r hr htr
    rw [insertRecord_all_records] at hr
    rw [insertRecord_by_machine]
    rcases List.mem_append.mp hr with hold | hnew
    · have hb := hInv.machine_complete r hold htr
      by_cases ht2 : pyTruthy mv = true
      · rw [if_pos ht2]
        exact memBucket_appendAt_mono _ _ hb
      · rw [if_neg ht2]
        exact hb
    · simp only [List.mem_singleton] at hnew
      subst hnew
      rw [hmv] at htr
      rw [if_pos htr, hmv]
      exact memBucket_appendAt_self _ _ _
  case machine_count =>
    rw [insertRecord_by_machine, insertRecord_all_records, List.countP_append]
    by_cases htr : pyTruthy mv = true
    · rw [if_pos htr, bucketsLen_appendAt, hInv.machine_count]
      simp [List.countP_cons, hmv, htr]
    · rw [if_neg htr, hInv.machine_count]
      have : pyTruthy (extract_field rowR machineAliases) = false := by
        rw [hmv]
        exact Bool.not_eq_true _ |>.mp htr
      simp [List.countP_cons, this]
  case parts_complete =>
    intro r hr p hp
    rw [insertRecord_all_records] at hr
    rw [insertRecord_by_part]
    rcases List.mem_append.mp hr with hold | hnew
    · exact memBucket_bpFold_mono _ _ (hInv.parts_complete r hold p hp)
    · simp only [List.mem_singleton] at hnew
      subst hnew
      rw [hparts] at hp
      exact memBucket_bpFold_self _ _ hp
  case sheet_parts =>
    intro r hr
    rw [insertRecord_all_records] at hr
    rcases List.mem_append.mp hr with hold | hnew
    · exact hInv.sheet_parts r hold
    · simp only [List.mem_singleton] at hnew
      subst hnew
      obtain ⟨nm, hfind, hsub⟩ := hsheet
      exact ⟨nm, hfind, fun p hp => hparts ▸ hsub p hp⟩

theorem inv_processRow (nm : Str) (hs : List Str) (vals : List PyVal) {d : ScrapData}
    (hInv : ExtractionInv d) : ExtractionInv (processRow nm hs vals d) := by
  rw [processRow]
  split
  · exact hInv
  · refine inv_insertRecord _ _ _ _ _ hInv ?_ ?_ ?_ ?_ ?_
    · exact extract_field_buildRecord_machine nm hs vals
    · exact extract_field_buildRecord_controlor nm hs vals
    · exact congrArg parse_date (extract_field_buildRecord_date nm hs vals)
    · exact partsOf_buildRecord nm hs vals
    · exact ⟨nm, assocFind_buildRecord_sheet nm hs vals,
        fun p hp => findAll_sub_extract (rowDerived nm hs vals)
          (assocFind_mem (assocFind_rowDerived_sheet nm hs vals)) p hp⟩

theorem inv_foldl_rows {α : Type} (nm : Str) (hs : List Str) (g : α → List PyVal) :
    ∀ (l : List α) {d : ScrapData}, ExtractionInv d →
      ExtractionInv (l.foldl (fun acc x => processRow nm hs (g x) acc) d) := by
  intro l
  induction l with
  | nil => intro d h; exact h
  | cons x xs ih => intro d h; exact ih (inv_processRow _ _ _ h)

theorem inv_processSheet (sh : Sheet) {d : ScrapData} (h : ExtractionInv d) :
    ExtractionInv (processSheet d sh) := by
  rw [processSheet]
  split
  · exact h
  · exact inv_foldl_rows sh.name (headersOf sh) (rowVals sh) (rowIndices sh) h

theorem inv_foldl_sheets :
    ∀ (shs : List Sheet) {d : ScrapData}, ExtractionInv d →
      ExtractionInv (shs.foldl processSheet d) := by
  intro shs
  induction shs with
  | nil => intro d h; exact h
  | cons sh rest ih => intro d h; exact ih (inv_processSheet sh h)

theorem inv_init (names : List Str) :
    ExtractionInv ⟨[], [], [], [], [], names⟩ := by
  constructor
  case date_flat => intro k r ⟨l, hl, _⟩; cases hl
  case machine_flat => intro k r ⟨l, hl, _⟩; cases hl
  case controlor_flat => intro k r ⟨l, hl, _⟩; cases hl
  case part_flat => intro k r ⟨l, hl, _⟩; cases hl
  case machine_sound => intro k r ⟨l, hl, _⟩; cases hl
  case controlor_sound => intro k r ⟨l, hl, _⟩; cases hl
  case date_sound => intro k r ⟨l, hl, _⟩; cases hl
  case machine_complete => intro r hr; cases hr
  case machine_count => rfl
  case parts_complete => intro r hr; cases hr
  case sheet_parts => intro r hr; cases hr

theorem inv_extract (wb : Workbook) :
    ExtractionInv (extract_scrap_data_from_excel wb) := by
  rw [extract_scrap_data_from_excel]
  exact inv_foldl_sheets wb.sheets (inv_init _)

/-- C7: for every workbook, every record found in any grouping index
(date, machine, inspector, part number) is also in the flat record list;
every record whose resolved machine id is truthy appears in the machine
bucket keyed by that id's string form and in no other machine bucket;
and the bucket sizes of the machine grouping add up to the number of
records with a truthy machine id. -/
theorem c7_grouping_completeness (wb : Workbook) :
    (∀ k r, memBucket (extract_scrap_data_from_excel wb).by_date k r →
      r ∈ (extract_scrap_data_from_excel wb).all_records) ∧
    (∀ k r, memBucket (extract_scrap_data_from_excel wb).by_machine k r →
      r ∈ (extract_scrap_data_from_excel wb).all_records) ∧
    (∀ k r, memBucket (extract_scrap_data_from_excel wb).by_controlor k r →
      r ∈ (extract_scrap_data_from_excel wb).all_records) ∧
    (∀ k r, memBucket (extract_scrap_data_from_excel wb).by_part_number k r →
      r ∈ (extract_scrap_data_from_excel wb).all_records) ∧
    (∀ r, r ∈ (extract_scrap_data_from_excel wb).all_records →
      pyTruthy (extract_field r machineAliases) = true →
      memBucket (extract_scrap_data_from_excel wb).by_machine
        (pyStr (extract_field r machineAliases)) r ∧
      ∀ k, memBucket (extract_scrap_data_from_excel wb).by_machine k r →
        k = pyStr (extract_field r machineAliases)) ∧
    bucketsLen (extract_scrap_data_from_excel wb).by_machine =
      List.countP (fun r => pyTruthy (extract_field r machineAliases))
        (extract_scrap_data_from_excel wb).all_records := by
  have h := inv_extract wb
  refine ⟨h.date_flat, h.machine_flat, h.controlor_flat, h.part_flat, ?_, h.machine_count⟩
  intro r hr htr
  exact ⟨h.machine_complete r hr htr, fun k hk => (h.machine_sound k r hk).2.symm⟩

/-- C7 witness: on `wbW` (one truthy machine id out of two records) the
bucket sizes add up, and the `M2` record sits in its machine bucket. -/
theorem c7_grouping_completeness_witness :
    bucketsLen (extract_scrap_data_from_excel wbW).by_machine =
      List.countP (fun r => pyTruthy (extract_field r machineAliases))
        (extract_scrap_data_from_excel wbW).all_records ∧
    memBucket (extract_scrap_data_from_excel wbW).by_machine
      (pyStr (extract_field recW2 machineAliases)) recW2 :=
  ⟨(c7_grouping_completeness wbW).2.2.2.2.2,
   ((c7_grouping_completeness wbW).2.2.2.2.1 recW2 (by decide) (by decide)).1⟩

/-- C9: part-number extraction runs after the sheet name was stored
under `'_sheet'` and scans every string value of the row dict, so every
pattern match inside a worksheet's name lands in the stored part-number
set of every retained record of that sheet, and the record is indexed
under that part-number bucket — even though the match comes from no
spreadsheet cell. -/
theorem c9_sheet_name_pattern (wb : Workbook) (r : Rec) (nm p : Str)
    (hr : r ∈ (extract_scrap_data_from_excel wb).all_records)
    (hnm : assocFind r sheetKey = some (.pstr nm))
    (hp : p ∈ findAllParts nm) :
    p ∈ partsOf r ∧
    memBucket (extract_scrap_data_from_excel wb).by_part_number p r := by
  have h := inv_extract wb
  obtain ⟨nm2, hfind2, hsub⟩ := h.sheet_parts r hr
  have heq : PyVal.pstr nm = PyVal.pstr nm2 := Option.some.inj (hnm.symm.trans hfind2)
  injection heq with heq2
  subst heq2
  have hmem := hsub p hp
  exact ⟨hmem, h.parts_complete r hr p hmem⟩

/-- C9 witness: the match `R900305231` from `shW`'s name is in the part
set of the first record and that record is in its part bucket. -/
theorem c9_sheet_name_pattern_witness :
    pW ∈ partsOf recW1 ∧
    memBucket (extract_scrap_data_from_excel wbW).by_part_number pW recW1 :=
  c9_sheet_name_pattern wbW recW1 (codes "R900305231 Control") pW
    (by decide) (by decide) (by decide)

/-- C10: the field resolver returns the first candidate column whose
value is non-null even when that value is the empty string (shadowing
later candidates); downstream, a record whose resolved machine,
inspector or date value is the empty string is excluded from that
grouping index by the truthiness test (the empty date string parses to
`None`), while the record itself stays in the flat list (`hr`). -/
theorem c10_empty_value_shadowing (wb : Workbook) (r : Rec)
    (hr : r ∈ (extract_scrap_data_from_excel wb).all_records) :
    (∀ (row : Rec) (n : Str) (rest : List Str),
      assocFind row n = some (.pstr []) → extract_field row (n :: rest) = .pstr []) ∧
    (extract_field r machineAliases = .pstr [] →
      ∀ k, ¬ memBucket (extract_scrap_data_from_excel wb).by_machine k r) ∧
    (extract_field r controlorAliases = .pstr [] →
      ∀ k, ¬ memBucket (extract_scrap_data_from_excel wb).by_controlor k r) ∧
    (extract_field r dateAliases = .pstr [] →
      ∀ k, ¬ memBucket (extract_scrap_data_from_excel wb).by_date k r) := by
  have h := inv_extract wb
  refine ⟨?_, ?_, ?_, ?_⟩
  · intro row n rest hfind
    simp [extract_field, hfind]
  · intro hef k hmem
    have h2 := (h.machine_sound k r hmem).1
    rw [hef] at h2
    simp [pyTruthy] at h2
  · intro hef k hmem
    have h2 := (h.controlor_sound k r hmem).1
    rw [hef] at h2
    simp [pyTruthy] at h2
  · intro hef k hmem
    have h2 := h.date_sound k r hmem
    rw [hef] at h2
    have h3 : parse_date (PyVal.pstr []) = none := rfl
    rw [h3] at h2
    cases h2

/-- C10 witness: in `wbW`'s first record the empty `Machine` cell
shadows the `M7` value in `Masina`, and the record is in no machine
bucket (in particular not under `M7`). -/
theorem c10_empty_value_shadowing_witness :
    extract_field recW1 machineAliases = .pstr [] ∧
    ¬ memBucket (extract_scrap_data_from_excel wbW).by_machine (codes "M7") recW1 :=
  ⟨(c10_empty_value_shadowing wbW recW1 (by decide)).1 recW1 (codes "Machine")
     [codes "Masina"] (by decide),
   (c10_empty_value_shadowing wbW recW1 (by decide)).2.1 (by decide) (codes "M7")⟩

/-! Lemmas on the per-sheet table and the stable descending sort. -/

theorem mem_keys {t : List (Str × ℚ)} {s : Str} :
    s ∈ t.map Prod.fst ↔ ∃ v, (s, v) ∈ t := by
  constructor
  · intro h
    obtain ⟨⟨a, b⟩, hp, rfl⟩ := List.mem_map.mp h
    exact ⟨b, hp⟩
  · rintro ⟨v, hv⟩
    exact List.mem_map.mpr ⟨(s, v), hv, rfl⟩

theorem keys_catAdd (s0 : Str) (w : ℚ) (t : List (Str × ℚ)) :
    (catAdd s0 w t).map Prod.fst =
      if s0 ∈ t.map Prod.fst then t.map Prod.fst else t.map Prod.fst ++ [s0] := by
  induction t with
  | nil => simp [catAdd]
  | cons hd tl ih =>
    obtain ⟨k, x⟩ := hd
    by_cases h : k = s0
    · simp [catAdd, h]
    · have h' : ¬ s0 = k := fun hc => h hc.symm
      simp only [catAdd, if_neg h, List.map_cons, List.mem_cons, h', false_or, ih]
      by_cases h2 : s0 ∈ tl.map Prod.fst
      · simp [h2]
      · simp [h2]

theorem mem_catAdd_new {s0 : Str} {w : ℚ} {t : List (Str × ℚ)}
    (hnew : s0 ∉ t.map Prod.fst) (s : Str) (v : ℚ) :
    (s, v) ∈ catAdd s0 w t ↔ (s, v) ∈ t ∨ (s = s0 ∧ v = w) := by
  induction t with
  | nil => simp [catAdd]
  | cons hd tl ih =>
    obtain ⟨k, x⟩ := hd
    have hk : ¬ k = s0 := fun hc => hnew (by simp [hc])
    have hnew2 : s0 ∉ tl.map Prod.fst := fun hc => hnew (by simp [hc])
    simp only [catAdd, if_neg hk, List.mem_cons, ih hnew2]
    tauto

theorem mem_catAdd_old {s0 : Str} {w : ℚ} {t : List (Str × ℚ)}
    (hnd : (t.map Prod.fst).Nodup) {x0 : ℚ} (hx0 : (s0, x0) ∈ t) (s : Str) (v : ℚ) :
    (s, v) ∈ catAdd s0 w t ↔
      ((¬ s = s0) ∧ (s, v) ∈ t) ∨ (s = s0 ∧ v = x0 + w) := by
  induction t with
  | nil => cases hx0
  | cons hd tl ih =>
    obtain ⟨k, x⟩ := hd
    simp only [List.map_cons, List.nodup_cons] at hnd
    by_cases hk : k = s0
    · have hx : x0 = x := by
        rcases List.mem_cons.mp hx0 with heq | htl
        · exact congrArg Prod.snd heq
        · exfalso
          apply hnd.1
          rw [hk]
          exact mem_keys.mpr ⟨x0, htl⟩
      subst hx
      rw [show catAdd s0 w ((k, x0) :: tl) = (k, x0 + w) :: tl by simp [catAdd, hk]]
      constructor
      · intro hmem
        rcases List.mem_cons.mp hmem with heq | htl
        · have h1 : s = k := congrArg Prod.fst heq
          have h2 : v = x0 + w := congrArg Prod.snd heq
          exact Or.inr ⟨h1.trans hk, h2⟩
        · have hs : ¬ s = s0 := by
            intro hc
            apply hnd.1
            rw [hk]
            exact hc ▸ mem_keys.mpr ⟨v, htl⟩
          exact Or.inl ⟨hs, List.mem_cons_of_mem _ htl⟩
      · rintro (⟨hs, hmem⟩ | ⟨hs, hv⟩)
        · rcases List.mem_cons.mp hmem with heq | htl
          · exact absurd ((congrArg Prod.fst heq).trans hk) hs
          · exact List.mem_cons_of_mem _ htl
        · subst hs
          subst hv
          rw [← hk]
          exact List.mem_cons_self _ _
    · have hx0tl : (s0, x0) ∈ tl := by
        rcases List.mem_cons.mp hx0 with heq | htl
        · exact absurd (congrArg Prod.fst heq).symm hk
        · exact htl
      rw [show catAdd s0 w ((k, x) :: tl) = (k, x) :: catAdd s0 w tl by
        simp [catAdd, hk]]
      rw [List.mem_cons, List.mem_cons, ih hnd.2 hx0tl]
      constructor
      · rintro (heq | (⟨hs, hmem⟩ | ⟨hs, hv⟩))
        · have hs : ¬ s = s0 := by
            intro hc
            have h1 : s = k := congrArg Prod.fst heq
            rw [h1] at hc
            exact hk hc
          exact Or.inl ⟨hs, Or.inl heq⟩
        · exact Or.inl ⟨hs, Or.inr hmem⟩
        · exact Or.inr ⟨hs, hv⟩
      · rintro (⟨hs, heq | hmem⟩ | ⟨hs, hv⟩)
        · exact Or.inl heq
        · exact Or.inr (Or.inl ⟨hs, hmem⟩)
        · exact Or.inr (Or.inr ⟨hs, hv⟩)

theorem nodup_append_singleton {α : Type} {l : List α} {a : α} (h : l.Nodup)
    (ha : a ∉ l) : (l ++ [a]).Nodup := by
  induction l with
  | nil => simp
  | cons x xs ih =>
    simp only [List.cons_append, List.nodup_cons] at h ⊢
    refine ⟨?_, ih h.2 (fun hc => ha (List.mem_cons_of_mem _ hc))⟩
    intro hc
    rcases List.mem_append.mp hc with h1 | h2
    · exact h.1 h1
    · simp only [List.mem_singleton] at h2
      exact ha (h2 ▸ List.mem_cons_self _ _)

theorem sheetNokSum_append (pre : List Rec) (r : Rec) (s : Str) :
    sheetNokSum (pre ++ [r]) s =
      sheetNokSum pre s + (if recSheet r = s then qContrib (recNokVal r) else 0) := by
  simp only [sheetNokSum, List.filter_append]
  by_cases h : recSheet r = s
  · simp [h]
  · simp [h]

theorem firstHitIdx_le (s : Str) (pre : List Rec) : firstHitIdx s pre ≤ pre.length := by
  induction pre with
  | nil => exact Nat.le_refl 0
  | cons p ps ih =>
    simp only [firstHitIdx, List.length_cons]
    split
    · omega
    · omega

theorem firstHitIdx_append_of_hit {pre : List Rec} {s : Str} (h : hitIn pre s)
    (l2 : List Rec) : firstHitIdx s (pre ++ l2) = firstHitIdx s pre := by
  induction pre with
  | nil => exact absurd h (lt_irrefl 0)
  | cons p ps ih =>
    simp only [hitIn, firstHitIdx, List.length_cons] at h
    simp only [List.cons_append, firstHitIdx]
    split
    · rfl
    · rename_i hmiss
      rw [if_neg hmiss] at h
      exact congrArg (· + 1) (ih (Nat.lt_of_succ_lt_succ h))

theorem hitIn_append_of_hit {pre : List Rec} {s : Str} (h : hitIn pre s)
    (l2 : List Rec) : hitIn (pre ++ l2) s := by
  simp only [hitIn, firstHitIdx_append_of_hit h, List.length_append]
  exact Nat.lt_of_lt_of_le h (Nat.le_add_right _ _)

theorem firstHitIdx_append_hit_last {pre : List Rec} {r : Rec} {s : Str}
    (hmiss : ¬ hitIn pre s) (hr : recSheet r = s ∧ pyTruthy (recNokVal r) = true) :
    firstHitIdx s (pre ++ [r]) = pre.length := by
  induction pre with
  | nil => simp [firstHitIdx, hr]
  | cons p ps ih =>
    simp only [hitIn, firstHitIdx, List.length_cons] at hmiss
    by_cases hp : recSheet p = s ∧ pyTruthy (recNokVal p) = true
    · rw [if_pos hp] at hmiss
      exact absurd (Nat.succ_pos _) hmiss
    · rw [if_neg hp] at hmiss
      simp only [List.cons_append, firstHitIdx, if_neg hp, List.length_cons]
      have hmiss2 : ¬ hitIn ps s := fun hc => hmiss (Nat.succ_lt_succ hc)
      exact congrArg (· + 1) (ih hmiss2)

theorem hitIn_iff (records : List Rec) (s : Str) :
    hitIn records s ↔
      ∃ r ∈ records, recSheet r = s ∧ pyTruthy (recNokVal r) = true := by
  induction records with
  | nil =>
    simp only [hitIn, firstHitIdx, List.length_nil, List.not_mem_nil]
    constructor
    · intro h; exact absurd h (lt_irrefl 0)
    · rintro ⟨r, hr, _⟩; cases hr
  | cons p ps ih =>
    simp only [hitIn, firstHitIdx, List.length_cons]
    by_cases hp : recSheet p = s ∧ pyTruthy (recNokVal p) = true
    · rw [if_pos hp]
      constructor
      · intro _; exact ⟨p, List.mem_cons_self _ _, hp⟩
      · intro _; exact Nat.succ_pos _
    · rw [if_neg hp]
      constructor
      · intro h
        obtain ⟨r, hr, hh⟩ := ih.mp (Nat.lt_of_succ_lt_succ h)
        exact ⟨r, List.mem_cons_of_mem _ hr, hh⟩
      · rintro ⟨r, hr, hh⟩
        rcases List.mem_cons.mp hr with rfl | htl
        · exact absurd hh hp
        · exact Nat.succ_lt_succ (ih.mpr ⟨r, htl, hh⟩)

theorem catContent_init : CatContent [] [] := by
  refine ⟨List.nodup_nil, ?_⟩
  intro s v
  simp only [List.not_mem_nil, false_iff, hitIn, firstHitIdx, List.length_nil]
  rintro ⟨h, _⟩
  exact absurd h (lt_irrefl 0)

theorem qContrib_eq_zero_of_not_truthy {v : PyVal} (h : ¬ pyTruthy v = true) :
    qContrib v = 0 := by
  cases v with
  | num q =>
    simp only [pyTruthy] at h
    split at h
    · rename_i hq0
      simp [qContrib, hq0]
    · exact absurd rfl h
  | vnone => rfl
  | pstr s => rfl
  | pdate y m d => simp [pyTruthy] at h
  | plist l => rfl

theorem sheetNokSum_eq_zero_of_miss {pre : List Rec} {s : Str}
    (hmiss : ¬ hitIn pre s) : sheetNokSum pre s = 0 := by
  rw [sheetNokSum]
  apply List.sum_eq_zero
  intro q hq
  obtain ⟨r2, hr2, rfl⟩ := List.mem_map.mp hq
  have hr2f := List.of_mem_filter hr2
  have hr2m := List.mem_of_mem_filter hr2
  simp only [decide_eq_true_eq] at hr2f
  by_cases ht2 : pyTruthy (recNokVal r2) = true
  · exact absurd ((hitIn_iff pre s).mpr ⟨r2, hr2m, hr2f, ht2⟩) hmiss
  · exact qContrib_eq_zero_of_not_truthy ht2

theorem hitIn_append_elim {pre : List Rec} {r : Rec} {s : Str}
    (hh : hitIn (pre ++ [r]) s) (hs : ¬ recSheet r = s) : hitIn pre s := by
  rw [hitIn_iff] at hh ⊢
  obtain ⟨r2, hr2, hh2⟩ := hh
  rcases List.mem_append.mp hr2 with h1 | h2
  · exact ⟨r2, h1, hh2⟩
  · simp only [List.mem_singleton] at h2
    subst h2
    exact absurd hh2.1 hs

theorem catContent_step {t : List (Str × ℚ)} {pre : List Rec}
    (h : CatContent t pre) (r : Rec) : CatContent (catStep t r) (pre ++ [r]) := by
  obtain ⟨hnd, hcont⟩ := h
  by_cases htr : pyTruthy (recNokVal r) = true
  · rw [show catStep t r = catAdd (recSheet r) (qContrib (recNokVal r)) t by
      simp [catStep, htr]]
    by_cases hold : recSheet r ∈ t.map Prod.fst
    · obtain ⟨x0, hx0⟩ := mem_keys.mp hold
      have hhit : hitIn pre (recSheet r) := (hcont _ x0 |>.mp hx0).1
      have hx0v : x0 = sheetNokSum pre (recSheet r) := (hcont _ x0 |>.mp hx0).2
      refine ⟨by rw [keys_catAdd, if_pos hold]; exact hnd, ?_⟩
      intro s v
      rw [mem_catAdd_old hnd hx0]
      constructor
      · rintro (⟨hs, hmem⟩ | ⟨hs, hv⟩)
        · obtain ⟨hh, hvv⟩ := (hcont s v).mp hmem
          refine ⟨hitIn_append_of_hit hh _, ?_⟩
          rw [sheetNokSum_append, if_neg (fun hc => hs hc.symm), add_zero]
          exact hvv
        · subst hs
          refine ⟨hitIn_append_of_hit hhit _, ?_⟩
          rw [sheetNokSum_append, if_pos rfl, hv, hx0v]
      · rintro ⟨hh, hv⟩
        by_cases hs : s = recSheet r
        · subst hs
          right
          refine ⟨rfl, ?_⟩
          rw [hv, sheetNokSum_append, if_pos rfl, hx0v]
        · left
          refine ⟨hs, (hcont s v).mpr ⟨hitIn_append_elim hh (fun hc => hs hc.symm), ?_⟩⟩
          rw [sheetNokSum_append, if_neg (fun hc => hs hc.symm), add_zero] at hv
          exact hv
    · have hmiss : ¬ hitIn pre (recSheet r) := by
        intro hc
        exact hold (mem_keys.mpr ⟨sheetNokSum pre (recSheet r),
          (hcont _ _).mpr ⟨hc, rfl⟩⟩)
      refine ⟨?_, ?_⟩
      · rw [keys_catAdd, if_neg hold]
        exact nodup_append_singleton hnd hold
      · intro s v
        rw [mem_catAdd_new hold]
        constructor
        · rintro (hmem | ⟨hs, hv⟩)
          · obtain ⟨hh, hvv⟩ := (hcont s v).mp hmem
            have hs : ¬ recSheet r = s := fun hc => hmiss (hc ▸ hh)
            refine ⟨hitIn_append_of_hit hh _, ?_⟩
            rw [sheetNokSum_append, if_neg hs, add_zero]
            exact hvv
          · subst hs
            refine ⟨(hitIn_iff _ _).mpr
              ⟨r, List.mem_append_right _ (List.mem_singleton_self _), rfl, htr⟩, ?_⟩
            rw [sheetNokSum_append, if_pos rfl, sheetNokSum_eq_zero_of_miss hmiss,
              zero_add, hv]
        · rintro ⟨hh, hv⟩
          by_cases hs : s = recSheet r
          · subst hs
            right
            refine ⟨rfl, ?_⟩
            rw [hv, sheetNokSum_append, if_pos rfl, sheetNokSum_eq_zero_of_miss hmiss,
              zero_add]
          · left
            refine (hcont s v).mpr ⟨hitIn_append_elim hh (fun hc => hs hc.symm), ?_⟩
            rw [sheetNokSum_append, if_neg (fun hc => hs hc.symm), add_zero] at hv
            exact hv
  · rw [show catStep t r = t by simp [catStep, htr]]
    refine ⟨hnd, ?_⟩
    intro s v
    rw [hcont s v]
    have hzero : qContrib (recNokVal r) = 0 := qContrib_eq_zero_of_not_truthy htr
    constructor
    · rintro ⟨hh, hv⟩
      refine ⟨hitIn_append_of_hit hh _, ?_⟩
      rw [sheetNokSum_append]
      split
      · rw [hzero, add_zero]; exact hv
      · rw [add_zero]; exact hv
    · rintro ⟨hh, hv⟩
      refine ⟨?_, ?_⟩
      · rw [hitIn_iff] at hh ⊢
        obtain ⟨r2, hr2, hh2⟩ := hh
        rcases List.mem_append.mp hr2 with h1 | h2
        · exact ⟨r2, h1, hh2⟩
        · simp only [List.mem_singleton] at h2
          subst h2
          exact absurd hh2.2 htr
      · rw [sheetNokSum_append] at hv
        split at hv
        · rw [hzero, add_zero] at hv; exact hv
        · rw [add_zero] at hv; exact hv

theorem sublist_pair_append_singleton {α : Type} {s1 s2 a : α} {l : List α}
    (h : [s1, s2].Sublist (l ++ [a])) :
    [s1, s2].Sublist l ∨ (s2 = a ∧ s1 ∈ l) := by
  induction l with
  | nil =>
    exfalso
    have := h.length_le
    simp at this
  | cons x xs ih =>
    rw [List.cons_append] at h
    cases h with
    | cons _ h2 =>
      rcases ih h2 with h3 | ⟨h3, h4⟩
      · exact Or.inl (h3.cons x)
      · exact Or.inr ⟨h3, List.mem_cons_of_mem _ h4⟩
    | cons₂ _ h2 =>
      have h3 : s2 ∈ xs ++ [a] := List.singleton_sublist.mp h2
      rcases List.mem_append.mp h3 with h4 | h4
      · exact Or.inl ((List.singleton_sublist.mpr h4).cons₂ s1)
      · simp only [List.mem_singleton] at h4
        exact Or.inr ⟨h4, List.mem_cons_self _ _⟩

theorem catOrder_init : CatOrder [] [] := by
  intro s1 s2 hsub
  exfalso
  have := hsub.length_le
  simp at this

theorem catOrder_step {t : List (Str × ℚ)} {pre : List Rec}
    (hc : CatContent t pre) (ho : CatOrder t pre) (r : Rec) :
    CatOrder (catStep t r) (pre ++ [r]) := by
  intro s1 s2 hsub
  have hmemhit : ∀ s, s ∈ t.map Prod.fst → hitIn pre s := by
    intro s hs
    obtain ⟨v, hv⟩ := mem_keys.mp hs
    exact ((hc.2 s v).mp hv).1
  by_cases htr : pyTruthy (recNokVal r) = true
  · rw [show catStep t r = catAdd (recSheet r) (qContrib (recNokVal r)) t by
      simp [catStep, htr]] at hsub
    rw [keys_catAdd] at hsub
    by_cases hold : recSheet r ∈ t.map Prod.fst
    · rw [if_pos hold] at hsub
      have h1 := hmemhit s1 (hsub.subset (List.mem_cons_self _ _))
      have h2 := hmemhit s2 (hsub.subset (List.mem_cons_of_mem _ (List.mem_cons_self _ _)))
      rw [firstHitIdx_append_of_hit h1, firstHitIdx_append_of_hit h2]
      exact ho s1 s2 hsub
    · rw [if_neg hold] at hsub
      rcases sublist_pair_append_singleton hsub with hin | ⟨hs2, hs1⟩
      · have h1 := hmemhit s1 (hin.subset (List.mem_cons_self _ _))
        have h2 := hmemhit s2 (hin.subset (List.mem_cons_of_mem _ (List.mem_cons_self _ _)))
        rw [firstHitIdx_append_of_hit h1, firstHitIdx_append_of_hit h2]
        exact ho s1 s2 hin
      · subst hs2
        have hmiss : ¬ hitIn pre (recSheet r) := fun hcon =>
          hold (mem_keys.mpr ⟨sheetNokSum pre (recSheet r), (hc.2 _ _).mpr ⟨hcon, rfl⟩⟩)
        have h1 := hmemhit s1 hs1
        rw [firstHitIdx_append_of_hit h1, firstHitIdx_append_hit_last hmiss ⟨rfl, htr⟩]
        exact h1
  · rw [show catStep t r = t by simp [catStep, htr]] at hsub
    have h1 := hmemhit s1 (hsub.subset (List.mem_cons_self _ _))
    have h2 := hmemhit s2 (hsub.subset (List.mem_cons_of_mem _ (List.mem_cons_self _ _)))
    rw [firstHitIdx_append_of_hit h1, firstHitIdx_append_of_hit h2]
    exact ho s1 s2 hsub

theorem cat_fold (records : List Rec) :
    ∀ (pre : List Rec) (t : List (Str × ℚ)), CatContent t pre → CatOrder t pre →
      CatContent (records.foldl catStep t) (pre ++ records) ∧
      CatOrder (records.foldl catStep t) (pre ++ records) := by
  induction records with
  | nil =>
    intro pre t hc ho
    simpa using ⟨hc, ho⟩
  | cons r rest ih =>
    intro pre t hc ho
    have h2 := ih (pre ++ [r]) (catStep t r) (catContent_step hc r) (catOrder_step hc ho r)
    simpa [List.append_assoc] using h2

theorem catTable_content (records : List Rec) :
    CatContent (sheetStatsOf records) records ∧
    CatOrder (sheetStatsOf records) records := by
  have h := cat_fold records [] [] catContent_init catOrder_init
  simpa [sheetStatsOf] using h

theorem mem_catInsert {x z : Str × ℚ} {l : List (Str × ℚ)} :
    z ∈ catInsert x l ↔ z = x ∨ z ∈ l := by
  induction l with
  | nil => simp [catInsert]
  | cons y ys ih =>
    simp only [catInsert]
    split
    · rw [List.mem_cons, ih, List.mem_cons]
      tauto
    · simp [List.mem_cons]

theorem catInsert_perm (x : Str × ℚ) (l : List (Str × ℚ)) :
    List.Perm (catInsert x l) (x :: l) := by
  induction l with
  | nil => exact List.Perm.refl _
  | cons y ys ih =>
    simp only [catInsert]
    split
    · exact (ih.cons y).trans (List.Perm.swap x y ys)
    · exact List.Perm.refl _

theorem pySort_fold_perm (l : List (Str × ℚ)) :
    ∀ acc, List.Perm (l.foldl (fun a x => catInsert x a) acc) (l ++ acc) := by
  induction l with
  | nil => intro acc; exact List.Perm.refl _
  | cons x xs ih =>
    intro acc
    have h1 := ih (catInsert x acc)
    have h2 : List.Perm (xs ++ catInsert x acc) (xs ++ (x :: acc)) :=
      List.Perm.append_left xs (catInsert_perm x acc)
    exact (h1.trans h2).trans List.perm_middle

theorem pySort_perm (l : List (Str × ℚ)) : List.Perm (pySortByValDesc l) l := by
  have h := pySort_fold_perm l []
  simpa using h

theorem catInsert_pairwise {ks : List Str} {acc : List (Str × ℚ)} {x : Str × ℚ}
    (hsorted : List.Pairwise
      (fun p q => q.2 ≤ p.2 ∧ (p.2 = q.2 → [p.1, q.1].Sublist ks)) acc)
    (hyx : ∀ y ∈ acc, [y.1, x.1].Sublist ks) :
    List.Pairwise (fun p q => q.2 ≤ p.2 ∧ (p.2 = q.2 → [p.1, q.1].Sublist ks))
      (catInsert x acc) := by
  induction acc with
  | nil => simp [catInsert]
  | cons y ys ih =>
    rw [List.pairwise_cons] at hsorted
    simp only [catInsert]
    split
    · rename_i hle
      rw [List.pairwise_cons]
      constructor
      · intro z hz
        rcases mem_catInsert.mp hz with rfl | hzys
        · exact ⟨hle, fun _ => hyx y (List.mem_cons_self _ _)⟩
        · exact hsorted.1 z hzys
      · exact ih hsorted.2 (fun y2 hy2 => hyx y2 (List.mem_cons_of_mem _ hy2))
    · rename_i hgt
      rw [List.pairwise_cons]
      constructor
      · intro z hz
        rcases List.mem_cons.mp hz with rfl | hzys
        · exact ⟨le_of_not_le hgt, fun heq => absurd (le_of_eq heq) hgt⟩
        · have hyz := hsorted.1 z hzys
          refine ⟨le_trans hyz.1 (le_of_not_le hgt), fun heq => ?_⟩
          exfalso
          apply hgt
          rw [heq]
          exact hyz.1
      · rw [List.pairwise_cons]
        exact ⟨hsorted.1, hsorted.2⟩

theorem pySort_fold_pairwise (ks : List Str) :
    ∀ (todo acc : List (Str × ℚ)) (pre : List Str),
      ks = pre ++ todo.map Prod.fst →
      (∀ y ∈ acc, y.1 ∈ pre) →
      List.Pairwise (fun p q => q.2 ≤ p.2 ∧ (p.2 = q.2 → [p.1, q.1].Sublist ks)) acc →
      List.Pairwise (fun p q => q.2 ≤ p.2 ∧ (p.2 = q.2 → [p.1, q.1].Sublist ks))
        (todo.foldl (fun a x => catInsert x a) acc) := by
  intro todo
  induction todo with
  | nil => intro acc pre _ _ hp; exact hp
  | cons x rest ih =>
    intro acc pre hks hmem hp
    rw [List.foldl_cons]
    apply ih (catInsert x acc) (pre ++ [x.1])
    · rw [hks, List.map_cons]
      simp [List.append_assoc]
    · intro y hy
      rcases mem_catInsert.mp hy with rfl | hyacc
      · exact List.mem_append_right _ (List.mem_singleton_self _)
      · exact List.mem_append_left _ (hmem y hyacc)
    · apply catInsert_pairwise hp
      intro y hy
      rw [hks, List.map_cons]
      exact List.Sublist.append (List.singleton_sublist.mpr (hmem y hy))
        (List.singleton_sublist.mpr (List.mem_cons_self _ _))

theorem pySort_pairwise_of_table (tbl : List (Str × ℚ)) :
    List.Pairwise
      (fun p q => q.2 ≤ p.2 ∧ (p.2 = q.2 → [p.1, q.1].Sublist (tbl.map Prod.fst)))
      (pySortByValDesc tbl) :=
  pySort_fold_pairwise (tbl.map Prod.fst) tbl [] [] (by simp) (by simp)
    List.Pairwise.nil

/-- C8 counterexample to the claim as stated: sheet `A` appears among
the records (all its NOK counts are zero), yet the emitted label
sequence omits it entirely — the code creates a table key only for a
record with truthy NOK (`if nok:` at line 1700). -/
theorem c8_claim_counterexample :
    codes "A" ∈ c8data.all_records.map recSheet ∧
    codes "A" ∉ (calculate_category_breakdown c8data).labels := by
  constructor
  · decide
  · decide

/-- C8 (amended): the category breakdown emits, for each source sheet
having at least one record with nonzero NOK, a label/value pair whose
value is the sheet's NOK sum over all records; the pairs are a
permutation of the per-sheet table, sorted descending by value; and two
pairs with equal values keep the order in which their sheets first
contributed a nonzero-NOK record. -/
theorem c8_category_breakdown_amended (d : ScrapData) :
    (calculate_category_breakdown d).labels
        = (pySortByValDesc (sheetStatsOf d.all_records)).map Prod.fst ∧
    (calculate_category_breakdown d).values
        = (pySortByValDesc (sheetStatsOf d.all_records)).map Prod.snd ∧
    List.Perm (pySortByValDesc (sheetStatsOf d.all_records))
      (sheetStatsOf d.all_records) ∧
    (∀ s v, (s, v) ∈ sheetStatsOf d.all_records ↔
      ((∃ r ∈ d.all_records, recSheet r = s ∧ pyTruthy (recNokVal r) = true) ∧
       v = sheetNokSum d.all_records s)) ∧
    List.Pairwise (fun p q => q.2 ≤ p.2) (pySortByValDesc (sheetStatsOf d.all_records)) ∧
    List.Pairwise (fun p q => p.2 = q.2 →
        firstHitIdx p.1 d.all_records < firstHitIdx q.1 d.all_records)
      (pySortByValDesc (sheetStatsOf d.all_records)) := by
  obtain ⟨hcont, horder⟩ := catTable_content d.all_records
  have hpw := pySort_pairwise_of_table (sheetStatsOf d.all_records)
  refine ⟨rfl, rfl, pySort_perm _, ?_, ?_, ?_⟩
  · intro s v
    rw [hcont.2 s v, hitIn_iff]
  · exact hpw.imp (fun h => h.1)
  · exact hpw.imp (fun h heq => horder _ _ (h.2 heq))

/-- C8 witness: on `c8data` the table holds exactly `(B, 3)`, derived
through the amended characterisation, and the emitted labels are
`[B]`. -/
theorem c8_category_breakdown_amended_witness :
    (codes "B", (3 : ℚ)) ∈ sheetStatsOf c8data.all_records ∧
    (calculate_category_breakdown c8data).labels = [codes "B"] :=
  ⟨((c8_category_breakdown_amended c8data).2.2.2.1 (codes "B") 3).mpr
     ⟨⟨recB3, by decide, by decide, by decide⟩,
      by rw [show sheetNokSum c8data.all_records (codes "B") = 3 + 0 from rfl,
        add_zero]⟩,
   by decide⟩

/-! Digit-string and date-format lemmas. -/

theorem mem_pad2_bounds {c n : Nat} (h : c ∈ pad2 n) : 48 ≤ c ∧ c ≤ 57 := by
  simp only [pad2, List.mem_cons, List.mem_singleton, List.not_mem_nil, or_false] at h
  rcases h with rfl | rfl <;> omega

theorem mem_pad4_bounds {c n : Nat} (h : c ∈ pad4 n) : 48 ≤ c ∧ c ≤ 57 := by
  simp only [pad4, List.mem_cons, List.mem_singleton, List.not_mem_nil, or_false] at h
  rcases h with rfl | rfl | rfl | rfl <;> omega

theorem not_mem_pad2 {c n : Nat} (hc : c < 48) : c ∉ pad2 n :=
  fun h => absurd (mem_pad2_bounds h).1 (by omega)

theorem not_mem_pad4 {c n : Nat} (hc : c < 48) : c ∉ pad4 n :=
  fun h => absurd (mem_pad4_bounds h).1 (by omega)

theorem mem_fmt3 {c sep : Nat} {A B C : Str} (h : c ∈ A ++ sep :: B ++ sep :: C) :
    c ∈ A ∨ c ∈ B ∨ c ∈ C ∨ c = sep := by
  rcases List.mem_append.mp h with h1 | h2
  · rcases List.mem_append.mp h1 with h3 | h3
    · exact Or.inl h3
    · rcases List.mem_cons.mp h3 with h4 | h4
      · exact Or.inr (Or.inr (Or.inr h4))
      · exact Or.inr (Or.inl h4)
  · rcases List.mem_cons.mp h2 with h4 | h4
    · exact Or.inr (Or.inr (Or.inr h4))
    · exact Or.inr (Or.inr (Or.inl h4))

theorem not_mem_fmt3 {c sep : Nat} {A B C : Str} (hA : c ∉ A) (hB : c ∉ B)
    (hC : c ∉ C) (hsep : ¬ c = sep) : c ∉ A ++ sep :: B ++ sep :: C := by
  intro h
  rcases mem_fmt3 h with h1 | h1 | h1 | h1
  · exact hA h1
  · exact hB h1
  · exact hC h1
  · exact hsep h1

theorem dropWhile_isWS_of_no_ws {s : Str} (h : ∀ c ∈ s, isWS c = false) :
    s.dropWhile isWS = s := by
  cases s with
  | nil => rfl
  | cons c rest => simp [List.dropWhile_cons, h c (List.mem_cons_self _ _)]

theorem stripWS_of_no_ws {s : Str} (h : ∀ c ∈ s, isWS c = false) : stripWS s = s := by
  rw [stripWS, dropWhile_isWS_of_no_ws h,
    dropWhile_isWS_of_no_ws (fun c hc => h c (List.mem_reverse.mp hc)),
    List.reverse_reverse]

theorem isWS_false_of_ge {c : Nat} (h : 45 ≤ c) : isWS c = false := by
  simp only [isWS]
  simp only [Bool.or_eq_false_iff, decide_eq_false_iff_not]
  omega

theorem digitsVal_pad2 (n : Nat) (h : n < 100) : digitsVal (pad2 n) = n := by
  simp only [digitsVal, pad2, List.foldl_cons, List.foldl_nil]
  omega

theorem digitsVal_pad4 (n : Nat) (h : n < 10000) : digitsVal (pad4 n) = n := by
  simp only [digitsVal, pad4, List.foldl_cons, List.foldl_nil]
  omega

theorem pad2_all_isDig (n : Nat) : (pad2 n).all isDig = true := by
  simp [pad2, isDig]
  omega

theorem pad4_all_isDig (n : Nat) : (pad4 n).all isDig = true := by
  simp [pad4, isDig]
  omega

theorem splitOnAux_no_sep {sep : Nat} {x : Str} (hx : sep ∉ x) (acc : Str) :
    splitOnAux sep x acc = [acc.reverse ++ x] := by
  induction x generalizing acc with
  | nil => simp [splitOnAux]
  | cons c rest ih =>
    have hc : ¬ c = sep := fun h => hx (h ▸ List.mem_cons_self _ _)
    have hrest : sep ∉ rest := fun h => hx (List.mem_cons_of_mem _ h)
    simp only [splitOnAux, if_neg hc]
    rw [ih hrest]
    simp

theorem splitOnAux_sep_mid {sep : Nat} {x : Str} (hx : sep ∉ x) (rest acc : Str) :
    splitOnAux sep (x ++ sep :: rest) acc =
      (acc.reverse ++ x) :: splitOnAux sep rest [] := by
  induction x generalizing acc with
  | nil => simp [splitOnAux]
  | cons c xs ih =>
    have hc : ¬ c = sep := fun h => hx (h ▸ List.mem_cons_self _ _)
    have hxs : sep ∉ xs := fun h => hx (List.mem_cons_of_mem _ h)
    calc splitOnAux sep ((c :: xs) ++ sep :: rest) acc
        = splitOnAux sep (xs ++ sep :: rest) (c :: acc) := by
          rw [List.cons_append]
          simp only [splitOnAux, if_neg hc]
      _ = ((c :: acc).reverse ++ xs) :: splitOnAux sep rest [] := ih hxs (c :: acc)
      _ = (acc.reverse ++ c :: xs) :: splitOnAux sep rest [] := by simp

theorem splitOnChar_three {sep : Nat} {a b c : Str}
    (ha : sep ∉ a) (hb : sep ∉ b) (hc : sep ∉ c) :
    splitOnChar sep (a ++ sep :: b ++ sep :: c) = [a, b, c] := by
  rw [splitOnChar, List.append_assoc, List.cons_append, splitOnAux_sep_mid ha,
    splitOnAux_sep_mid hb, splitOnAux_no_sep hc]
  simp

theorem splitOnChar_no_sep {sep : Nat} {s : Str} (h : sep ∉ s) :
    splitOnChar sep s = [s] := by
  rw [splitOnChar, splitOnAux_no_sep h]
  simp

theorem parseY4_pad4 {y : Nat} (h1 : 1 ≤ y) (h2 : y ≤ 9999) :
    parseY4 (pad4 y) = some y := by
  have hv : digitsVal (pad4 y) = y := digitsVal_pad4 y (by omega)
  have hlen : (pad4 y).length = 4 := rfl
  simp [parseY4, pad4_all_isDig, hv, hlen, h1]

theorem parseMD_pad2 {lo hi n : Nat} (h1 : lo ≤ n) (h2 : n ≤ hi) (h3 : n < 100) :
    parseMD lo hi (pad2 n) = some n := by
  have hv : digitsVal (pad2 n) = n := digitsVal_pad2 n h3
  have hlen : (pad2 n).length = 2 := rfl
  simp [parseMD, pad2_all_isDig, hv, hlen, h1, h2]

theorem parseMD_pad2_none_of_gt {lo hi n : Nat} (h1 : hi < n) (h3 : n < 100) :
    parseMD lo hi (pad2 n) = none := by
  have hv : digitsVal (pad2 n) = n := digitsVal_pad2 n h3
  have hle : ¬ n ≤ hi := by omega
  simp [parseMD, hv, hle]

theorem parseMD_pad4_none (lo hi y : Nat) : parseMD lo hi (pad4 y) = none := by
  simp [parseMD, pad4]

theorem parseY4_pad2_none (n : Nat) : parseY4 (pad2 n) = none := by
  simp [parseY4, pad2]

theorem tryFormat_no_sep {o : FOrder} {sep : Nat} {s : Str} (h : sep ∉ s) :
    tryFormat o sep s = none := by
  rw [tryFormat, splitOnChar_no_sep h]

theorem daysInMonth_le (y m : Nat) : daysInMonth y m ≤ 31 := by
  rw [daysInMonth]
  split
  · split <;> omega
  · split <;> omega

theorem validDate_bounds {y m d : Nat} (h : validDate y m d = true) :
    1 ≤ y ∧ y ≤ 9999 ∧ 1 ≤ m ∧ m ≤ 12 ∧ 1 ≤ d ∧ d ≤ 31 := by
  have h31 := daysInMonth_le y m
  simp only [validDate, Bool.and_eq_true, decide_eq_true_eq] at h
  omega

theorem mem_pad2_ge {n : Nat} : ∀ c ∈ pad2 n, 48 ≤ c :=
  fun c h => (mem_pad2_bounds h).1

theorem mem_pad4_ge {n : Nat} : ∀ c ∈ pad4 n, 48 ≤ c :=
  fun c h => (mem_pad4_bounds h).1

theorem no_ws_fmt3 {A B C : Str} {sep : Nat} (hsep : 45 ≤ sep)
    (hA : ∀ c ∈ A, 48 ≤ c) (hB : ∀ c ∈ B, 48 ≤ c) (hC : ∀ c ∈ C, 48 ≤ c) :
    ∀ c ∈ A ++ sep :: B ++ sep :: C, isWS c = false := by
  intro c hc
  rcases mem_fmt3 hc with h1 | h1 | h1 | h1
  · exact isWS_false_of_ge (le_trans (by omega) (hA c h1))
  · exact isWS_false_of_ge (le_trans (by omega) (hB c h1))
  · exact isWS_false_of_ge (le_trans (by omega) (hC c h1))
  · exact isWS_false_of_ge (h1 ▸ hsep)

theorem tryFormat_ymd_canonical {y m d : Nat} (h : validDate y m d = true) :
    tryFormat .ymd 45 (pyFmtYMD y m d) = some (y, m, d) := by
  obtain ⟨hy1, hy2, hm1, hm2, hd1, hd2⟩ := validDate_bounds h
  have hsplit := @splitOnChar_three 45 (pad4 y) (pad2 m)
    (pad2 d) (not_mem_pad4 (by omega)) (not_mem_pad2 (by omega))
    (not_mem_pad2 (by omega))
  simp only [tryFormat, pyFmtYMD, hsplit, parseY4_pad4 hy1 hy2,
    parseMD_pad2 hm1 hm2 (by omega), parseMD_pad2 hd1 hd2 (by omega), h,
    if_true]

theorem tryFormat_dmy_of_dmy {y m d : Nat} (sep : Nat) (hs : sep < 48)
    (h : validDate y m d = true) :
    tryFormat .dmy sep (pad2 d ++ sep :: pad2 m ++ sep :: pad4 y) = some (y, m, d) := by
  obtain ⟨hy1, hy2, hm1, hm2, hd1, hd2⟩ := validDate_bounds h
  have hsplit := @splitOnChar_three sep (pad2 d) (pad2 m)
    (pad4 y) (not_mem_pad2 hs) (not_mem_pad2 hs) (not_mem_pad4 hs)
  simp only [tryFormat, hsplit, parseY4_pad4 hy1 hy2,
    parseMD_pad2 hm1 hm2 (by omega), parseMD_pad2 hd1 hd2 (by omega), h,
    if_true]

theorem tryFormat_ymd_first_pad2 {o : FOrder} {x y m : Nat}
    (hx : x < 100) (sep : Nat) (hs : sep < 48) (ho : o = .ymd) :
    tryFormat o sep (pad2 x ++ sep :: pad2 m ++ sep :: pad4 y) = none := by
  subst ho
  have hsplit := @splitOnChar_three sep (pad2 x) (pad2 m)
    (pad4 y) (not_mem_pad2 hs) (not_mem_pad2 hs) (not_mem_pad4 hs)
  simp only [tryFormat, hsplit, parseY4_pad2_none]

theorem tryFormat_md_first_pad4 {o : FOrder} {y m d : Nat} (sep : Nat)
    (hs : sep < 48) (ho : ¬ o = FOrder.ymd) :
    tryFormat o sep (pad4 y ++ sep :: pad2 m ++ sep :: pad2 d) = none := by
  have hsplit := @splitOnChar_three sep (pad4 y) (pad2 m)
    (pad2 d) (not_mem_pad4 hs) (not_mem_pad2 hs) (not_mem_pad2 hs)
  cases o with
  | ymd => exact absurd rfl ho
  | dmy => simp only [tryFormat, hsplit, parseMD_pad4_none]
  | mdy => simp only [tryFormat, hsplit, parseMD_pad4_none]

theorem not_mem_fmt_of_lt {c sep : Nat} {A B C : Str} (hc : c < 48)
    (hsep : ¬ c = sep) (hA : ∀ x ∈ A, 48 ≤ x) (hB : ∀ x ∈ B, 48 ≤ x)
    (hC : ∀ x ∈ C, 48 ≤ x) : c ∉ A ++ sep :: B ++ sep :: C := by
  intro h
  rcases mem_fmt3 h with h1 | h1 | h1 | h1
  · exact absurd (hA c h1) (by omega)
  · exact absurd (hB c h1) (by omega)
  · exact absurd (hC c h1) (by omega)
  · exact hsep h1

theorem tryFormat_ymd_of_ymd {y m d : Nat} (sep : Nat) (hs : sep < 48)
    (h : validDate y m d = true) :
    tryFormat .ymd sep (pad4 y ++ sep :: pad2 m ++ sep :: pad2 d) = some (y, m, d) := by
  obtain ⟨hy1, hy2, hm1, hm2, hd1, hd2⟩ := validDate_bounds h
  have hsplit := @splitOnChar_three sep (pad4 y) (pad2 m)
    (pad2 d) (not_mem_pad4 hs) (not_mem_pad2 hs) (not_mem_pad2 hs)
  simp only [tryFormat, hsplit, parseY4_pad4 hy1 hy2,
    parseMD_pad2 hm1 hm2 (by omega), parseMD_pad2 hd1 hd2 (by omega), h, if_true]

theorem parse_date_canonical {y m d : Nat} (h : validDate y m d = true) :
    parse_date (.pstr (pyFmtYMD y m d)) = some (pyFmtYMD y m d) := by
  have hws : stripWS (pyFmtYMD y m d) = pyFmtYMD y m d :=
    stripWS_of_no_ws (by
      simp only [pyFmtYMD]
      exact no_ws_fmt3 (by omega) mem_pad4_ge mem_pad2_ge mem_pad2_ge)
  have h1 : tryFormat .ymd 45 (pyFmtYMD y m d) = some (y, m, d) := by
    simp only [pyFmtYMD]
    exact tryFormat_ymd_of_ymd 45 (by omega) h
  simp only [parse_date, hws, dateFormats, tryFormats, h1, Option.map_some']

theorem parse_date_dots {y m d : Nat} (h : validDate y m d = true) :
    parse_date (.pstr (fmtDotsDMY y m d)) = some (pyFmtYMD y m d) := by
  have hws : stripWS (fmtDotsDMY y m d) = fmtDotsDMY y m d :=
    stripWS_of_no_ws (by
      simp only [fmtDotsDMY]
      exact no_ws_fmt3 (by omega) mem_pad2_ge mem_pad2_ge mem_pad4_ge)
  have hf1 : tryFormat .ymd 45 (fmtDotsDMY y m d) = none :=
    tryFormat_no_sep (by
      simp only [fmtDotsDMY]
      exact not_mem_fmt_of_lt (by omega) (by omega) mem_pad2_ge mem_pad2_ge mem_pad4_ge)
  have hf2 : tryFormat .dmy 46 (fmtDotsDMY y m d) = some (y, m, d) := by
    simp only [fmtDotsDMY]
    exact tryFormat_dmy_of_dmy 46 (by omega) h
  simp only [parse_date, hws, dateFormats, tryFormats, hf1, hf2, Option.map_some']

theorem parse_date_slash_dmy {y m d : Nat} (h : validDate y m d = true) :
    parse_date (.pstr (fmtSlashDMY y m d)) = some (pyFmtYMD y m d) := by
  have hws : stripWS (fmtSlashDMY y m d) = fmtSlashDMY y m d :=
    stripWS_of_no_ws (by
      simp only [fmtSlashDMY]
      exact no_ws_fmt3 (by omega) mem_pad2_ge mem_pad2_ge mem_pad4_ge)
  have hf1 : tryFormat .ymd 45 (fmtSlashDMY y m d) = none :=
    tryFormat_no_sep (by
      simp only [fmtSlashDMY]
      exact not_mem_fmt_of_lt (by omega) (by omega) mem_pad2_ge mem_pad2_ge mem_pad4_ge)
  have hf2 : tryFormat .dmy 46 (fmtSlashDMY y m d) = none :=
    tryFormat_no_sep (by
      simp only [fmtSlashDMY]
      exact not_mem_fmt_of_lt (by omega) (by omega) mem_pad2_ge mem_pad2_ge mem_pad4_ge)
  have hf3 : tryFormat .dmy 47 (fmtSlashDMY y m d) = some (y, m, d) := by
    simp only [fmtSlashDMY]
    exact tryFormat_dmy_of_dmy 47 (by omega) h
  simp only [parse_date, hws, dateFormats, tryFormats, hf1, hf2, hf3,
    Option.map_some']

theorem parse_date_slash_ymd {y m d : Nat} (h : validDate y m d = true) :
    parse_date (.pstr (fmtSlashYMD y m d)) = some (pyFmtYMD y m d) := by
  have hws : stripWS (fmtSlashYMD y m d) = fmtSlashYMD y m d :=
    stripWS_of_no_ws (by
      simp only [fmtSlashYMD]
      exact no_ws_fmt3 (by omega) mem_pad4_ge mem_pad2_ge mem_pad2_ge)
  have hf1 : tryFormat .ymd 45 (fmtSlashYMD y m d) = none :=
    tryFormat_no_sep (by
      simp only [fmtSlashYMD]
      exact not_mem_fmt_of_lt (by omega) (by omega) mem_pad4_ge mem_pad2_ge mem_pad2_ge)
  have hf2 : tryFormat .dmy 46 (fmtSlashYMD y m d) = none :=
    tryFormat_no_sep (by
      simp only [fmtSlashYMD]
      exact not_mem_fmt_of_lt (by omega) (by omega) mem_pad4_ge mem_pad2_ge mem_pad2_ge)
  have hf3 : tryFormat .dmy 47 (fmtSlashYMD y m d) = none := by
    simp only [fmtSlashYMD]
    exact tryFormat_md_first_pad4 47 (by omega) (by intro hc; cases hc)
  have hf4 : tryFormat .mdy 47 (fmtSlashYMD y m d) = none := by
    simp only [fmtSlashYMD]
    exact tryFormat_md_first_pad4 47 (by omega) (by intro hc; cases hc)
  have hf5 : tryFormat .ymd 47 (fmtSlashYMD y m d) = some (y, m, d) := by
    simp only [fmtSlashYMD]
    exact tryFormat_ymd_of_ymd 47 (by omega) h
  simp only [parse_date, hws, dateFormats, tryFormats, hf1, hf2, hf3, hf4, hf5,
    Option.map_some']

theorem parse_date_dash_dmy {y m d : Nat} (h : validDate y m d = true) :
    parse_date (.pstr (fmtDashDMY y m d)) = some (pyFmtYMD y m d) := by
  obtain ⟨hy1, hy2, hm1, hm2, hd1, hd2⟩ := validDate_bounds h
  have hws : stripWS (fmtDashDMY y m d) = fmtDashDMY y m d :=
    stripWS_of_no_ws (by
      simp only [fmtDashDMY]
      exact no_ws_fmt3 (by omega) mem_pad2_ge mem_pad2_ge mem_pad4_ge)
  have hf1 : tryFormat .ymd 45 (fmtDashDMY y m d) = none := by
    simp only [fmtDashDMY]
    exact tryFormat_ymd_first_pad2 (by omega) 45 (by omega) rfl
  have hf2 : tryFormat .dmy 46 (fmtDashDMY y m d) = none :=
    tryFormat_no_sep (by
      simp only [fmtDashDMY]
      exact not_mem_fmt_of_lt (by omega) (by omega) mem_pad2_ge mem_pad2_ge mem_pad4_ge)
  have hf3 : tryFormat .dmy 47 (fmtDashDMY y m d) = none :=
    tryFormat_no_sep (by
      simp only [fmtDashDMY]
      exact not_mem_fmt_of_lt (by omega) (by omega) mem_pad2_ge mem_pad2_ge mem_pad4_ge)
  have hf4 : tryFormat .mdy 47 (fmtDashDMY y m d) = none :=
    tryFormat_no_sep (by
      simp only [fmtDashDMY]
      exact not_mem_fmt_of_lt (by omega) (by omega) mem_pad2_ge mem_pad2_ge mem_pad4_ge)
  have hf5 : tryFormat .ymd 47 (fmtDashDMY y m d) = none :=
    tryFormat_no_sep (by
      simp only [fmtDashDMY]
      exact not_mem_fmt_of_lt (by omega) (by omega) mem_pad2_ge mem_pad2_ge mem_pad4_ge)
  have hf6 : tryFormat .dmy 45 (fmtDashDMY y m d) = some (y, m, d) := by
    simp only [fmtDashDMY]
    exact tryFormat_dmy_of_dmy 45 (by omega) h
  simp only [parse_date, hws, dateFormats, tryFormats, hf1, hf2, hf3, hf4, hf5,
    hf6, Option.map_some']

theorem parse_date_slash_mdy {y m d : Nat} (h : validDate y m d = true)
    (hcase : 12 < d ∨ d = m) :
    parse_date (.pstr (fmtSlashMDY y m d)) = some (pyFmtYMD y m d) := by
  obtain ⟨hy1, hy2, hm1, hm2, hd1, hd2⟩ := validDate_bounds h
  have hws : stripWS (fmtSlashMDY y m d) = fmtSlashMDY y m d :=
    stripWS_of_no_ws (by
      simp only [fmtSlashMDY]
      exact no_ws_fmt3 (by omega) mem_pad2_ge mem_pad2_ge mem_pad4_ge)
  have hf1 : tryFormat .ymd 45 (fmtSlashMDY y m d) = none :=
    tryFormat_no_sep (by
      simp only [fmtSlashMDY]
      exact not_mem_fmt_of_lt (by omega) (by omega) mem_pad2_ge mem_pad2_ge mem_pad4_ge)
  have hf2 : tryFormat .dmy 46 (fmtSlashMDY y m d) = none :=
    tryFormat_no_sep (by
      simp only [fmtSlashMDY]
      exact not_mem_fmt_of_lt (by omega) (by omega) mem_pad2_ge mem_pad2_ge mem_pad4_ge)
  have hsplit := @splitOnChar_three 47 (pad2 m) (pad2 d)
    (pad4 y) (not_mem_pad2 (by omega)) (not_mem_pad2 (by omega))
    (not_mem_pad4 (by omega))
  rcases hcase with hgt | heq
  · have hf3 : tryFormat .dmy 47 (fmtSlashMDY y m d) = none := by
      simp only [tryFormat, fmtSlashMDY, hsplit,
        parseMD_pad2 hm1 (by omega : m ≤ 31) (by omega),
        parseMD_pad2_none_of_gt hgt (by omega)]
    have hf4 : tryFormat .mdy 47 (fmtSlashMDY y m d) = some (y, m, d) := by
      simp only [tryFormat, fmtSlashMDY, hsplit,
        parseMD_pad2 hm1 hm2 (by omega), parseMD_pad2 hd1 hd2 (by omega),
        parseY4_pad4 hy1 hy2, h, if_true]
    simp only [parse_date, hws, dateFormats, tryFormats, hf1, hf2, hf3, hf4,
      Option.map_some']
  · subst heq
    have hf3 : tryFormat .dmy 47 (fmtSlashMDY y d d) = some (y, d, d) := by
      simp only [tryFormat, fmtSlashMDY, hsplit,
        parseMD_pad2 hm1 (by omega : d ≤ 31) (by omega),
        parseMD_pad2 hd1 (by omega : d ≤ 12) (by omega),
        parseY4_pad4 hy1 hy2, h, if_true]
    simp only [parse_date, hws, dateFormats, tryFormats, hf1, hf2, hf3,
      Option.map_some']

/-- C5 counterexample to the claim as stated: `03/04/2024` is the
`MM/DD/YYYY` rendering of 2024-03-04, but the earlier `DD/MM/YYYY`
format captures it first and it parses to 2024-04-03 — so not all six
formats representing one calendar date parse to the same output. -/
theorem c5_claim_counterexample :
    fmtSlashMDY 2024 3 4 = codes "03/04/2024" ∧
    pyFmtYMD 2024 3 4 = codes "2024-03-04" ∧
    parse_date (.pstr (codes "03/04/2024")) = some (codes "2024-04-03") ∧
    ¬ (codes "2024-04-03" = codes "2024-03-04") := by
  refine ⟨by decide, by decide, by decide, by decide⟩

/-- C5 (amended): feeding a date's `YYYY-MM-DD` rendering back in yields
the same string; the `DD.MM.YYYY`, `DD/MM/YYYY`, `YYYY/MM/DD` and
`DD-MM-YYYY` renderings of the same calendar date all parse to the same
normalized output; and the `MM/DD/YYYY` rendering does so only when its
day exceeds 12 or equals the month, because the formats are tried in
the fixed order with `DD/MM` before `MM/DD`, which captures the
ambiguous strings first. -/
theorem c5_parse_date_amended (y m d : Nat) (h : validDate y m d = true) :
    parse_date (.pstr (pyFmtYMD y m d)) = some (pyFmtYMD y m d) ∧
    parse_date (.pstr (fmtDotsDMY y m d)) = some (pyFmtYMD y m d) ∧
    parse_date (.pstr (fmtSlashDMY y m d)) = some (pyFmtYMD y m d) ∧
    parse_date (.pstr (fmtSlashYMD y m d)) = some (pyFmtYMD y m d) ∧
    parse_date (.pstr (fmtDashDMY y m d)) = some (pyFmtYMD y m d) ∧
    ((12 < d ∨ d = m) →
      parse_date (.pstr (fmtSlashMDY y m d)) = some (pyFmtYMD y m d)) :=
  ⟨parse_date_canonical h, parse_date_dots h, parse_date_slash_dmy h,
   parse_date_slash_ymd h, parse_date_dash_dmy h,
   fun hc => parse_date_slash_mdy h hc⟩

/-- C5 witness: the round trip on 2024-02-29 (a leap day) and the
unambiguous `MM/DD/YYYY` rendering of 2024-03-15. -/
theorem c5_parse_date_amended_witness :
    parse_date (.pstr (pyFmtYMD 2024 2 29)) = some (pyFmtYMD 2024 2 29) ∧
    parse_date (.pstr (fmtSlashMDY 2024 3 15)) = some (pyFmtYMD 2024 3 15) :=
  ⟨(c5_parse_date_amended 2024 2 29 (by decide)).1,
   (c5_parse_date_amended 2024 3 15 (by decide)).2.2.2.2.2 (Or.inl (by decide))⟩

theorem lexLt_irrefl (a : Str) : lexLt a a = false := by
  induction a with
  | nil => rfl
  | cons c t ih => simp [lexLt, ih]

theorem lexLt_trichotomy (a b : Str) :
    lexLt a b = true ∨ a = b ∨ lexLt b a = true := by
  induction a generalizing b with
  | nil =>
    cases b with
    | nil => exact Or.inr (Or.inl rfl)
    | cons c t => exact Or.inl rfl
  | cons c t ih =>
    cases b with
    | nil => exact Or.inr (Or.inr rfl)
    | cons c' t' =>
      rcases Nat.lt_trichotomy c c' with h | h | h
      · exact Or.inl (by simp [lexLt, h])
      · subst h
        rcases ih t' with h2 | h2 | h2
        · exact Or.inl (by simp [lexLt, h2])
        · exact Or.inr (Or.inl (by rw [h2]))
        · exact Or.inr (Or.inr (by simp [lexLt, h2]))
      · exact Or.inr (Or.inr (by simp [lexLt, h]))

theorem lexLt_asymm {a b : Str} (h : lexLt a b = true) : lexLt b a = false := by
  induction a generalizing b with
  | nil =>
    cases b with
    | nil => simp [lexLt] at h
    | cons c t => rfl
  | cons c t ih =>
    cases b with
    | nil => simp [lexLt] at h
    | cons c' t' =>
      rcases Nat.lt_trichotomy c c' with h1 | h1 | h1
      · simp [lexLt, h1, Nat.lt_asymm h1, Nat.ne_of_lt h1]
      · subst h1
        simp only [lexLt, lt_irrefl, if_false] at h ⊢
        exact ih h
      · simp [lexLt, h1, Nat.lt_asymm h1] at h

theorem lexLt_trans {a b c : Str} (h1 : lexLt a b = true)
    (h2 : lexLt b c = true) : lexLt a c = true := by
  induction a generalizing b c with
  | nil =>
    cases c with
    | nil => cases b <;> simp [lexLt] at h1 h2
    | cons x t => rfl
  | cons x t ih =>
    cases b with
    | nil => simp [lexLt] at h1
    | cons y u =>
      cases c with
      | nil => simp [lexLt] at h2
      | cons z v =>
        rcases Nat.lt_trichotomy x y with hxy | hxy | hxy
        · rcases Nat.lt_trichotomy y z with hyz | hyz | hyz
          · have : x < z := Nat.lt_trans hxy hyz
            simp [lexLt, this]
          · subst hyz
            simp [lexLt, hxy]
          · simp [lexLt, hyz, Nat.lt_asymm hyz] at h2
        · subst hxy
          rcases Nat.lt_trichotomy x z with hyz | hyz | hyz
          · simp [lexLt, hyz]
          · subst hyz
            simp only [lexLt, lt_irrefl, if_false] at h1 h2 ⊢
            exact ih h1 h2
          · simp [lexLt, hyz, Nat.lt_asymm hyz] at h2
        · simp [lexLt, hxy, Nat.lt_asymm hxy] at h1

theorem lexLt_ge_total (a b : Str) :
    lexLt a b = false ∨ lexLt b a = false := by
  rcases lexLt_trichotomy a b with h | h | h
  · exact Or.inr (lexLt_asymm h)
  · subst h
    exact Or.inl (lexLt_irrefl a)
  · exact Or.inl (lexLt_asymm h)

theorem lexLt_ge_trans {a b c : Str} (h1 : lexLt a b = false)
    (h2 : lexLt b c = false) : lexLt a c = false := by
  by_contra hac
  rw [Bool.not_eq_false] at hac
  rcases lexLt_trichotomy a b with h | h | h
  · rw [h] at h1
    cases h1
  · subst h
    rw [hac] at h2
    cases h2
  · have := lexLt_trans h hac
    rw [this] at h2
    cases h2

theorem lexLt_gt_of_ge_ne {a b : Str} (h1 : lexLt a b = false) (h2 : ¬ a = b) :
    lexLt b a = true := by
  rcases lexLt_trichotomy a b with h | h | h
  · rw [h] at h1
    cases h1
  · exact absurd h h2
  · exact h

theorem lexLt_cons_eq (c : Nat) (t1 t2 : Str) :
    lexLt (c :: t1) (c :: t2) = lexLt t1 t2 := by
  simp [lexLt]

theorem lexLt_pad2 (m1 m2 : Nat) (t1 t2 : Str) :
    lexLt (pad2 m1 ++ t1) (pad2 m2 ++ t2) =
      if m1 % 100 < m2 % 100 then true
      else if m2 % 100 < m1 % 100 then false
      else lexLt t1 t2 := by
  show lexLt ((48 + m1 / 10 % 10) :: (48 + m1 % 10) :: t1)
      ((48 + m2 / 10 % 10) :: (48 + m2 % 10) :: t2) = _
  simp only [lexLt]
  rcases Nat.lt_trichotomy (m1 / 10 % 10) (m2 / 10 % 10) with h | h | h
  · rw [if_pos (show 48 + m1 / 10 % 10 < 48 + m2 / 10 % 10 by omega),
      if_pos (show m1 % 100 < m2 % 100 by omega)]
  · rw [if_neg (show ¬ 48 + m1 / 10 % 10 < 48 + m2 / 10 % 10 by omega),
      if_neg (show ¬ 48 + m2 / 10 % 10 < 48 + m1 / 10 % 10 by omega)]
    rcases Nat.lt_trichotomy (m1 % 10) (m2 % 10) with h2 | h2 | h2
    · rw [if_pos (show 48 + m1 % 10 < 48 + m2 % 10 by omega),
        if_pos (show m1 % 100 < m2 % 100 by omega)]
    · rw [if_neg (show ¬ 48 + m1 % 10 < 48 + m2 % 10 by omega),
        if_neg (show ¬ 48 + m2 % 10 < 48 + m1 % 10 by omega),
        if_neg (show ¬ m1 % 100 < m2 % 100 by omega),
        if_neg (show ¬ m2 % 100 < m1 % 100 by omega)]
    · rw [if_neg (show ¬ 48 + m1 % 10 < 48 + m2 % 10 by omega),
        if_pos (show 48 + m2 % 10 < 48 + m1 % 10 by omega),
        if_neg (show ¬ m1 % 100 < m2 % 100 by omega),
        if_pos (show m2 % 100 < m1 % 100 by omega)]
  · rw [if_neg (show ¬ 48 + m1 / 10 % 10 < 48 + m2 / 10 % 10 by omega),
      if_pos (show 48 + m2 / 10 % 10 < 48 + m1 / 10 % 10 by omega),
      if_neg (show ¬ m1 % 100 < m2 % 100 by omega),
      if_pos (show m2 % 100 < m1 % 100 by omega)]

theorem pad4_eq_pad2_pad2 (n : Nat) : pad4 n = pad2 (n / 100) ++ pad2 n := by
  show [48 + n / 1000 % 10, 48 + n / 100 % 10, 48 + n / 10 % 10, 48 + n % 10] =
    (48 + n / 100 / 10 % 10) :: (48 + n / 100 % 10) :: (48 + n / 10 % 10)
      :: [48 + n % 10]
  rw [show n / 100 / 10 % 10 = n / 1000 % 10 by omega]

theorem lexLt_pad4 (y1 y2 : Nat) (t1 t2 : Str) :
    lexLt (pad4 y1 ++ t1) (pad4 y2 ++ t2) =
      if y1 % 10000 < y2 % 10000 then true
      else if y2 % 10000 < y1 % 10000 then false
      else lexLt t1 t2 := by
  rw [pad4_eq_pad2_pad2, pad4_eq_pad2_pad2, List.append_assoc, List.append_assoc,
    lexLt_pad2, lexLt_pad2]
  rcases Nat.lt_trichotomy (y1 / 100 % 100) (y2 / 100 % 100) with h | h | h
  · rw [if_pos h, if_pos (show y1 % 10000 < y2 % 10000 by omega)]
  · rw [if_neg (show ¬ y1 / 100 % 100 < y2 / 100 % 100 by omega),
      if_neg (show ¬ y2 / 100 % 100 < y1 / 100 % 100 by omega)]
    rcases Nat.lt_trichotomy (y1 % 100) (y2 % 100) with h2 | h2 | h2
    · rw [if_pos h2, if_pos (show y1 % 10000 < y2 % 10000 by omega)]
    · rw [if_neg (show ¬ y1 % 100 < y2 % 100 by omega),
        if_neg (show ¬ y2 % 100 < y1 % 100 by omega),
        if_neg (show ¬ y1 % 10000 < y2 % 10000 by omega),
        if_neg (show ¬ y2 % 10000 < y1 % 10000 by omega)]
    · rw [if_neg (show ¬ y1 % 100 < y2 % 100 by omega), if_pos h2,
        if_neg (show ¬ y1 % 10000 < y2 % 10000 by omega),
        if_pos (show y2 % 10000 < y1 % 10000 by omega)]
  · rw [if_neg (show ¬ y1 / 100 % 100 < y2 / 100 % 100 by omega), if_pos h,
      if_neg (show ¬ y1 % 10000 < y2 % 10000 by omega),
      if_pos (show y2 % 10000 < y1 % 10000 by omega)]

theorem lexLt_pyFmtYMD {y1 m1 d1 y2 m2 d2 : Nat} (hy1 : y1 < 10000)
    (hy2 : y2 < 10000) (hm1 : m1 < 100) (hm2 : m2 < 100) (hd1 : d1 < 100)
    (hd2 : d2 < 100) :
    lexLt (pyFmtYMD y1 m1 d1) (pyFmtYMD y2 m2 d2) =
      if y1 < y2 then true else if y2 < y1 then false
      else if m1 < m2 then true else if m2 < m1 then false
      else if d1 < d2 then true else false := by
  have e1 : pyFmtYMD y1 m1 d1 = pad4 y1 ++ (45 :: (pad2 m1 ++ 45 :: pad2 d1)) := by
    simp [pyFmtYMD, List.append_assoc]
  have e2 : pyFmtYMD y2 m2 d2 = pad4 y2 ++ (45 :: (pad2 m2 ++ 45 :: pad2 d2)) := by
    simp [pyFmtYMD, List.append_assoc]
  rw [e1, e2, lexLt_pad4, Nat.mod_eq_of_lt hy1, Nat.mod_eq_of_lt hy2]
  rcases Nat.lt_trichotomy y1 y2 with h | h | h
  · rw [if_pos h, if_pos h]
  · subst h
    rw [if_neg (lt_irrefl y1), if_neg (lt_irrefl y1), if_neg (lt_irrefl y1),
      if_neg (lt_irrefl y1), lexLt_cons_eq, lexLt_pad2, Nat.mod_eq_of_lt hm1,
      Nat.mod_eq_of_lt hm2]
    rcases Nat.lt_trichotomy m1 m2 with h2 | h2 | h2
    · rw [if_pos h2, if_pos h2]
    · subst h2
      rw [if_neg (lt_irrefl m1), if_neg (lt_irrefl m1), if_neg (lt_irrefl m1),
        if_neg (lt_irrefl m1), lexLt_cons_eq,
        show pad2 d1 = pad2 d1 ++ [] from (List.append_nil _).symm,
        show pad2 d2 = pad2 d2 ++ [] from (List.append_nil _).symm,
        lexLt_pad2, Nat.mod_eq_of_lt hd1, Nat.mod_eq_of_lt hd2]
      rcases Nat.lt_trichotomy d1 d2 with h3 | h3 | h3
      · rw [if_pos h3, if_pos h3]
      · subst h3
        rw [if_neg (lt_irrefl d1), if_neg (lt_irrefl d1), if_neg (lt_irrefl d1)]
        rfl
      · rw [if_neg (Nat.lt_asymm h3), if_pos h3, if_neg (Nat.lt_asymm h3)]
    · rw [if_neg (Nat.lt_asymm h2), if_pos h2, if_neg (Nat.lt_asymm h2),
        if_pos h2]
  · rw [if_neg (Nat.lt_asymm h), if_pos h, if_neg (Nat.lt_asymm h), if_pos h]

theorem validDate_fields {y m d : Nat} (h : validDate y m d = true) :
    1 ≤ y ∧ y ≤ 9999 ∧ 1 ≤ m ∧ m ≤ 12 ∧ 1 ≤ d ∧ d ≤ daysInMonth y m := by
  simp only [validDate, Bool.and_eq_true, decide_eq_true_eq] at h
  exact ⟨h.1.1.1.1.1, h.1.1.1.1.2, h.1.1.1.2, h.1.1.2, h.1.2, h.2⟩

theorem dbm_add_dim {y m : Nat} (h1 : 1 ≤ m) (h2 : m ≤ 12) :
    daysBeforeMonth y m + daysInMonth y m = daysBeforeMonth y (m + 1) := by
  interval_cases m <;> cases hl : isLeap y <;>
    simp [daysBeforeMonth, daysInMonth, hl]

theorem dbm_mono {y : Nat} : ∀ {m1 m2 : Nat}, 1 ≤ m1 → m1 ≤ m2 → m2 ≤ 13 →
    daysBeforeMonth y m1 ≤ daysBeforeMonth y m2 := by
  intro m1 m2 h1 hle h2
  induction m2 with
  | zero => omega
  | succ n ih =>
    rcases Nat.eq_or_lt_of_le hle with he | hlt
    · rw [he]
    · have hm1n : m1 ≤ n := by omega
      have hn1 : 1 ≤ n := by omega
      calc daysBeforeMonth y m1 ≤ daysBeforeMonth y n := ih hm1n (by omega)
        _ ≤ daysBeforeMonth y n + daysInMonth y n := Nat.le_add_right _ _
        _ = daysBeforeMonth y (n + 1) := dbm_add_dim hn1 (by omega)

theorem dbm_13 (y : Nat) : daysBeforeMonth y 13 = daysInYear y := by
  cases hl : isLeap y <;> simp [daysBeforeMonth, daysInYear, hl]

theorem dbm_d_le_diy {y m d : Nat} (h : validDate y m d = true) :
    daysBeforeMonth y m + d ≤ daysInYear y := by
  obtain ⟨_, _, hm1, hm2, hd1, hdim⟩ := validDate_fields h
  calc daysBeforeMonth y m + d ≤ daysBeforeMonth y m + daysInMonth y m :=
        Nat.add_le_add_left hdim _
    _ = daysBeforeMonth y (m + 1) := dbm_add_dim hm1 hm2
    _ ≤ daysBeforeMonth y 13 := dbm_mono (by omega) (by omega) (by omega)
    _ = daysInYear y := dbm_13 y

theorem dby_succ {y : Nat} (h : 1 ≤ y) :
    daysBeforeYear (y + 1) = daysBeforeYear y + daysInYear y := by
  have hy : y - 1 + 1 = y := by omega
  unfold daysBeforeYear
  rw [show y + 1 - 1 = y - 1 + 1 from by omega, List.range_succ,
    List.map_append, List.sum_append]
  simp [hy]

theorem dby_le_succ (y : Nat) : daysBeforeYear y ≤ daysBeforeYear (y + 1) := by
  cases y with
  | zero => exact Nat.zero_le _
  | succ n =>
    rw [dby_succ (show 1 ≤ n + 1 by omega)]
    exact Nat.le_add_right _ _

theorem dby_mono {y1 y2 : Nat} (h : y1 ≤ y2) :
    daysBeforeYear y1 ≤ daysBeforeYear y2 := by
  induction y2 with
  | zero => rw [Nat.le_zero.mp h]
  | succ n ih =>
    rcases Nat.eq_or_lt_of_le h with he | hlt
    · rw [he]
    · exact le_trans (ih (by omega)) (dby_le_succ n)

theorem ordOf_lt_of_lt {y1 m1 d1 y2 m2 d2 : Nat}
    (h1 : validDate y1 m1 d1 = true) (h2 : validDate y2 m2 d2 = true)
    (hlt : y1 < y2 ∨ (y1 = y2 ∧ (m1 < m2 ∨ (m1 = m2 ∧ d1 < d2)))) :
    ordOf y1 m1 d1 < ordOf y2 m2 d2 := by
  obtain ⟨hy1a, _, hm1a, hm1b, hd1a, hd1b⟩ := validDate_fields h1
  obtain ⟨_, _, hm2a, _, hd2a, _⟩ := validDate_fields h2
  unfold ordOf
  rcases hlt with hy | ⟨rfl, hm | ⟨rfl, hd⟩⟩
  · have hA : daysBeforeMonth y1 m1 + d1 ≤ daysInYear y1 := dbm_d_le_diy h1
    have hB : daysBeforeYear y1 + daysInYear y1 ≤ daysBeforeYear y2 := by
      rw [← dby_succ hy1a]
      exact dby_mono (by omega)
    omega
  · have hstep : daysBeforeMonth y1 m1 + daysInMonth y1 m1 =
        daysBeforeMonth y1 (m1 + 1) := dbm_add_dim hm1a hm1b
    have hmono : daysBeforeMonth y1 (m1 + 1) ≤ daysBeforeMonth y1 m2 :=
      dbm_mono (by omega) (by omega) (by omega)
    omega
  · omega

theorem ordKey_canonical {y m d : Nat} (h : validDate y m d = true) :
    ordKey (pyFmtYMD y m d) = ordOf y m d := by
  simp [ordKey, tryFormat_ymd_canonical h]

theorem sortStrsDesc_perm (l : List Str) : List.Perm (sortStrsDesc l) l :=
  List.perm_insertionSort _ l

theorem sortStrsDesc_sorted (l : List Str) :
    (sortStrsDesc l).Pairwise (fun a b => lexLt a b = false) := by
  haveI : IsTotal Str (fun a b => lexLt a b = false) := ⟨lexLt_ge_total⟩
  haveI : IsTrans Str (fun a b => lexLt a b = false) :=
    ⟨fun _ _ _ => lexLt_ge_trans⟩
  exact List.sorted_insertionSort _ l

theorem sortPairsDesc_perm {α : Type} (l : List (Str × α)) :
    List.Perm (sortPairsDesc l) l :=
  List.perm_insertionSort _ l

theorem sortPairsDesc_sorted {α : Type} (l : List (Str × α)) :
    (sortPairsDesc l).Pairwise (fun a b => lexLt a.1 b.1 = false) := by
  haveI : IsTotal (Str × α) (fun a b => lexLt a.1 b.1 = false) :=
    ⟨fun a b => lexLt_ge_total a.1 b.1⟩
  haveI : IsTrans (Str × α) (fun a b => lexLt a.1 b.1 = false) :=
    ⟨fun _ _ _ => lexLt_ge_trans⟩
  exact List.sorted_insertionSort _ l

theorem descend_drop {l : List Nat} (h : l.Pairwise (fun a b => b < a)) :
    ∀ n x, x ∈ l.drop n → x + n ≤ l.headD 0 := by
  induction l with
  | nil =>
    intro n x hx
    simp at hx
  | cons a t ih =>
    intro n x hx
    cases n with
    | zero =>
      simp only [List.drop_zero] at hx
      rcases List.mem_cons.mp hx with rfl | hx
      · simp
      · have := (List.pairwise_cons.mp h).1 x hx
        simp only [List.headD_cons]
        omega
    | succ n =>
      rw [List.drop_succ_cons] at hx
      have h2 := ih (List.pairwise_cons.mp h).2 n x hx
      have hxt : x ∈ t := List.mem_of_mem_drop hx
      cases t with
      | nil => simp at hxt
      | cons b u =>
        have hba := (List.pairwise_cons.mp h).1 b (List.mem_cons_self b u)
        simp only [List.headD_cons] at h2 ⊢
        omega

theorem dayEntryOf_eq_none_of_fail {data : ScrapData} {cutoff : ℤ} {ds : Str}
    (heq : tryFormat .ymd 45 ds = none) : dayEntryOf data cutoff ds = none := by
  unfold dayEntryOf
  rw [heq]

theorem dayEntryOf_eq_of_tryFormat {data : ScrapData} {cutoff : ℤ} {ds : Str}
    {y m d : Nat} (heq : tryFormat .ymd 45 ds = some (y, m, d)) :
    dayEntryOf data cutoff ds =
      if (ordOf y m d : ℤ) < cutoff then none
      else if 0 < sumTP (bucketOf data.by_date ds) then
        some { date := ds
               date_label := monAbbr m ++ [32] ++ pad2 d
               total_parts := sumTP (bucketOf data.by_date ds)
               total_ok := sumOK (bucketOf data.by_date ds)
               total_nok := sumNOK (bucketOf data.by_date ds)
               scrap_rate := round2 (sumNOK (bucketOf data.by_date ds) /
                 sumTP (bucketOf data.by_date ds) * 100)
               quality_rate := round2 (sumOK (bucketOf data.by_date ds) /
                 sumTP (bucketOf data.by_date ds) * 100) }
      else none := by
  unfold dayEntryOf
  rw [heq]

theorem dayEntryOf_spec {data : ScrapData} {cutoff : ℤ} {ds : Str} {e : DayEntry}
    (h : dayEntryOf data cutoff ds = some e) :
    e.date = ds ∧
    e.total_parts = sumTP (bucketOf data.by_date ds) ∧
    e.total_ok = sumOK (bucketOf data.by_date ds) ∧
    e.total_nok = sumNOK (bucketOf data.by_date ds) ∧
    e.scrap_rate = round2 (e.total_nok / e.total_parts * 100) ∧
    e.quality_rate = round2 (e.total_ok / e.total_parts * 100) ∧
    0 < e.total_parts ∧
    ¬ ((ordKey ds : ℤ) < cutoff) := by
  cases heq : tryFormat .ymd 45 ds with
  | none =>
    rw [dayEntryOf_eq_none_of_fail heq] at h
    exact absurd h (by simp)
  | some t =>
    obtain ⟨y, m, d⟩ := t
    rw [dayEntryOf_eq_of_tryFormat heq] at h
    by_cases hcut : (ordOf y m d : ℤ) < cutoff
    · rw [if_pos hcut] at h
      exact absurd h (by simp)
    · rw [if_neg hcut] at h
      by_cases htp : 0 < sumTP (bucketOf data.by_date ds)
      · rw [if_pos htp] at h
        have he := Option.some.inj h
        subst he
        refine ⟨rfl, rfl, rfl, rfl, rfl, rfl, htp, ?_⟩
        rw [show ordKey ds = ordOf y m d by simp [ordKey, heq]]
        exact hcut
      · rw [if_neg htp] at h
        exact absurd h (by simp)

theorem dayEntryOf_canonical_some {data : ScrapData} {cutoff : ℤ} {y m d : Nat}
    (h : validDate y m d = true) (hcut : ¬ ((ordOf y m d : ℤ) < cutoff))
    (htp : 0 < sumTP (bucketOf data.by_date (pyFmtYMD y m d))) :
    ∃ e, dayEntryOf data cutoff (pyFmtYMD y m d) = some e ∧
      e.date = pyFmtYMD y m d := by
  rw [dayEntryOf_eq_of_tryFormat (tryFormat_ymd_canonical h), if_neg hcut,
    if_pos htp]
  exact ⟨_, rfl, rfl⟩

theorem calculate_daily_stats_eq {data : ScrapData} {days : Nat} {d0 : Str}
    {rest : List Str} {ly lm ld : Nat}
    (hL : sortStrsDesc (data.by_date.map Prod.fst) = d0 :: rest)
    (hf : tryFormat .ymd 45 d0 = some (ly, lm, ld)) :
    calculate_daily_stats data days =
      (((d0 :: rest).take days).filterMap
        (dayEntryOf data ((ordOf ly lm ld : ℤ) - ((days : ℤ) - 1)))).reverse := by
  simp only [calculate_daily_stats, hL, hf]

theorem tripleLt_of_lexLt {y1 m1 d1 y2 m2 d2 : Nat}
    (h1 : validDate y1 m1 d1 = true) (h2 : validDate y2 m2 d2 = true)
    (h : lexLt (pyFmtYMD y1 m1 d1) (pyFmtYMD y2 m2 d2) = true) :
    y1 < y2 ∨ (y1 = y2 ∧ (m1 < m2 ∨ (m1 = m2 ∧ d1 < d2))) := by
  obtain ⟨_, hy1b, _, hm1b, _, hd1b⟩ := validDate_fields h1
  obtain ⟨_, hy2b, _, hm2b, _, hd2b⟩ := validDate_fields h2
  have hdm1 := daysInMonth_le y1 m1
  have hdm2 := daysInMonth_le y2 m2
  rw [lexLt_pyFmtYMD (by omega) (by omega) (by omega) (by omega) (by omega)
    (by omega)] at h
  by_cases hy : y1 < y2
  · exact Or.inl hy
  · rw [if_neg hy] at h
    by_cases hy2 : y2 < y1
    · rw [if_pos hy2] at h
      cases h
    · rw [if_neg hy2] at h
      have hyy : y1 = y2 := by omega
      by_cases hm : m1 < m2
      · exact Or.inr ⟨hyy, Or.inl hm⟩
      · rw [if_neg hm] at h
        by_cases hm2 : m2 < m1
        · rw [if_pos hm2] at h
          cases h
        · rw [if_neg hm2] at h
          by_cases hd : d1 < d2
          · exact Or.inr ⟨hyy, Or.inr ⟨by omega, hd⟩⟩
          · rw [if_neg hd] at h
            cases h

theorem ordKey_lt_of_lexLt {a b : Str}
    (ha : ∃ y m d, validDate y m d = true ∧ a = pyFmtYMD y m d)
    (hb : ∃ y m d, validDate y m d = true ∧ b = pyFmtYMD y m d)
    (h : lexLt a b = true) : ordKey a < ordKey b := by
  obtain ⟨y1, m1, d1, hv1, rfl⟩ := ha
  obtain ⟨y2, m2, d2, hv2, rfl⟩ := hb
  rw [ordKey_canonical hv1, ordKey_canonical hv2]
  exact ordOf_lt_of_lt hv1 hv2 (tripleLt_of_lexLt hv1 hv2 h)

theorem ordKey_le_of_ge {a b : Str}
    (ha : ∃ y m d, validDate y m d = true ∧ a = pyFmtYMD y m d)
    (hb : ∃ y m d, validDate y m d = true ∧ b = pyFmtYMD y m d)
    (h : lexLt a b = false) : ordKey b ≤ ordKey a := by
  by_cases he : a = b
  · rw [he]
  · exact le_of_lt (ordKey_lt_of_lexLt hb ha (lexLt_gt_of_ge_ne h he))

/-- The daily-rollup content of C6: with a nonempty date index of
distinct canonical keys, the emitted dates are exactly those within the
`days`-day window ending at the latest date whose summed total-parts is
positive; every emitted row carries that day's totals and rates; and the
rows run chronologically ascending. -/
theorem c6_daily_core (data : ScrapData) (days : Nat) (hdays : 1 ≤ days)
    (hnd : (data.by_date.map Prod.fst).Nodup)
    (hcanon : ∀ k ∈ data.by_date.map Prod.fst, ∃ y m d,
      validDate y m d = true ∧ k = pyFmtYMD y m d)
    (hne : ¬ data.by_date = []) :
    (∃ latest ∈ data.by_date.map Prod.fst,
      (∀ k ∈ data.by_date.map Prod.fst, ordKey k ≤ ordKey latest) ∧
      (∀ k, (∃ e ∈ calculate_daily_stats data days, e.date = k) ↔
        (k ∈ data.by_date.map Prod.fst ∧
         (ordKey latest : ℤ) - ((days : ℤ) - 1) ≤ (ordKey k : ℤ) ∧
         0 < sumTP (bucketOf data.by_date k)))) ∧
    (∀ e ∈ calculate_daily_stats data days,
       e.total_parts = sumTP (bucketOf data.by_date e.date) ∧
       e.total_ok = sumOK (bucketOf data.by_date e.date) ∧
       e.total_nok = sumNOK (bucketOf data.by_date e.date) ∧
       e.scrap_rate = round2 (e.total_nok / e.total_parts * 100) ∧
       e.quality_rate = round2 (e.total_ok / e.total_parts * 100) ∧
       0 < e.total_parts) ∧
    ((calculate_daily_stats data days).map DayEntry.date).Pairwise
      (fun a b => ordKey a < ordKey b) := by
  cases hL : sortStrsDesc (data.by_date.map Prod.fst) with
  | nil =>
    exfalso
    have h0 : data.by_date.map Prod.fst = [] := by
      have hp := sortStrsDesc_perm (data.by_date.map Prod.fst)
      rw [hL] at hp
      exact (hp.symm.eq_nil)
    exact hne (List.map_eq_nil.mp h0)
  | cons d0 rest =>
    have hperm : List.Perm (d0 :: rest) (data.by_date.map Prod.fst) := by
      rw [← hL]
      exact sortStrsDesc_perm _
    have hcanL : ∀ x ∈ d0 :: rest, ∃ y m d,
        validDate y m d = true ∧ x = pyFmtYMD y m d :=
      fun x hx => hcanon x (hperm.mem_iff.mp hx)
    obtain ⟨ly, lm, ld, hv0, he0⟩ := hcanL d0 (List.mem_cons_self d0 rest)
    have hf : tryFormat .ymd 45 d0 = some (ly, lm, ld) := by
      rw [he0]
      exact tryFormat_ymd_canonical hv0
    have hord0 : ordKey d0 = ordOf ly lm ld := by
      rw [he0]
      exact ordKey_canonical hv0
    have hsorted : (d0 :: rest).Pairwise (fun a b => lexLt a b = false) := by
      rw [← hL]
      exact sortStrsDesc_sorted _
    have hnodupL : (d0 :: rest).Nodup := by
      rw [← hL]
      exact (sortStrsDesc_perm _).nodup_iff.mpr hnd
    have hstrict : (d0 :: rest).Pairwise (fun a b => lexLt b a = true) :=
      (hsorted.and hnodupL).imp (fun hab => lexLt_gt_of_ge_ne hab.1 hab.2)
    have hordstrict : (d0 :: rest).Pairwise (fun a b => ordKey b < ordKey a) :=
      hstrict.imp_of_mem (fun {a b} hma hmb hab =>
        ordKey_lt_of_lexLt (hcanL b hmb) (hcanL a hma) hab)
    have hdesc : ((d0 :: rest).map ordKey).Pairwise (fun a b => b < a) :=
      List.pairwise_map.mpr hordstrict
    have hmax : ∀ k ∈ data.by_date.map Prod.fst, ordKey k ≤ ordKey d0 := by
      intro k hk
      rcases List.mem_cons.mp (hperm.mem_iff.mpr hk) with rfl | hkr
      · exact le_refl _
      · exact le_of_lt ((List.pairwise_cons.mp hordstrict).1 k hkr)
    have hstats := @calculate_daily_stats_eq data days _ _ _ _ _ hL hf
    refine ⟨⟨d0, hperm.mem_iff.mp (List.mem_cons_self d0 rest), hmax, ?_⟩, ?_, ?_⟩
    · intro k
      constructor
      · rintro ⟨e, he, rfl⟩
        rw [hstats, List.mem_reverse] at he
        obtain ⟨ds, hds, hsome⟩ := List.mem_filterMap.mp he
        obtain ⟨hdate, htpv, _, _, _, _, htp, hcut⟩ := dayEntryOf_spec hsome
        have hkL : ds ∈ d0 :: rest := List.mem_of_mem_take hds
        refine ⟨by rw [hdate]; exact hperm.mem_iff.mp hkL, ?_, ?_⟩
        · rw [hdate, hord0]
          omega
        · rw [hdate, ← htpv]
          exact htp
      · rintro ⟨hk, hcut, htp⟩
        obtain ⟨y, m, d, hv, hkeq⟩ := hcanon k hk
        have hkL : k ∈ d0 :: rest := hperm.mem_iff.mpr hk
        have hnotdrop : k ∉ (d0 :: rest).drop days := by
          intro hdrop
          have hmem : ordKey k ∈ ((d0 :: rest).map ordKey).drop days := by
            rw [← List.map_drop]
            exact List.mem_map_of_mem _ hdrop
          have hbound := descend_drop hdesc days (ordKey k) hmem
          simp only [List.map_cons, List.headD_cons] at hbound
          rw [hord0] at hcut
          have hok : ordKey k = ordOf y m d := by
            rw [hkeq]
            exact ordKey_canonical hv
          omega
        have hktake : k ∈ (d0 :: rest).take days := by
          have hsplit : k ∈ (d0 :: rest).take days ++ (d0 :: rest).drop days := by
            rw [List.take_append_drop]
            exact hkL
          rcases List.mem_append.mp hsplit with h | h
          · exact h
          · exact absurd h hnotdrop
        have hcut2 : ¬ ((ordOf y m d : ℤ) <
            (ordOf ly lm ld : ℤ) - ((days : ℤ) - 1)) := by
          rw [hord0] at hcut
          have hok : ordKey k = ordOf y m d := by
            rw [hkeq]
            exact ordKey_canonical hv
          omega
        have htp2 : 0 < sumTP (bucketOf data.by_date (pyFmtYMD y m d)) := by
          rw [← hkeq]
          exact htp
        obtain ⟨e, hsome, hdate⟩ := dayEntryOf_canonical_some hv hcut2 htp2
        refine ⟨e, ?_, by rw [hdate, hkeq]⟩
        rw [hstats, List.mem_reverse]
        refine List.mem_filterMap.mpr ⟨k, hktake, ?_⟩
        rw [hkeq]
        exact hsome
    · intro e he
      rw [hstats, List.mem_reverse] at he
      obtain ⟨ds, _, hsome⟩ := List.mem_filterMap.mp he
      obtain ⟨hdate, h1, h2, h3, h4, h5, h6, _⟩ := dayEntryOf_spec hsome
      rw [hdate]
      exact ⟨h1, h2, h3, h4, h5, h6⟩
    · rw [hstats, List.map_reverse, List.pairwise_reverse]
      have hsub : ((((d0 :: rest).take days).filterMap
          (dayEntryOf data ((ordOf ly lm ld : ℤ) - ((days : ℤ) - 1)))).map
            DayEntry.date).Sublist ((d0 :: rest).take days) := by
        generalize (d0 :: rest).take days = l
        induction l with
        | nil => simp
        | cons a t ih =>
          rw [List.filterMap_cons]
          cases hfa : dayEntryOf data ((ordOf ly lm ld : ℤ) - ((days : ℤ) - 1)) a with
          | none => exact List.Sublist.cons a ih
          | some e =>
            rw [List.map_cons, (dayEntryOf_spec hfa).1]
            exact List.Sublist.cons₂ a ih
      have htake : ((d0 :: rest).take days).Pairwise
          (fun a b => ordKey b < ordKey a) :=
        hordstrict.sublist (List.take_sublist days (d0 :: rest))
      exact htake.sublist hsub

theorem digitsVal_append_pad2 (s : Str) (w : Nat) :
    digitsVal (s ++ pad2 w) = digitsVal s * 100 + w % 100 := by
  simp only [digitsVal, pad2, List.foldl_append, List.foldl_cons, List.foldl_nil]
  omega

theorem filter_isDig_pad2 (n : Nat) : (pad2 n).filter isDig = pad2 n :=
  List.filter_eq_self.mpr (fun a ha => by
    have := mem_pad2_bounds ha
    simp [isDig]
    omega)

theorem filter_isDig_pad4 (n : Nat) : (pad4 n).filter isDig = pad4 n :=
  List.filter_eq_self.mpr (fun a ha => by
    have := mem_pad4_bounds ha
    simp [isDig]
    omega)

theorem numKey_wk {y w : Nat} (hy : y < 10000) (hw : w < 100) :
    numKey (pad4 y ++ 45 :: 87 :: pad2 w) = y * 100 + w := by
  unfold numKey
  rw [List.filter_append,
    show List.filter isDig (45 :: 87 :: pad2 w) = List.filter isDig (pad2 w) by
      rw [List.filter_cons, List.filter_cons]
      simp [isDig],
    filter_isDig_pad4, filter_isDig_pad2, digitsVal_append_pad2,
    digitsVal_pad4 y hy, Nat.mod_eq_of_lt hw]

theorem numKey_mo {y m : Nat} (hy : y < 10000) (hm : m < 100) :
    numKey (pad4 y ++ 45 :: pad2 m) = y * 100 + m := by
  unfold numKey
  rw [List.filter_append,
    show List.filter isDig (45 :: pad2 m) = List.filter isDig (pad2 m) by
      rw [List.filter_cons]
      simp [isDig],
    filter_isDig_pad4, filter_isDig_pad2, digitsVal_append_pad2,
    digitsVal_pad4 y hy, Nat.mod_eq_of_lt hm]

theorem lexLt_pad4_ge {y1 y2 : Nat} {t1 t2 : Str} (hy1 : y1 < 10000)
    (hy2 : y2 < 10000) (h : lexLt (pad4 y1 ++ t1) (pad4 y2 ++ t2) = false) :
    y2 < y1 ∨ (y1 = y2 ∧ lexLt t1 t2 = false) := by
  rw [lexLt_pad4, Nat.mod_eq_of_lt hy1, Nat.mod_eq_of_lt hy2] at h
  by_cases h1 : y1 < y2
  · rw [if_pos h1] at h
    cases h
  · rw [if_neg h1] at h
    by_cases h2 : y2 < y1
    · exact Or.inl h2
    · rw [if_neg h2] at h
      exact Or.inr ⟨by omega, h⟩

theorem lexLt_pad2_ge {w1 w2 : Nat} {t1 t2 : Str} (hw1 : w1 < 100)
    (hw2 : w2 < 100) (h : lexLt (pad2 w1 ++ t1) (pad2 w2 ++ t2) = false) :
    w2 < w1 ∨ (w1 = w2 ∧ lexLt t1 t2 = false) := by
  rw [lexLt_pad2, Nat.mod_eq_of_lt hw1, Nat.mod_eq_of_lt hw2] at h
  by_cases h1 : w1 < w2
  · rw [if_pos h1] at h
    cases h
  · rw [if_neg h1] at h
    by_cases h2 : w2 < w1
    · exact Or.inl h2
    · rw [if_neg h2] at h
      exact Or.inr ⟨by omega, h⟩

theorem tryFormat_ymd_valid {sep : Nat} {s : Str} {y m d : Nat}
    (h : tryFormat .ymd sep s = some (y, m, d)) : validDate y m d = true := by
  unfold tryFormat at h
  split at h
  · split at h
    · split at h
      · split at h
        · simp only [Option.some.injEq, Prod.mk.injEq] at h
          obtain ⟨rfl, rfl, rfl⟩ := h
          assumption
        · contradiction
      · contradiction
    · contradiction
    · contradiction
  · contradiction

theorem weekU_le {y m d : Nat} (h : validDate y m d = true) :
    weekU y m d ≤ 53 := by
  have h1 : daysBeforeMonth y m + d ≤ daysInYear y := dbm_d_le_diy h
  have h2 : daysInYear y ≤ 366 := by
    unfold daysInYear
    split <;> omega
  have h3 : daysBeforeMonth y 1 = 0 := by simp [daysBeforeMonth]
  unfold weekU wdayOf ordOf
  rw [h3]
  omega

theorem wkInsert_keys {key : Str} {y m d : Nat} {recs : List Rec} :
    ∀ {t : List (Str × WkAcc)} {k' : Str},
      k' ∈ (wkInsert key y m d recs t).map Prod.fst →
      k' = key ∨ k' ∈ t.map Prod.fst := by
  intro t
  induction t with
  | nil =>
    intro k' hk'
    simp [wkInsert] at hk'
    exact Or.inl hk'
  | cons p rest ih =>
    intro k' hk'
    obtain ⟨k, a⟩ := p
    unfold wkInsert at hk'
    by_cases hkk : k = key
    · rw [if_pos hkk] at hk'
      simp only [List.map_cons] at hk' ⊢
      exact Or.inr hk'
    · rw [if_neg hkk] at hk'
      simp only [List.map_cons] at hk' ⊢
      rcases List.mem_cons.mp hk' with h | h
      · exact Or.inr (List.mem_cons.mpr (Or.inl h))
      · rcases ih h with h2 | h2
        · exact Or.inl h2
        · exact Or.inr (List.mem_cons.mpr (Or.inr h2))

theorem moInsert_keys {key : Str} {recs : List Rec} :
    ∀ {t : List (Str × MoAcc)} {k' : Str},
      k' ∈ (moInsert key recs t).map Prod.fst →
      k' = key ∨ k' ∈ t.map Prod.fst := by
  intro t
  induction t with
  | nil =>
    intro k' hk'
    simp [moInsert] at hk'
    exact Or.inl hk'
  | cons p rest ih =>
    intro k' hk'
    obtain ⟨k, a⟩ := p
    unfold moInsert at hk'
    by_cases hkk : k = key
    · rw [if_pos hkk] at hk'
      simp only [List.map_cons] at hk' ⊢
      exact Or.inr hk'
    · rw [if_neg hkk] at hk'
      simp only [List.map_cons] at hk' ⊢
      rcases List.mem_cons.mp hk' with h | h
      · exact Or.inr (List.mem_cons.mpr (Or.inl h))
      · rcases ih h with h2 | h2
        · exact Or.inl h2
        · exact Or.inr (List.mem_cons.mpr (Or.inr h2))

theorem wk_tbl_shape (data : ScrapData) :
    ∀ k ∈ ((data.by_date.foldl (fun t p =>
        match tryFormat .ymd 45 p.1 with
        | none => t
        | some (y, m, d) => wkInsert (yearWeekKey y m d) y m d p.2 t) []).map
          Prod.fst),
      ∃ y w, y ≤ 9999 ∧ w ≤ 53 ∧ k = pad4 y ++ 45 :: 87 :: pad2 w := by
  suffices hgen : ∀ (l : Buckets) (init : List (Str × WkAcc)),
      (∀ k ∈ init.map Prod.fst, ∃ y w, y ≤ 9999 ∧ w ≤ 53 ∧
        k = pad4 y ++ 45 :: 87 :: pad2 w) →
      ∀ k ∈ ((l.foldl (fun t p =>
        match tryFormat .ymd 45 p.1 with
        | none => t
        | some (y, m, d) => wkInsert (yearWeekKey y m d) y m d p.2 t) init).map
          Prod.fst),
      ∃ y w, y ≤ 9999 ∧ w ≤ 53 ∧ k = pad4 y ++ 45 :: 87 :: pad2 w by
    exact hgen data.by_date [] (by simp)
  intro l
  induction l with
  | nil =>
    intro init hinit k hk
    exact hinit k hk
  | cons p rest ih =>
    intro init hinit k hk
    rw [List.foldl_cons] at hk
    refine ih _ ?_ k hk
    intro k' hk'
    cases hfp : tryFormat .ymd 45 p.1 with
    | none =>
      rw [hfp] at hk'
      exact hinit k' hk'
    | some t3 =>
      obtain ⟨y, m, d⟩ := t3
      rw [hfp] at hk'
      rcases wkInsert_keys hk' with h | h
      · have hval := tryFormat_ymd_valid hfp
        obtain ⟨_, hy2, _, _, _, _⟩ := validDate_fields hval
        exact ⟨y, weekU y m d, hy2, weekU_le hval, by rw [h]; rfl⟩
      · exact hinit k' h

theorem mo_tbl_shape (data : ScrapData) :
    ∀ k ∈ ((data.by_date.foldl (fun t p =>
        match tryFormat .ymd 45 p.1 with
        | none => t
        | some (y, m, _) => moInsert (pad4 y ++ 45 :: pad2 m) p.2 t) []).map
          Prod.fst),
      ∃ y m, y ≤ 9999 ∧ m ≤ 12 ∧ k = pad4 y ++ 45 :: pad2 m := by
  suffices hgen : ∀ (l : Buckets) (init : List (Str × MoAcc)),
      (∀ k ∈ init.map Prod.fst, ∃ y m, y ≤ 9999 ∧ m ≤ 12 ∧
        k = pad4 y ++ 45 :: pad2 m) →
      ∀ k ∈ ((l.foldl (fun t p =>
        match tryFormat .ymd 45 p.1 with
        | none => t
        | some (y, m, _) => moInsert (pad4 y ++ 45 :: pad2 m) p.2 t) init).map
          Prod.fst),
      ∃ y m, y ≤ 9999 ∧ m ≤ 12 ∧ k = pad4 y ++ 45 :: pad2 m by
    exact hgen data.by_date [] (by simp)
  intro l
  induction l with
  | nil =>
    intro init hinit k hk
    exact hinit k hk
  | cons p rest ih =>
    intro init hinit k hk
    rw [List.foldl_cons] at hk
    refine ih _ ?_ k hk
    intro k' hk'
    cases hfp : tryFormat .ymd 45 p.1 with
    | none =>
      rw [hfp] at hk'
      exact hinit k' hk'
    | some t3 =>
      obtain ⟨y, m, d⟩ := t3
      rw [hfp] at hk'
      rcases moInsert_keys hk' with h | h
      · have hval := tryFormat_ymd_valid hfp
        obtain ⟨_, hy2, _, hm2, _, _⟩ := validDate_fields hval
        exact ⟨y, m, hy2, hm2, h⟩
      · exact hinit k' h

theorem weekly_order_of_shape {tbl : List (Str × WkAcc)}
    (hshape : ∀ k ∈ tbl.map Prod.fst, ∃ y w, y ≤ 9999 ∧ w ≤ 53 ∧
      k = pad4 y ++ 45 :: 87 :: pad2 w) :
    (((sortPairsDesc tbl).map (fun p => mkWkEntry p.1 p.2)).map
      WkEntry.week).Pairwise (fun a b => numKey b ≤ numKey a) := by
  rw [List.map_map]
  refine List.pairwise_map.mpr ?_
  have hsorted := sortPairsDesc_sorted tbl
  have hshape2 : ∀ pr ∈ sortPairsDesc tbl, ∃ y w, y ≤ 9999 ∧ w ≤ 53 ∧
      pr.1 = pad4 y ++ 45 :: 87 :: pad2 w := by
    intro pr hpr
    exact hshape pr.1 (List.mem_map_of_mem _ ((sortPairsDesc_perm tbl).mem_iff.mp hpr))
  refine hsorted.imp_of_mem (fun {p q} hp hq hpq => ?_)
  obtain ⟨y1, w1, hy1, hw1, he1⟩ := hshape2 p hp
  obtain ⟨y2, w2, hy2, hw2, he2⟩ := hshape2 q hq
  show numKey (mkWkEntry q.1 q.2).week ≤ numKey (mkWkEntry p.1 p.2).week
  have hwk1 : (mkWkEntry p.1 p.2).week = p.1 := rfl
  have hwk2 : (mkWkEntry q.1 q.2).week = q.1 := rfl
  rw [hwk1, hwk2, he1, he2]
  rw [he1, he2] at hpq
  rw [numKey_wk (by omega) (by omega), numKey_wk (by omega) (by omega)]
  rcases lexLt_pad4_ge (by omega) (by omega) hpq with h | ⟨heq, hrest⟩
  · omega
  · rw [lexLt_cons_eq, lexLt_cons_eq,
      show pad2 w1 = pad2 w1 ++ [] from (List.append_nil _).symm,
      show pad2 w2 = pad2 w2 ++ [] from (List.append_nil _).symm] at hrest
    rcases lexLt_pad2_ge (by omega) (by omega) hrest with h2 | ⟨heq2, _⟩ <;> omega

theorem monthly_order_of_shape {tbl : List (Str × MoAcc)}
    (hshape : ∀ k ∈ tbl.map Prod.fst, ∃ y m, y ≤ 9999 ∧ m ≤ 12 ∧
      k = pad4 y ++ 45 :: pad2 m) :
    (((sortPairsDesc tbl).map (fun p => mkMoEntry p.1 p.2)).map
      MoEntry.month).Pairwise (fun a b => numKey b ≤ numKey a) := by
  rw [List.map_map]
  refine List.pairwise_map.mpr ?_
  have hsorted := sortPairsDesc_sorted tbl
  have hshape2 : ∀ pr ∈ sortPairsDesc tbl, ∃ y m, y ≤ 9999 ∧ m ≤ 12 ∧
      pr.1 = pad4 y ++ 45 :: pad2 m := by
    intro pr hpr
    exact hshape pr.1 (List.mem_map_of_mem _ ((sortPairsDesc_perm tbl).mem_iff.mp hpr))
  refine hsorted.imp_of_mem (fun {p q} hp hq hpq => ?_)
  obtain ⟨y1, m1, hy1, hm1, he1⟩ := hshape2 p hp
  obtain ⟨y2, m2, hy2, hm2, he2⟩ := hshape2 q hq
  show numKey (mkMoEntry q.1 q.2).month ≤ numKey (mkMoEntry p.1 p.2).month
  have hmo1 : (mkMoEntry p.1 p.2).month = p.1 := rfl
  have hmo2 : (mkMoEntry q.1 q.2).month = q.1 := rfl
  rw [hmo1, hmo2, he1, he2]
  rw [he1, he2] at hpq
  rw [numKey_mo (by omega) (by omega), numKey_mo (by omega) (by omega)]
  rcases lexLt_pad4_ge (by omega) (by omega) hpq with h | ⟨heq, hrest⟩
  · omega
  · rw [lexLt_cons_eq,
      show pad2 m1 = pad2 m1 ++ [] from (List.append_nil _).symm,
      show pad2 m2 = pad2 m2 ++ [] from (List.append_nil _).symm] at hrest
    rcases lexLt_pad2_ge (by omega) (by omega) hrest with h2 | ⟨heq2, _⟩ <;> omega

theorem c6_weekly_order (data : ScrapData) :
    ((calculate_weekly_stats data).map WkEntry.week).Pairwise
      (fun a b => numKey b ≤ numKey a) := by
  simp only [calculate_weekly_stats]
  exact weekly_order_of_shape (wk_tbl_shape data)

theorem c6_monthly_order (data : ScrapData) :
    ((calculate_monthly_stats data).map MoEntry.month).Pairwise
      (fun a b => numKey b ≤ numKey a) := by
  simp only [calculate_monthly_stats]
  exact monthly_order_of_shape (mo_tbl_shape data)

/-- C6: over a nonempty date index of distinct canonical `YYYY-MM-DD`
keys, the daily rollup with window `days` contains exactly the index
dates on or after the single latest date minus `days - 1` calendar days
whose aggregate total-parts is positive; each emitted row carries that
day's summed totals with its scrap rate and quality rate; the rows run
chronologically ascending — while the weekly and monthly rollups are
ordered newest-first (their `YYYY-W##` / `YYYY-MM` key sequences are
descending in year-then-period order). -/
theorem c6_daily_rollup (data : ScrapData) (days : Nat) (hdays : 1 ≤ days)
    (hnd : (data.by_date.map Prod.fst).Nodup)
    (hcanon : ∀ k ∈ data.by_date.map Prod.fst, ∃ y m d,
      validDate y m d = true ∧ k = pyFmtYMD y m d)
    (hne : ¬ data.by_date = []) :
    ((∃ latest ∈ data.by_date.map Prod.fst,
      (∀ k ∈ data.by_date.map Prod.fst, ordKey k ≤ ordKey latest) ∧
      (∀ k, (∃ e ∈ calculate_daily_stats data days, e.date = k) ↔
        (k ∈ data.by_date.map Prod.fst ∧
         (ordKey latest : ℤ) - ((days : ℤ) - 1) ≤ (ordKey k : ℤ) ∧
         0 < sumTP (bucketOf data.by_date k)))) ∧
    (∀ e ∈ calculate_daily_stats data days,
       e.total_parts = sumTP (bucketOf data.by_date e.date) ∧
       e.total_ok = sumOK (bucketOf data.by_date e.date) ∧
       e.total_nok = sumNOK (bucketOf data.by_date e.date) ∧
       e.scrap_rate = round2 (e.total_nok / e.total_parts * 100) ∧
       e.quality_rate = round2 (e.total_ok / e.total_parts * 100) ∧
       0 < e.total_parts) ∧
    ((calculate_daily_stats data days).map DayEntry.date).Pairwise
      (fun a b => ordKey a < ordKey b)) ∧
    ((calculate_weekly_stats data).map WkEntry.week).Pairwise
      (fun a b => numKey b ≤ numKey a) ∧
    ((calculate_monthly_stats data).map MoEntry.month).Pairwise
      (fun a b => numKey b ≤ numKey a) :=
  ⟨c6_daily_core data days hdays hnd hcanon hne, c6_weekly_order data,
   c6_monthly_order data⟩

/-- C6 witness: the daily-rollup characterization instantiated on a
concrete two-day date index with the default 14-day window. -/
theorem c6_daily_rollup_witness :
    ((∃ latest ∈ c6data.by_date.map Prod.fst,
      (∀ k ∈ c6data.by_date.map Prod.fst, ordKey k ≤ ordKey latest) ∧
      (∀ k, (∃ e ∈ calculate_daily_stats c6data 14, e.date = k) ↔
        (k ∈ c6data.by_date.map Prod.fst ∧
         (ordKey latest : ℤ) - ((14 : ℤ) - 1) ≤ (ordKey k : ℤ) ∧
         0 < sumTP (bucketOf c6data.by_date k)))) ∧
    (∀ e ∈ calculate_daily_stats c6data 14,
       e.total_parts = sumTP (bucketOf c6data.by_date e.date) ∧
       e.total_ok = sumOK (bucketOf c6data.by_date e.date) ∧
       e.total_nok = sumNOK (bucketOf c6data.by_date e.date) ∧
       e.scrap_rate = round2 (e.total_nok / e.total_parts * 100) ∧
       e.quality_rate = round2 (e.total_ok / e.total_parts * 100) ∧
       0 < e.total_parts) ∧
    ((calculate_daily_stats c6data 14).map DayEntry.date).Pairwise
      (fun a b => ordKey a < ordKey b)) ∧
    ((calculate_weekly_stats c6data).map WkEntry.week).Pairwise
      (fun a b => numKey b ≤ numKey a) ∧
    ((calculate_monthly_stats c6data).map MoEntry.month).Pairwise
      (fun a b => numKey b ≤ numKey a) :=
  c6_daily_rollup c6data 14 (by decide) (by decide)
    (by
      intro k hk
      rw [show c6data.by_date.map Prod.fst =
        [codes "2024-01-05", codes "2024-01-04"] from rfl] at hk
      rcases List.mem_cons.mp hk with rfl | hk2
      · exact ⟨2024, 1, 5, by decide, by decide⟩
      · rcases List.mem_cons.mp hk2 with rfl | hk3
        · exact ⟨2024, 1, 4, by decide, by decide⟩
        · exact absurd hk3 (by simp))
    (by simp [c6data])

end ScrapRate
